import Mathlib

/-!
# Amazon receipt validator (`amazon/validator.go`)

A shallow embedding of package `amazon`: the two constructors `New` and
`NewWithConfig`, and `Client.Verify`.

`Verify` calls three library routines.  Each is embedded below as far as
`Verify` uses it:

* `fmt.Sprintf` / `fmt.Errorf` with the verb `%v`;
* `gorequest.New().Get(url).Timeout(t).End()`, a parameter of `Verify`
  (type `Transport`): the network is the environment of the program;
* `json.NewDecoder(strings.NewReader(body)).Decode(&v)` for the two struct
  types `IAPResponse` and `IAPResponseError`: reading the first JSON value of
  the stream (the scanner of `encoding/json`), then storing it in the struct.

Go strings are modelled by `String` (bodies are taken to be valid UTF-8),
`int64` and `time.Duration` by `Int`, the interface type `error` by
`Option GoError` with `none` for `nil`.

What a body is, as a JSON text, is said apart from the decoder: `Text` is the
grammar of RFC 8259 together with the value a text writes, `sameName`,
`ReadsString`, `ReadsInt64` and `ReadsBool` say which member names which field
and holds a value of its type.  The decoder is proved sound and complete for
the grammar (`sound`, `Text.complete`), and the statements about `Verify` are
made with the grammar.
-/

namespace amazon

/-! ## Errors -/

/-- The errors `Decoder.Decode` returns.  Only the kind of the error is kept
(and, for a type mismatch, the description of the JSON value, field `Value` of
`json.UnmarshalTypeError`); offsets and message texts are left out. -/
inductive JsonError where
  /-- `io.EOF`: the stream holds no value at all -/
  | EOF
  /-- `io.ErrUnexpectedEOF`: the stream ends inside a value -/
  | ErrUnexpectedEOF
  /-- `*json.SyntaxError` -/
  | SyntaxError
  /-- `*json.UnmarshalTypeError` -/
  | UnmarshalTypeError (Value : String)
deriving DecidableEq, Repr

/-- A non-nil value of Go's interface type `error`, as `Verify` produces them. -/
inductive GoError where
  /-- the value of `errors.New(s)` and of `fmt.Errorf` without `%w`: its `Error()` is `s` -/
  | errorString (s : String)
  /-- an error of `encoding/json`, returned as it is -/
  | json (e : JsonError)
deriving DecidableEq, Repr

/-! ## `encoding/json`: the scanner -/

/-- A JSON value as the decoder sees it.  A number keeps its literal text, a
string is already unquoted, an object keeps its members in order, duplicates
included. -/
inductive JSON where
  | null
  | bool (b : Bool)
  | num (lit : String)
  | str (s : String)
  | arr (elems : List JSON)
  | obj (members : List (String × JSON))

/-- Outcome of scanning a prefix of the input. -/
inductive Scan (α : Type) where
  /-- a value was read; `rest` is the input that follows it -/
  | ok (a : α) (rest : List Char)
  /-- the scanner or the reader reported `e` -/
  | error (e : JsonError)
  /-- the recursion budget of the embedding ran out (see `firstValue_ne_exhausted`) -/
  | exhausted

/-- Applies `f` to the value read. -/
def Scan.map {α β : Type} (f : α → β) : Scan α → Scan β
  | .ok a rest => .ok (f a) rest
  | .error e => .error e
  | .exhausted => .exhausted

/-- Go: `isSpace` of `scanner.go`. -/
def isSpace (c : Char) : Bool :=
  c = ' ' || c = '\t' || c = '\r' || c = '\n'

/-- Skips the blanks the scanner skips between tokens. -/
def skipSpace : List Char → List Char
  | [] => []
  | c :: cs => if isSpace c then skipSpace cs else c :: cs

/-- Decimal digit. -/
def isDigit (c : Char) : Bool := 48 ≤ c.toNat && c.toNat ≤ 57

/-- Value of a hexadecimal digit (`getu4` and `stateInStringEscU`). -/
def hexVal (c : Char) : Option Nat :=
  if 48 ≤ c.toNat && c.toNat ≤ 57 then some (c.toNat - 48)
  else if 97 ≤ c.toNat && c.toNat ≤ 102 then some (c.toNat - 97 + 10)
  else if 65 ≤ c.toNat && c.toNat ≤ 70 then some (c.toNat - 65 + 10)
  else none

/-- Go: `getu4` of `decode.go`: the code unit of a leading `\uXXXX`, if there is one. -/
def getu4 : List Char → Option Nat
  | '\\' :: 'u' :: a :: b :: c :: d :: _ =>
    match hexVal a, hexVal b, hexVal c, hexVal d with
    | some x, some y, some z, some w => some (((x * 16 + y) * 16 + z) * 16 + w)
    | _, _, _, _ => none
  | _ => none

/-- Go: `unicode.ReplacementChar`. -/
def replacementChar : Char := Char.ofNat 0xFFFD

/-- Go: `utf16.IsSurrogate`. -/
def isSurrogate (r : Nat) : Bool := 0xd800 ≤ r && r < 0xe000

/-- Go: `utf16.DecodeRune`. -/
def decodeRune (r1 r2 : Nat) : Char :=
  if 0xd800 ≤ r1 && r1 < 0xdc00 && 0xdc00 ≤ r2 && r2 < 0xe000 then
    Char.ofNat ((r1 - 0xd800) * 1024 + (r2 - 0xdc00) + 0x10000)
  else replacementChar

/-- Where the scanner stands inside a string literal. -/
inductive StrState where
  /-- `stateInString` -/
  | inString
  /-- `stateInStringEsc`: after a backslash -/
  | esc
  /-- `stateInStringEscU`, `U1`, `U12`, `U123`: `k` hex digits read, of value `r` -/
  | escU (k : Nat) (r : Nat)
  /-- inside the second escape of a surrogate pair already decoded: `k + 1` characters to pass -/
  | low (k : Nat)

/-- Reads a string literal after its opening quote and unquotes it, in one
pass: the states are those of `scanner.go`, the characters written are those of
`unquoteBytes` (`decode.go`).  `acc` holds the characters written so far,
last first. -/
def scanString (st : StrState) (acc : List Char) : List Char → Scan String
  | [] => .error .ErrUnexpectedEOF
  | c :: cs =>
    match st with
    | .low 0 => scanString .inString acc cs
    | .low (k + 1) => scanString (.low k) acc cs
    | .inString =>
      if c = '"' then .ok (String.mk acc.reverse) cs
      else if c = '\\' then scanString .esc acc cs
      else if c.toNat < 0x20 then .error .SyntaxError
      else scanString .inString (c :: acc) cs
    | .esc =>
      if c = 'u' then scanString (.escU 0 0) acc cs
      else if c = '"' ∨ c = '\\' ∨ c = '/' then scanString .inString (c :: acc) cs
      else if c = 'b' then scanString .inString (Char.ofNat 8 :: acc) cs
      else if c = 'f' then scanString .inString (Char.ofNat 12 :: acc) cs
      else if c = 'n' then scanString .inString ('\n' :: acc) cs
      else if c = 'r' then scanString .inString ('\r' :: acc) cs
      else if c = 't' then scanString .inString ('\t' :: acc) cs
      else .error .SyntaxError
    | .escU k r =>
      match hexVal c with
      | none => .error .SyntaxError
      | some h =>
        let rr := r * 16 + h
        if k < 3 then scanString (.escU (k + 1) rr) acc cs
        else if isSurrogate rr then
          match getu4 cs with
          | some rr1 =>
            if decodeRune rr rr1 = replacementChar then
              scanString .inString (replacementChar :: acc) cs
            else scanString (.low 5) (decodeRune rr rr1 :: acc) cs
          | none => scanString .inString (replacementChar :: acc) cs
        else scanString .inString (Char.ofNat rr :: acc) cs

/-- Where the scanner stands inside a number literal. -/
inductive NumState where
  /-- `stateNeg`: after the minus sign -/
  | neg
  /-- `state0`: after a leading zero -/
  | zero
  /-- `state1`: in the integer part -/
  | int
  /-- `stateDot`: after the decimal point -/
  | dot
  /-- `stateDot0`: in the fraction -/
  | dot0
  /-- `stateE`: after `e` or `E` -/
  | e
  /-- `stateESign`: after the sign of the exponent -/
  | eSign
  /-- `stateE0`: in the exponent -/
  | e0
deriving DecidableEq

/-- The states in which a number literal may end. -/
def NumState.final : NumState → Bool
  | .zero | .int | .dot0 | .e0 => true
  | _ => false

/-- Reads a number literal; `acc` holds its characters so far, last first.
The literal ends before the first character that cannot continue it. -/
def scanNumber (st : NumState) (acc : List Char) : List Char → Scan String
  | [] => if st.final then .ok (String.mk acc.reverse) [] else .error .ErrUnexpectedEOF
  | c :: cs =>
    match st with
    | .neg =>
      if c = '0' then scanNumber .zero (c :: acc) cs
      else if isDigit c then scanNumber .int (c :: acc) cs
      else .error .SyntaxError
    | .int =>
      if isDigit c then scanNumber .int (c :: acc) cs
      else if c = '.' then scanNumber .dot (c :: acc) cs
      else if c = 'e' ∨ c = 'E' then scanNumber .e (c :: acc) cs
      else .ok (String.mk acc.reverse) (c :: cs)
    | .zero =>
      if c = '.' then scanNumber .dot (c :: acc) cs
      else if c = 'e' ∨ c = 'E' then scanNumber .e (c :: acc) cs
      else .ok (String.mk acc.reverse) (c :: cs)
    | .dot =>
      if isDigit c then scanNumber .dot0 (c :: acc) cs else .error .SyntaxError
    | .dot0 =>
      if isDigit c then scanNumber .dot0 (c :: acc) cs
      else if c = 'e' ∨ c = 'E' then scanNumber .e (c :: acc) cs
      else .ok (String.mk acc.reverse) (c :: cs)
    | .e =>
      if c = '+' ∨ c = '-' then scanNumber .eSign (c :: acc) cs
      else if isDigit c then scanNumber .e0 (c :: acc) cs
      else .error .SyntaxError
    | .eSign =>
      if isDigit c then scanNumber .e0 (c :: acc) cs else .error .SyntaxError
    | .e0 =>
      if isDigit c then scanNumber .e0 (c :: acc) cs
      else .ok (String.mk acc.reverse) (c :: cs)

/-- Reads the rest of one of the words `true`, `false`, `null`
(`stateT` ... `stateNul`). -/
def scanWord : List Char → List Char → Scan Unit
  | [], cs => .ok () cs
  | _ :: _, [] => .error .ErrUnexpectedEOF
  | w :: ws, c :: cs => if c = w then scanWord ws cs else .error .SyntaxError

/-- Go: `maxNestingDepth` of `scanner.go`. -/
def maxNestingDepth : Nat := 10000

mutual

/-- Reads one JSON value at the head of the input (`stateBeginValue`).  The
input starts at the first character of the value, `depth` is the number of
arrays and objects open around it, `n` bounds the recursion. -/
def value : (n : Nat) → (depth : Nat) → List Char → Scan JSON
  | 0, _, _ => .exhausted
  | _ + 1, _, [] => .error .ErrUnexpectedEOF
  | n + 1, depth, c :: cs =>
    if c = Char.ofNat 123 then
      if maxNestingDepth ≤ depth then .error .SyntaxError
      else
        match skipSpace cs with
        | [] => .error .ErrUnexpectedEOF
        | c1 :: cs1 =>
          if c1 = Char.ofNat 125 then .ok (.obj []) cs1
          else
            (members n (depth + 1) (c1 :: cs1)).map .obj
    else if c = '[' then
      if maxNestingDepth ≤ depth then .error .SyntaxError
      else
        match skipSpace cs with
        | [] => .error .ErrUnexpectedEOF
        | c1 :: cs1 =>
          if c1 = ']' then .ok (.arr []) cs1
          else
            (elements n (depth + 1) (c1 :: cs1)).map .arr
    else if c = '"' then
      (scanString .inString [] cs).map .str
    else if c = '-' then
      (scanNumber .neg [c] cs).map .num
    else if c = '0' then
      (scanNumber .zero [c] cs).map .num
    else if isDigit c then
      (scanNumber .int [c] cs).map .num
    else if c = 't' then
      (scanWord ['r', 'u', 'e'] cs).map (fun _ => .bool true)
    else if c = 'f' then
      (scanWord ['a', 'l', 's', 'e'] cs).map (fun _ => .bool false)
    else if c = 'n' then
      (scanWord ['u', 'l', 'l'] cs).map (fun _ => .null)
    else .error .SyntaxError

/-- Reads the elements of an array up to its closing bracket.  The input
starts at the first character of an element. -/
def elements : (n : Nat) → (depth : Nat) → List Char → Scan (List JSON)
  | 0, _, _ => .exhausted
  | n + 1, depth, cs =>
    match value n depth cs with
    | .error e => .error e
    | .exhausted => .exhausted
    | .ok v rest =>
      match skipSpace rest with
      | [] => .error .ErrUnexpectedEOF
      | c :: cs1 =>
        if c = ']' then .ok [v] cs1
        else if c = ',' then
          (elements n depth (skipSpace cs1)).map (v :: ·)
        else .error .SyntaxError

/-- Reads the members of an object up to its closing brace.  The input starts
at the first character of a key, which has to be a quote. -/
def members : (n : Nat) → (depth : Nat) → List Char → Scan (List (String × JSON))
  | 0, _, _ => .exhausted
  | _ + 1, _, [] => .error .ErrUnexpectedEOF
  | n + 1, depth, c :: cs =>
    if c = '"' then
      match scanString .inString [] cs with
      | .error e => .error e
      | .exhausted => .exhausted
      | .ok key rest =>
        match skipSpace rest with
        | [] => .error .ErrUnexpectedEOF
        | c1 :: cs1 =>
          if c1 = ':' then
            match value n depth (skipSpace cs1) with
            | .error e => .error e
            | .exhausted => .exhausted
            | .ok v rest1 =>
              match skipSpace rest1 with
              | [] => .error .ErrUnexpectedEOF
              | c2 :: cs2 =>
                if c2 = Char.ofNat 125 then .ok [(key, v)] cs2
                else if c2 = ',' then
                  (members n depth (skipSpace cs2)).map ((key, v) :: ·)
                else .error .SyntaxError
          else .error .SyntaxError
    else .error .SyntaxError

end

/-- The first JSON value of a stream, and the input that follows it.  Blanks
before the value are skipped (`stateBeginValue`). -/
def firstValue (body : String) : Scan JSON :=
  value (2 * body.data.length + 1) 0 (skipSpace body.data)

/-- Go: `Decoder.readValue` followed by the walk of `decodeState` over the
bytes read: the first JSON value of the stream.  What follows the value is left
unread.  A stream of blanks only gives `io.EOF`.  The last case does not arise
(`firstValue_ne_exhausted`). -/
def readValue (body : String) : Except JsonError JSON :=
  match skipSpace body.data with
  | [] => .error .EOF
  | _ :: _ =>
    match firstValue body with
    | .ok v _ => .ok v
    | .error e => .error e
    | .exhausted => .error .SyntaxError

/-- Go: `json.Valid`: the whole text is one JSON value, with blanks around it
at most. -/
def Valid (data : String) : Bool :=
  match firstValue data with
  | .ok _ rest => (skipSpace rest).isEmpty
  | _ => false

/-! ## `encoding/json`: storing a value in a struct -/

/-- Value of a run of decimal digits, `none` when a character is not a digit. -/
def parseDigits (acc : Nat) : List Char → Option Nat
  | [] => some acc
  | c :: cs => if isDigit c then parseDigits (acc * 10 + (c.toNat - 48)) cs else none

/-- Go: `strconv.ParseInt(lit, 10, 64)`, `none` for a syntax or a range error. -/
def ParseInt (lit : String) : Option Int :=
  match lit.data with
  | [] => none
  | '-' :: ds =>
    if ds.isEmpty then none
    else
      match parseDigits 0 ds with
      | some m => if m ≤ 2 ^ 63 then some (-(m : Int)) else none
      | none => none
  | '+' :: ds =>
    if ds.isEmpty then none
    else
      match parseDigits 0 ds with
      | some m => if m < 2 ^ 63 then some (m : Int) else none
      | none => none
  | ds =>
    match parseDigits 0 ds with
    | some m => if m < 2 ^ 63 then some (m : Int) else none
    | none => none

/-- Go: `decodeState.saveError`: the first error is kept. -/
def saveError (saved : Option JsonError) (err : Option JsonError) : Option JsonError :=
  match saved with
  | some e => some e
  | none => err

/-- Stores a JSON value in a field of kind `string` (`literalStore`, `array`,
`object` of `decode.go`): the new field value and the error to save. -/
def storeString (cur : String) : JSON → String × Option JsonError
  | .null => (cur, none)
  | .str s => (s, none)
  | .bool _ => (cur, some (.UnmarshalTypeError "bool"))
  | .num _ => (cur, some (.UnmarshalTypeError "number"))
  | .arr _ => (cur, some (.UnmarshalTypeError "array"))
  | .obj _ => (cur, some (.UnmarshalTypeError "object"))

/-- Stores a JSON value in a field of kind `int64`. -/
def storeInt64 (cur : Int) : JSON → Int × Option JsonError
  | .null => (cur, none)
  | .num lit =>
    match ParseInt lit with
    | some n => (n, none)
    | none => (cur, some (.UnmarshalTypeError ("number " ++ lit)))
  | .str _ => (cur, some (.UnmarshalTypeError "string"))
  | .bool _ => (cur, some (.UnmarshalTypeError "bool"))
  | .arr _ => (cur, some (.UnmarshalTypeError "array"))
  | .obj _ => (cur, some (.UnmarshalTypeError "object"))

/-- Stores a JSON value in a field of kind `bool`. -/
def storeBool (cur : Bool) : JSON → Bool × Option JsonError
  | .null => (cur, none)
  | .bool b => (b, none)
  | .str _ => (cur, some (.UnmarshalTypeError "string"))
  | .num _ => (cur, some (.UnmarshalTypeError "number"))
  | .arr _ => (cur, some (.UnmarshalTypeError "array"))
  | .obj _ => (cur, some (.UnmarshalTypeError "object"))

/-- Go: `foldRune` for the runes that fold to an ASCII letter: the letter in
upper case.  These are the letter itself in either case, U+017F (long s) and
U+212A (Kelvin sign).  Other runes are left as they are: none of them folds to
an ASCII character, and the field names below are ASCII. -/
def foldRune (c : Char) : Char :=
  if 97 ≤ c.toNat && c.toNat ≤ 122 then Char.ofNat (c.toNat - 32)
  else if c.toNat = 0x17F then 'S'
  else if c.toNat = 0x212A then 'K'
  else c

/-- Go: `foldName`. -/
def foldName (s : String) : List Char := s.data.map foldRune

/-- Index of the struct field a key selects: the field whose name is the key,
else the first field whose name equals the key up to case
(`byExactName`, then `byFoldedName`); `none` when there is no such field. -/
def findField (names : List String) (key : String) : Option Nat :=
  match names.indexOf? key with
  | some i => some i
  | none =>
    let i := names.findIdx (fun name => foldName name = foldName key)
    if i < names.length then some i else none

/-- State of a decode into a struct of type `α`: the struct, and the first
error saved. -/
structure decodeState (α : Type) where
  v : α
  savedError : Option JsonError

/-- Go: `decodeState.unmarshal` for a struct: `setMember` stores one member of
an object.  A top-level `null` leaves the struct as it is, any other value
that is not an object is a type error. -/
def unmarshal {α : Type} (setMember : decodeState α → String × JSON → decodeState α)
    (j : JSON) (v : α) : α × Option JsonError :=
  match j with
  | .obj ms =>
    let d := ms.foldl setMember ⟨v, none⟩
    (d.v, d.savedError)
  | .null => (v, none)
  | .bool _ => (v, some (.UnmarshalTypeError "bool"))
  | .num _ => (v, some (.UnmarshalTypeError "number"))
  | .str _ => (v, some (.UnmarshalTypeError "string"))
  | .arr _ => (v, some (.UnmarshalTypeError "array"))

/-- Go: `json.NewDecoder(strings.NewReader(body)).Decode(&v)` for a struct.
A syntax error is found before anything is stored. -/
def Decode {α : Type} (setMember : decodeState α → String × JSON → decodeState α)
    (body : String) (v : α) : α × Option JsonError :=
  match readValue body with
  | .error e => (v, some e)
  | .ok j => unmarshal setMember j v

/-! ## Package `amazon` -/

/-- Go: `time.Duration`, in nanoseconds. -/
abbrev Duration := Int

/-- Go: `time.Second`. -/
def Second : Duration := 1000000000

def SandboxURL : String := "http://localhost:8080/RVSSandbox"

def ProductionURL : String := "https://appstore-sdk.amazon.com"

/-- Config is a configuration to initialize client. -/
structure Config where
  IsProduction : Bool
  Secret : String
  TimeOut : Duration
deriving DecidableEq, Repr

/-- The IAPResponse type has the response properties. -/
structure IAPResponse where
  ReceiptID : String
  ProductType : String
  ProductID : String
  PurchaseDate : Int
  CancelDate : Int
  TestTransaction : Bool
deriving DecidableEq, Repr

structure IAPResponseError where
  Message : String
  Status : Bool
deriving DecidableEq, Repr

/-- Client implements IAPClient. -/
structure Client where
  URL : String
  Secret : String
  TimeOut : Duration
deriving DecidableEq, Repr

/-- Go: `IAPResponse{}`. -/
def IAPResponse.zero : IAPResponse := ⟨"", "", "", 0, 0, false⟩

/-- Go: `IAPResponseError{}`. -/
def IAPResponseError.zero : IAPResponseError := ⟨"", false⟩

/-- The JSON names of the fields of `IAPResponse`, from its struct tags. -/
def IAPResponse.names : List String :=
  ["receiptId", "productType", "productId", "purchaseDate", "cancelDate", "testTransaction"]

/-- The JSON names of the fields of `IAPResponseError`. -/
def IAPResponseError.names : List String := ["message", "status"]

/-- Stores one object member in an `IAPResponse`; a key that selects no field
is passed over with its value. -/
def IAPResponse.setMember (d : decodeState IAPResponse) (m : String × JSON) :
    decodeState IAPResponse :=
  match findField IAPResponse.names m.1 with
  | some 0 =>
    let r := storeString d.v.ReceiptID m.2
    ⟨{ d.v with ReceiptID := r.1 }, saveError d.savedError r.2⟩
  | some 1 =>
    let r := storeString d.v.ProductType m.2
    ⟨{ d.v with ProductType := r.1 }, saveError d.savedError r.2⟩
  | some 2 =>
    let r := storeString d.v.ProductID m.2
    ⟨{ d.v with ProductID := r.1 }, saveError d.savedError r.2⟩
  | some 3 =>
    let r := storeInt64 d.v.PurchaseDate m.2
    ⟨{ d.v with PurchaseDate := r.1 }, saveError d.savedError r.2⟩
  | some 4 =>
    let r := storeInt64 d.v.CancelDate m.2
    ⟨{ d.v with CancelDate := r.1 }, saveError d.savedError r.2⟩
  | some 5 =>
    let r := storeBool d.v.TestTransaction m.2
    ⟨{ d.v with TestTransaction := r.1 }, saveError d.savedError r.2⟩
  | _ => d

/-- Stores one object member in an `IAPResponseError`. -/
def IAPResponseError.setMember (d : decodeState IAPResponseError) (m : String × JSON) :
    decodeState IAPResponseError :=
  match findField IAPResponseError.names m.1 with
  | some 0 =>
    let r := storeString d.v.Message m.2
    ⟨{ d.v with Message := r.1 }, saveError d.savedError r.2⟩
  | some 1 =>
    let r := storeBool d.v.Status m.2
    ⟨{ d.v with Status := r.1 }, saveError d.savedError r.2⟩
  | _ => d

/-! ## `fmt` -/

/-- An operand of `fmt.Sprintf`, of one of the two types `Verify` passes. -/
inductive Operand where
  /-- a `string` -/
  | str (s : String)
  /-- a `[]error`, each element given by its `Error()` text -/
  | errs (es : List String)

/-- The text the verb `%v` prints for an operand: a string as it is, a slice
as its elements between square brackets, separated by one space. -/
def Operand.formatV : Operand → String
  | .str s => s
  | .errs es => "[" ++ " ".intercalate es ++ "]"

/-- Go: `doPrintf`, for the formats of `Verify`, whose only verb is `%v`.
Each `%v` prints the next operand; the text printed is not read again as a
format.  A `%v` without operand prints `%!v(MISSING)`.  Other verbs, and
operands left over, are outside the embedding: `Verify` passes one operand per
verb. -/
def doPrintf : List Char → List Operand → List Char
  | [], _ => []
  | '%' :: 'v' :: cs, a :: as => a.formatV.data ++ doPrintf cs as
  | '%' :: 'v' :: cs, [] => "%!v(MISSING)".data ++ doPrintf cs []
  | c :: cs, as => c :: doPrintf cs as

/-- Go: `fmt.Sprintf`. -/
def Sprintf (format : String) (a : List Operand) : String :=
  String.mk (doPrintf format.data a)

/-- Go: `fmt.Errorf` with a format that has no `%w`. -/
def Errorf (format : String) (a : List Operand) : GoError :=
  .errorString (Sprintf format a)

/-! ## The constructors and `Verify` -/

/-- New creates a client object.  `getenv` is `os.Getenv`: the value of a
variable of the environment, the empty string when it is not set. -/
def New (getenv : String → String) (secret : String) : Client :=
  let client : Client := { URL := SandboxURL, Secret := secret, TimeOut := Second * 5 }
  if getenv "IAP_ENVIRONMENT" = "production" then
    { client with URL := ProductionURL }
  else client

/-- NewWithConfig creates a client with configuration. -/
def NewWithConfig (config : Config) : Client :=
  let config : Config :=
    if config.TimeOut = 0 then { config with TimeOut := Second * 5 } else config
  let client : Client :=
    { URL := SandboxURL, Secret := config.Secret, TimeOut := config.TimeOut }
  if config.IsProduction then
    { client with URL := ProductionURL }
  else client

/-- What `End()` returns: the response (of which `Verify` reads the status
code only), the body, and the errors, `none` for a nil slice.  `res` is read
only when `errs` is nil. -/
structure EndResult where
  StatusCode : Int
  body : String
  errs : Option (List String)
deriving DecidableEq

/-- Go: `gorequest.New().Get(url).Timeout(timeout).End()`. -/
abbrev Transport := String → Duration → EndResult

/-- The URL `Verify` requests (line 87). -/
def requestURL (c : Client) (userID receiptID : String) : String :=
  Sprintf "%v/version/1.0/verifyReceiptId/developer/%v/user/%v/receiptId/%v"
    [.str c.URL, .str c.Secret, .str userID, .str receiptID]

/-- What `Verify` makes of the outcome of the request (lines 93 to 105). -/
def interpret (out : EndResult) : IAPResponse × Option GoError :=
  let result := IAPResponse.zero
  match out.errs with
  | some errs => (result, some (Errorf "%v" [.errs errs]))
  | none =>
    if out.StatusCode < 200 ∨ out.StatusCode ≥ 300 then
      let responseError :=
        (Decode IAPResponseError.setMember out.body IAPResponseError.zero).1
      (result, some (.errorString responseError.Message))
    else
      let r := Decode IAPResponse.setMember out.body result
      (r.1, r.2.map GoError.json)

/-- Verify sends receipts and gets validation result. -/
def Verify (gorequest : Transport) (c : Client) (userID receiptID : String) :
    IAPResponse × Option GoError :=
  interpret (gorequest (requestURL c userID receiptID) c.TimeOut)

/-! ## The members of the two records -/

/-- The members of the JSON encoding of a success record, in the order of the
struct; the two dates are given by their literals. -/
def IAPResponse.members (r : IAPResponse) (purchaseDate cancelDate : String) :
    List (String × JSON) :=
  [("receiptId", .str r.ReceiptID), ("productType", .str r.ProductType),
   ("productId", .str r.ProductID), ("purchaseDate", .num purchaseDate),
   ("cancelDate", .num cancelDate), ("testTransaction", .bool r.TestTransaction)]

/-- The members of the JSON encoding of an error record. -/
def IAPResponseError.members (e : IAPResponseError) : List (String × JSON) :=
  [("message", .str e.Message), ("status", .bool e.Status)]

/-- A scan went through and left less than `k` characters unread, or reported
an error. -/
def Scan.Shorter {α : Type} (k : Nat) : Scan α → Prop
  | .ok _ rest => rest.length < k
  | .error _ => True
  | .exhausted => False

/-! ## JSON texts of the two records -/

/-- Hexadecimal digit of a value below 16, as JSON encoders write it. -/
def hexDigit (n : Nat) : Char :=
  if n < 10 then Char.ofNat (48 + n) else Char.ofNat (87 + n)

/-- The text of one character inside a JSON string (RFC 8259, section 7): the
quote and the backslash behind a backslash, a control character as `\u00XX`,
any other character as it is. -/
def escape (c : Char) : List Char :=
  if c = '"' then ['\\', '"']
  else if c = '\\' then ['\\', '\\']
  else if c.toNat < 0x20 then
    ['\\', 'u', '0', '0', hexDigit (c.toNat / 16), hexDigit (c.toNat % 16)]
  else [c]

/-- The text of the characters of a JSON string. -/
def escapeAll : List Char → List Char
  | [] => []
  | c :: cs => escape c ++ escapeAll cs

/-- The JSON text of a string, between quotes. -/
def quote (s : String) : List Char := '"' :: (escapeAll s.data ++ ['"'])

/-- The decimal digits of a natural number, first digit first. -/
def natLit (n : Nat) : List Char :=
  if n = 0 then ['0'] else (Nat.digits 10 n).reverse.map (fun d => Char.ofNat (48 + d))

/-- The JSON text of an integer: plain decimal, a minus sign before a negative one. -/
def intLit : Int → List Char
  | .ofNat n => natLit n
  | .negSucc n => '-' :: natLit (n + 1)

/-- The JSON text of a boolean. -/
def boolLit (b : Bool) : List Char := if b then "true".data else "false".data

/-- The JSON text of an object member: the key as a string, a colon, the
text of the value. -/
def member (key : String) (v : List Char) : List Char := quote key ++ ':' :: v

/-- The JSON text of a success record, as section 6 of the specification
gives it: an object with the six fields in the order of the struct. -/
def IAPResponse.encode (r : IAPResponse) : String :=
  String.mk (Char.ofNat 123 ::
    (member "receiptId" (quote r.ReceiptID) ++ ',' ::
    (member "productType" (quote r.ProductType) ++ ',' ::
    (member "productId" (quote r.ProductID) ++ ',' ::
    (member "purchaseDate" (intLit r.PurchaseDate) ++ ',' ::
    (member "cancelDate" (intLit r.CancelDate) ++ ',' ::
    (member "testTransaction" (boolLit r.TestTransaction) ++ [Char.ofNat 125])))))))

/-- The JSON text of an error record. -/
def IAPResponseError.encode (e : IAPResponseError) : String :=
  String.mk (Char.ofNat 123 ::
    (member "message" (quote e.Message) ++ ',' ::
    (member "status" (boolLit e.Status) ++ [Char.ofNat 125])))

/-! ## The grammar of JSON

The grammar of RFC 8259, and the value a text writes, given without reference
to the decoder: these are what "a well-formed JSON encoding" means in the
statements below. -/

/-- A run of the four blank characters of JSON. -/
def Blank (w : List Char) : Prop :=
  ∀ c ∈ w, c = ' ' ∨ c = '\t' ∨ c = '\n' ∨ c = '\r'

/-- The character `c` writes the hexadecimal digit of value `n`, in either case. -/
def HexDigit (n : Nat) (c : Char) : Prop :=
  (n < 10 ∧ c = Char.ofNat (48 + n))
    ∨ (10 ≤ n ∧ n < 16 ∧ (c = Char.ofNat (87 + n) ∨ c = Char.ofNat (55 + n)))

/-- The text `\uXXXX` of the 16-bit code unit `v`. -/
def Escape (v : Nat) (t : List Char) : Prop :=
  ∃ x y z w a b c d, HexDigit x a ∧ HexDigit y b ∧ HexDigit z c ∧ HexDigit w d
    ∧ v = ((x * 16 + y) * 16 + z) * 16 + w ∧ t = ['\\', 'u', a, b, c, d]

/-- The texts of one character inside a JSON string (RFC 8259, section 7): the
character itself, unless it is a quote, a backslash or a control character; a
two-character escape; `\uXXXX` for a character of the basic plane; a pair of
surrogates for a character beyond it. -/
inductive CharText : Char → List Char → Prop where
  | plain (c : Char) : 0x20 ≤ c.toNat → c ≠ '"' → c ≠ '\\' → CharText c [c]
  | quote : CharText '"' ['\\', '"']
  | backslash : CharText '\\' ['\\', '\\']
  | slash : CharText '/' ['\\', '/']
  | backspace : CharText (Char.ofNat 8) ['\\', 'b']
  | formfeed : CharText (Char.ofNat 12) ['\\', 'f']
  | newline : CharText '\n' ['\\', 'n']
  | ret : CharText '\r' ['\\', 'r']
  | tab : CharText '\t' ['\\', 't']
  | unit (c : Char) (t : List Char) : Escape c.toNat t → CharText c t
  | pair (c : Char) (t1 t2 : List Char) : 0x10000 ≤ c.toNat →
      Escape (0xD800 + (c.toNat - 0x10000) / 1024) t1 →
      Escape (0xDC00 + (c.toNat - 0x10000) % 1024) t2 → CharText c (t1 ++ t2)

/-- The text `ts` goes on with the escape of a low surrogate that makes a pair
with the high surrogate `v`. -/
def LowFollows (v : Nat) (ts : List Char) : Prop :=
  v < 0xDC00 ∧ ∃ lo t ts1, 0xDC00 ≤ lo ∧ lo < 0xE000 ∧ Escape lo t ∧ ts = t ++ ts1

/-- The texts of the characters of a JSON string, between the quotes.  The
grammar admits the escape of a surrogate that is not part of a pair; such a
text writes no character, and is read as U+FFFD. -/
inductive StrText : List Char → List Char → Prop where
  | nil : StrText [] []
  | cons (c : Char) (t s ts : List Char) : CharText c t → StrText s ts →
      StrText (c :: s) (t ++ ts)
  | lone (v : Nat) (t s ts : List Char) : 0xD800 ≤ v → v < 0xE000 → Escape v t →
      StrText s ts → ¬ LowFollows v ts → StrText (Char.ofNat 0xFFFD :: s) (t ++ ts)

/-- A run of decimal digits. -/
def Digits (ds : List Char) : Prop := ∀ c ∈ ds, 48 ≤ c.toNat ∧ c.toNat ≤ 57

/-- The integer part of a JSON number: `0`, or digits that do not start with `0`. -/
def IntPart (t : List Char) : Prop :=
  t = ['0'] ∨ ∃ d ds, t = d :: ds ∧ 49 ≤ d.toNat ∧ d.toNat ≤ 57 ∧ Digits ds

/-- The fraction of a JSON number, if any. -/
def FracPart (t : List Char) : Prop :=
  t = [] ∨ ∃ d ds, Digits (d :: ds) ∧ t = '.' :: d :: ds

/-- The exponent of a JSON number, if any. -/
def ExpPart (t : List Char) : Prop :=
  t = [] ∨ ∃ e sg d ds, (e = 'e' ∨ e = 'E') ∧ (sg = [] ∨ sg = ['+'] ∨ sg = ['-'])
    ∧ Digits (d :: ds) ∧ t = e :: (sg ++ d :: ds)

/-- The text of a JSON number (RFC 8259, section 6). -/
def IsNumber (t : List Char) : Prop :=
  ∃ sg i f e, (sg = [] ∨ sg = ['-']) ∧ IntPart i ∧ FracPart f ∧ ExpPart e
    ∧ t = sg ++ (i ++ (f ++ e))

/-- What a JSON text writes: a value, the elements of an array up to its
closing bracket, or the members of an object up to its closing brace. -/
inductive Node where
  | val (j : JSON)
  | elems (es : List JSON)
  | members (ms : List (String × JSON))

/-- The characters `t` are a JSON text of `node` (`Text k node t`), with arrays
and objects nested at most `k` deep.  Blanks may stand around every bracket,
brace, colon and comma. -/
inductive Text : Nat → Node → List Char → Prop where
  | litNull (k : Nat) : Text k (.val .null) ['n', 'u', 'l', 'l']
  | litTrue (k : Nat) : Text k (.val (.bool true)) ['t', 'r', 'u', 'e']
  | litFalse (k : Nat) : Text k (.val (.bool false)) ['f', 'a', 'l', 's', 'e']
  | num (k : Nat) (t : List Char) : IsNumber t → Text k (.val (.num (String.mk t))) t
  | str (k : Nat) (s t : List Char) : StrText s t →
      Text k (.val (.str (String.mk s))) ('"' :: (t ++ ['"']))
  | arrNil (k : Nat) (w : List Char) : Blank w →
      Text (k + 1) (.val (.arr [])) ('[' :: (w ++ [']']))
  | arr (k : Nat) (w : List Char) (es : List JSON) (t : List Char) : Blank w →
      Text k (.elems es) t → Text (k + 1) (.val (.arr es)) ('[' :: (w ++ t))
  | objNil (k : Nat) (w : List Char) : Blank w →
      Text (k + 1) (.val (.obj [])) (Char.ofNat 123 :: (w ++ [Char.ofNat 125]))
  | obj (k : Nat) (w : List Char) (ms : List (String × JSON)) (t : List Char) : Blank w →
      Text k (.members ms) t → Text (k + 1) (.val (.obj ms)) (Char.ofNat 123 :: (w ++ t))
  | elemsLast (k : Nat) (v : JSON) (t w : List Char) : Text k (.val v) t → Blank w →
      Text k (.elems [v]) (t ++ (w ++ [']']))
  | elemsMore (k : Nat) (v : JSON) (t w1 w2 : List Char) (vs : List JSON) (ts : List Char) :
      Text k (.val v) t → Blank w1 → Blank w2 → Text k (.elems vs) ts →
      Text k (.elems (v :: vs)) (t ++ (w1 ++ ',' :: (w2 ++ ts)))
  | membersLast (k : Nat) (key kt w1 w2 : List Char) (v : JSON) (t w3 : List Char) :
      StrText key kt → Blank w1 → Blank w2 → Text k (.val v) t → Blank w3 →
      Text k (.members [(String.mk key, v)])
        ('"' :: (kt ++ '"' :: (w1 ++ ':' :: (w2 ++ (t ++ (w3 ++ [Char.ofNat 125]))))))
  | membersMore (k : Nat) (key kt w1 w2 : List Char) (v : JSON) (t w3 w4 : List Char)
      (ms : List (String × JSON)) (ts : List Char) :
      StrText key kt → Blank w1 → Blank w2 → Text k (.val v) t → Blank w3 → Blank w4 →
      Text k (.members ms) ts →
      Text k (.members ((String.mk key, v) :: ms))
        ('"' :: (kt ++ '"' :: (w1 ++ ':' :: (w2 ++ (t ++ (w3 ++ ',' :: (w4 ++ ts)))))))

/-- A number text ends where `rest` starts: `rest` does not go on with a
character that a number could take. -/
def NumberEnds (rest : List Char) : Prop :=
  ∀ c cs, rest = c :: cs → ¬ (48 ≤ c.toNat ∧ c.toNat ≤ 57) ∧ c ≠ '.' ∧ c ≠ 'e' ∧ c ≠ 'E'

/-- A JSON value that is neither an array nor an object. -/
def JSON.isScalar : JSON → Bool
  | .arr _ => false
  | .obj _ => false
  | _ => true

/-! ## The shape of the two records

What it means for an object member to name a field and to hold a value of the
type of the field, given without reference to the decoder. -/

/-- Upper case of a character, for the comparison of names: an ASCII letter
in upper case; the long s (U+017F) and the Kelvin sign (U+212A), which Unicode
folds to `s` and `k`, as `S` and `K`; any other character as it is. -/
def upperChar (c : Char) : Char :=
  if c = Char.ofNat 0x17F then 'S' else if c = Char.ofNat 0x212A then 'K' else c.toUpper

/-- The key names the field, letter case apart. -/
def sameName (name key : String) : Bool :=
  name.data.map upperChar == key.data.map upperChar

/-- The literal writes the integer in plain decimal: digits without a leading
zero, a minus sign before a negative integer; `-0` writes zero too. -/
def IntLit (i : Int) (lit : String) : Prop :=
  lit.data = intLit i ∨ (i = 0 ∧ lit.data = ['-', '0'])

/-- The JSON value is the string `s`. -/
def ReadsString (j : JSON) (s : String) : Prop := j = .str s

/-- The JSON value is a number that writes the 64-bit integer `i`. -/
def ReadsInt64 (j : JSON) (i : Int) : Prop :=
  ∃ lit, j = .num lit ∧ IntLit i lit ∧ -2 ^ 63 ≤ i ∧ i < 2 ^ 63

/-- The JSON value is the boolean `b`. -/
def ReadsBool (j : JSON) (b : Bool) : Prop := j = .bool b

/-- The member names the field `name` and its value is neither `null` nor of
the type of the field. -/
def Mismatch {α : Type} (Reads : JSON → α → Prop) (name : String) (m : String × JSON) :
    Prop :=
  sameName name m.1 = true ∧ m.2 ≠ .null ∧ ∀ y, ¬ Reads m.2 y

/-- The member names one of the six fields of `IAPResponse` with a value that
is neither `null` nor of the type of that field. -/
def IAPResponse.Misfit (m : String × JSON) : Prop :=
  Mismatch ReadsString "receiptId" m ∨ Mismatch ReadsString "productType" m
    ∨ Mismatch ReadsString "productId" m ∨ Mismatch ReadsInt64 "purchaseDate" m
    ∨ Mismatch ReadsInt64 "cancelDate" m ∨ Mismatch ReadsBool "testTransaction" m

/-- The JSON values of the shape of a success record: `null`, and an object
none of whose members misfits. -/
def IAPResponse.Shape : JSON → Prop
  | .null => True
  | .obj ms => ∀ m ∈ ms, ¬ IAPResponse.Misfit m
  | _ => False

/-- The body is a JSON encoding of the success record `r`: one JSON text, with
blanks around it at most, of an object with the six members in any order, the
dates as integers in plain decimal. -/
def IAPResponse.Encoded (r : IAPResponse) (body : String) : Prop :=
  ∃ k w t w1 ms pd cd, Blank w ∧ Blank w1 ∧ body.data = w ++ (t ++ w1)
    ∧ Text k (.val (.obj ms)) t ∧ ms.Perm (r.members pd cd)
    ∧ IntLit r.PurchaseDate pd ∧ IntLit r.CancelDate cd

/-- The body is a JSON encoding of the error record `e`: one JSON text, with
blanks around it at most, of an object with the members `message` and
`status`, in either order. -/
def IAPResponseError.Encoded (e : IAPResponseError) (body : String) : Prop :=
  ∃ k w t w1 ms, Blank w ∧ Blank w1 ∧ body.data = w ++ (t ++ w1)
    ∧ Text k (.val (.obj ms)) t ∧ ms.Perm e.members

/-! ## Notions for the comparison of the scanner with the grammar -/

/-- The input does not start with a blank. -/
def NoBlankHead (cs : List Char) : Prop := ∀ c cs1, cs = c :: cs1 → isSpace c = false

/-- What a value text starts with: not a blank, and none of the characters
that close or separate. -/
def ValueHead (t : List Char) : Prop :=
  ∃ c t1, t = c :: t1 ∧ isSpace c = false ∧ c ≠ ']' ∧ c ≠ Char.ofNat 125 ∧ c ≠ ','
    ∧ c ≠ ':'

/-- What completeness says for each kind of node: with the nesting within the
limit and recursion budget for the input, the scanner reads the text as the
node and stops right after it. -/
def Complete (k : Nat) : Node → List Char → Prop
  | .val j, t => ∀ (n depth : Nat) (rest : List Char), depth + k ≤ maxNestingDepth →
      ((∃ lit, j = .num lit) → NumberEnds rest) → 2 * (t ++ rest).length < n →
      value n depth (t ++ rest) = .ok j rest
  | .elems es, t => ∀ (n depth : Nat) (rest : List Char), depth + k ≤ maxNestingDepth →
      2 * (t ++ rest).length + 1 < n → elements n depth (t ++ rest) = .ok es rest
  | .members ms, t => ∀ (n depth : Nat) (rest : List Char), depth + k ≤ maxNestingDepth →
      2 * (t ++ rest).length + 1 < n → members n depth (t ++ rest) = .ok ms rest

/-! ## The recursion budget of the scanner -/

theorem Scan.Shorter.mono {α : Type} {k k1 : Nat} {s : Scan α} (h : s.Shorter k)
    (hk : k ≤ k1) : s.Shorter k1 := by
  cases s with
  | ok a rest => exact Nat.lt_of_lt_of_le h hk
  | error e => trivial
  | exhausted => exact h

theorem Scan.Shorter.map {α β : Type} {k : Nat} {s : Scan α} (f : α → β) (h : s.Shorter k) :
    (s.map f).Shorter k := by
  cases s <;> exact h

theorem skipSpace_length (cs : List Char) : (skipSpace cs).length ≤ cs.length := by
  induction cs with
  | nil => simp [skipSpace]
  | cons c cs ih =>
    simp only [skipSpace]
    split
    · exact Nat.le_succ_of_le ih
    · exact Nat.le_refl _

theorem skipSpace_cons_length {cs : List Char} {c : Char} {cs1 : List Char}
    (h : skipSpace cs = c :: cs1) : cs1.length < cs.length := by
  have := skipSpace_length cs
  rw [h] at this
  simpa using this

theorem scanString_shorter (cs : List Char) : ∀ (st : StrState) (acc : List Char),
    (scanString st acc cs).Shorter (cs.length + 1) := by
  induction cs with
  | nil => intro st acc; simp [scanString, Scan.Shorter]
  | cons c cs ih =>
    intro st acc
    have ih1 := fun st acc => (ih st acc).mono (Nat.le_succ _)
    cases st with
    | inString =>
      simp only [scanString]
      split_ifs <;>
        first | exact ih1 _ _ | trivial | (simp only [Scan.Shorter, List.length_cons]; omega)
    | esc =>
      simp only [scanString]
      split_ifs <;> first | exact ih1 _ _ | trivial
    | escU k r =>
      simp only [scanString]
      split
      · simp [Scan.Shorter]
      · split_ifs
        · exact ih1 _ _
        · split
          · split_ifs <;> exact ih1 _ _
          · exact ih1 _ _
        · exact ih1 _ _
    | low k =>
      cases k <;> simp only [scanString] <;> exact ih1 _ _

theorem scanNumber_shorter (cs : List Char) : ∀ (st : NumState) (acc : List Char),
    (scanNumber st acc cs).Shorter (cs.length + 1) := by
  induction cs with
  | nil => intro st acc; simp only [scanNumber]; split <;> simp [Scan.Shorter]
  | cons c cs ih =>
    intro st acc
    have ih1 := fun st acc => (ih st acc).mono (Nat.le_succ _)
    cases st <;> simp only [scanNumber] <;> split_ifs <;>
      first | exact ih1 _ _ | trivial | (simp only [Scan.Shorter, List.length_cons]; omega)

theorem scanWord_shorter (w cs : List Char) : (scanWord w cs).Shorter (cs.length + 1) := by
  induction w generalizing cs with
  | nil => simp [scanWord, Scan.Shorter]
  | cons a w ih =>
    cases cs with
    | nil => simp [scanWord, Scan.Shorter]
    | cons c cs =>
      simp only [scanWord]
      split
      · exact (ih cs).mono (Nat.le_succ _)
      · simp [Scan.Shorter]

theorem value_shorter (n : Nat) : ∀ (depth : Nat) (cs : List Char),
    (2 * cs.length < n → (value n depth cs).Shorter cs.length)
    ∧ (2 * cs.length + 1 < n → (elements n depth cs).Shorter cs.length)
    ∧ (2 * cs.length + 1 < n → (members n depth cs).Shorter cs.length) := by
  induction n with
  | zero => intro depth cs; simp
  | succ n ih =>
    intro depth cs
    refine ⟨?_, ?_, ?_⟩
    · intro hn
      cases cs with
      | nil => simp only [value]; trivial
      | cons c cs =>
        simp only [List.length_cons] at hn ⊢
        simp only [value]
        split_ifs
        · trivial
        · split
          · trivial
          · rename_i c1 cs1 heq
            have h1 := skipSpace_cons_length heq
            split_ifs
            · simp only [Scan.Shorter]; omega
            · refine (((ih (depth + 1) (c1 :: cs1)).2.2 ?_).map _).mono ?_
              · simp only [List.length_cons]; omega
              · simp only [List.length_cons]; omega
        · trivial
        · split
          · trivial
          · rename_i c1 cs1 heq
            have h1 := skipSpace_cons_length heq
            split_ifs
            · simp only [Scan.Shorter]; omega
            · refine (((ih (depth + 1) (c1 :: cs1)).2.1 ?_).map _).mono ?_
              · simp only [List.length_cons]; omega
              · simp only [List.length_cons]; omega
        · exact (scanString_shorter cs _ _).map _
        · exact (scanNumber_shorter cs _ _).map _
        · exact (scanNumber_shorter cs _ _).map _
        · exact (scanNumber_shorter cs _ _).map _
        · exact (scanWord_shorter _ cs).map _
        · exact (scanWord_shorter _ cs).map _
        · exact (scanWord_shorter _ cs).map _
        · trivial
    · intro hn
      simp only [elements]
      have hv := (ih depth cs).1 (by omega)
      split
      · trivial
      · rename_i heq; rw [heq] at hv; exact hv
      · rename_i v rest heq
        rw [heq] at hv
        simp only [Scan.Shorter] at hv
        split
        · trivial
        · rename_i c1 cs1 heq1
          have h1 := skipSpace_cons_length heq1
          split_ifs
          · simp only [Scan.Shorter]; omega
          · have h2 := skipSpace_length cs1
            exact (((ih depth (skipSpace cs1)).2.1 (by omega)).map _).mono (by omega)
          · trivial
    · intro hn
      cases cs with
      | nil => simp only [members]; trivial
      | cons c cs =>
        simp only [List.length_cons] at hn ⊢
        simp only [members]
        split_ifs
        · have hk := scanString_shorter cs .inString []
          split
          · trivial
          · rename_i heq; rw [heq] at hk; exact hk.elim
          · rename_i key rest heq
            rw [heq] at hk
            simp only [Scan.Shorter] at hk
            split
            · trivial
            · rename_i c1 cs1 heq1
              have h1 := skipSpace_cons_length heq1
              split_ifs
              · have h2 := skipSpace_length cs1
                have hv := (ih depth (skipSpace cs1)).1 (by omega)
                split
                · trivial
                · rename_i heq2; rw [heq2] at hv; exact hv.elim
                · rename_i v rest1 heq2
                  rw [heq2] at hv
                  simp only [Scan.Shorter] at hv
                  split
                  · trivial
                  · rename_i c2 cs2 heq3
                    have h3 := skipSpace_cons_length heq3
                    split_ifs
                    · simp only [Scan.Shorter]; omega
                    · have h4 := skipSpace_length cs2
                      exact (((ih depth (skipSpace cs2)).2.2 (by omega)).map _).mono
                        (by omega)
                    · trivial
              · trivial
        · trivial

/-- The recursion budget `firstValue` gives to `value` is never used up: the
outcome of a scan is a value or an error of the decoder. -/
theorem firstValue_ne_exhausted (body : String) : firstValue body ≠ .exhausted := by
  intro h
  have hlen := skipSpace_length body.data
  have := (value_shorter (2 * body.data.length + 1) 0 (skipSpace body.data)).1 (by omega)
  unfold firstValue at h
  rw [h] at this
  exact this

/-- A valid JSON text is read by the decoder without error. -/
theorem readValue_of_Valid (body : String) (h : Valid body = true) :
    ∃ j, readValue body = .ok j := by
  unfold Valid at h
  unfold readValue
  cases hf : firstValue body with
  | ok j rest =>
    cases hsp : skipSpace body.data with
    | nil =>
      unfold firstValue at hf
      rw [hsp] at hf
      simp [value] at hf
    | cons c cs => exact ⟨j, rfl⟩
  | error e => rw [hf] at h; cases h
  | exhausted => rw [hf] at h; cases h

/-! ## Lemmas on storing -/

theorem saveError_none (s : Option JsonError) : saveError s none = s := by
  cases s <;> rfl

theorem Sprintf_errs (errs : List String) :
    Sprintf "%v" [.errs errs] = "[" ++ " ".intercalate errs ++ "]" := by
  apply String.ext
  simp [Sprintf, doPrintf, Operand.formatV]

theorem findField_receiptId : findField IAPResponse.names "receiptId" = some 0 := by decide

theorem findField_productType : findField IAPResponse.names "productType" = some 1 := by decide

theorem findField_productId : findField IAPResponse.names "productId" = some 2 := by decide

theorem findField_purchaseDate : findField IAPResponse.names "purchaseDate" = some 3 := by decide

theorem findField_cancelDate : findField IAPResponse.names "cancelDate" = some 4 := by decide

theorem findField_testTransaction :
    findField IAPResponse.names "testTransaction" = some 5 := by decide

theorem findField_message : findField IAPResponseError.names "message" = some 0 := by decide

theorem findField_status : findField IAPResponseError.names "status" = some 1 := by decide

/-- Storing two members of a success record gives the same struct in either order. -/
theorem IAPResponse.setMember_comm (r : IAPResponse) (pd cd : String)
    (hpd : ParseInt pd = some r.PurchaseDate) (hcd : ParseInt cd = some r.CancelDate) :
    ∀ x ∈ r.members pd cd, ∀ y ∈ r.members pd cd, ∀ z,
      IAPResponse.setMember (IAPResponse.setMember z x) y
        = IAPResponse.setMember (IAPResponse.setMember z y) x := by
  intro x hx y hy z
  simp only [IAPResponse.members, List.mem_cons, List.mem_singleton, List.not_mem_nil,
    or_false] at hx hy
  rcases hx with rfl | rfl | rfl | rfl | rfl | rfl <;>
    rcases hy with rfl | rfl | rfl | rfl | rfl | rfl <;>
    simp [IAPResponse.setMember, findField_receiptId, findField_productType,
      findField_productId, findField_purchaseDate, findField_cancelDate,
      findField_testTransaction, storeString, storeInt64, storeBool, hpd, hcd, saveError_none]

/-- Storing the members of a success record, in the order of the struct, gives the record. -/
theorem IAPResponse.foldl_members (r : IAPResponse) (pd cd : String)
    (hpd : ParseInt pd = some r.PurchaseDate) (hcd : ParseInt cd = some r.CancelDate)
    (v : IAPResponse) :
    (r.members pd cd).foldl IAPResponse.setMember ⟨v, none⟩ = ⟨r, none⟩ := by
  simp [IAPResponse.members, IAPResponse.setMember, findField_receiptId, findField_productType,
    findField_productId, findField_purchaseDate, findField_cancelDate,
    findField_testTransaction, storeString, storeInt64, storeBool, hpd, hcd, saveError_none]

theorem IAPResponseError.setErrorMember_comm (e : IAPResponseError) :
    ∀ x ∈ e.members, ∀ y ∈ e.members, ∀ z,
      IAPResponseError.setMember (IAPResponseError.setMember z x) y
        = IAPResponseError.setMember (IAPResponseError.setMember z y) x := by
  intro x hx y hy z
  simp only [IAPResponseError.members, List.mem_cons, List.mem_singleton, List.not_mem_nil,
    or_false] at hx hy
  rcases hx with rfl | rfl <;> rcases hy with rfl | rfl <;>
    simp [IAPResponseError.setMember, findField_message, findField_status, storeString,
      storeBool, saveError_none]

theorem IAPResponseError.foldl_errorMembers (e v : IAPResponseError) :
    e.members.foldl IAPResponseError.setMember ⟨v, none⟩ = ⟨e, none⟩ := by
  simp [IAPResponseError.members, IAPResponseError.setMember, findField_message,
    findField_status, storeString, storeBool, saveError_none]

/-- A member whose key selects no field leaves the decode as it is. -/
theorem IAPResponse.foldl_unknown (ms : List (String × JSON))
    (h : ∀ m ∈ ms, findField IAPResponse.names m.1 = none) (d : decodeState IAPResponse) :
    ms.foldl IAPResponse.setMember d = d := by
  induction ms generalizing d with
  | nil => rfl
  | cons m ms ih =>
    have hm : IAPResponse.setMember d m = d := by
      simp [IAPResponse.setMember, h m (List.mem_cons_self _ _)]
    rw [List.foldl_cons, hm]
    exact ih (fun x hx => h x (List.mem_cons_of_mem _ hx)) d

theorem hexVal_hexDigit (n : Nat) (h : n < 16) : hexVal (hexDigit n) = some n := by
  interval_cases n <;> decide

theorem scanString_escape (c : Char) (acc rest : List Char) :
    scanString .inString acc (escape c ++ rest) = scanString .inString (c :: acc) rest := by
  unfold escape
  split_ifs with h1 h2 h3
  · subst h1
    simp [scanString]
  · subst h2
    simp [scanString]
  · have hx : c.toNat / 16 < 16 := by omega
    have hy : c.toNat % 16 < 16 := by omega
    have hs : isSurrogate c.toNat = false := by
      simp [isSurrogate]; omega
    have h0 : hexVal '0' = some 0 := by decide
    have hc : c.toNat / 16 * 16 + c.toNat % 16 = c.toNat := by omega
    simp [scanString, hexVal_hexDigit _ hx, hexVal_hexDigit _ hy, h0, hs, hc]
  · simp [scanString, h1, h2, h3]

theorem scanString_escapeAll (s : List Char) : ∀ (acc rest : List Char),
    scanString .inString acc (escapeAll s ++ '"' :: rest)
      = .ok (String.mk (acc.reverse ++ s)) rest := by
  induction s with
  | nil => intro acc rest; simp [escapeAll, scanString]
  | cons c s ih =>
    intro acc rest
    rw [escapeAll, List.append_assoc, scanString_escape, ih]
    simp

/-- The scanner reads the text of a string back as the string. -/
theorem scanString_quote (s : String) (rest : List Char) :
    scanString .inString [] (escapeAll s.data ++ '"' :: rest) = .ok s rest := by
  rw [scanString_escapeAll]
  rfl

theorem isDigit_digit (d : Nat) (h : d < 10) : isDigit (Char.ofNat (48 + d)) = true := by
  interval_cases d <;> decide

theorem toNat_digit (d : Nat) (h : d < 10) : (Char.ofNat (48 + d)).toNat - 48 = d := by
  interval_cases d <;> decide

theorem digit_ne (d : Nat) (h : d < 10) (c : Char) (hc : isDigit c = false) :
    Char.ofNat (48 + d) ≠ c := by
  intro heq
  rw [← heq, isDigit_digit d h] at hc
  cases hc

theorem parseDigits_digits (L : List Nat) (hL : ∀ d ∈ L, d < 10) : ∀ acc : Nat,
    parseDigits acc (L.map (fun d => Char.ofNat (48 + d)))
      = some (L.foldl (fun a d => a * 10 + d) acc) := by
  induction L with
  | nil => intro acc; rfl
  | cons d L ih =>
    intro acc
    have hd := hL d (List.mem_cons_self _ _)
    simp only [List.map_cons, parseDigits, isDigit_digit d hd, toNat_digit d hd, if_true,
      List.foldl_cons]
    exact ih (fun x hx => hL x (List.mem_cons_of_mem _ hx)) _

theorem foldl_digits (n : Nat) :
    (Nat.digits 10 n).reverse.foldl (fun a d => a * 10 + d) 0 = n := by
  rw [List.foldl_reverse]
  have h := Nat.ofDigits_digits 10 n
  rw [Nat.ofDigits_eq_foldr] at h
  conv_rhs => rw [← h]
  congr 1
  funext x y
  simp [Nat.mul_comm, Nat.add_comm]

theorem parseDigits_natLit (n : Nat) : parseDigits 0 (natLit n) = some n := by
  unfold natLit
  split
  · next h => subst h; decide
  · rw [parseDigits_digits _ (fun d hd => Nat.digits_lt_base (by decide)
      (List.mem_reverse.mp hd)), foldl_digits]

theorem scanNumber_digits (L : List Nat) (hL : ∀ d ∈ L, d < 10) : ∀ (acc rest : List Char),
    scanNumber .int acc (L.map (fun d => Char.ofNat (48 + d)) ++ ',' :: rest)
      = .ok (String.mk (acc.reverse ++ L.map (fun d => Char.ofNat (48 + d)))) (',' :: rest) := by
  induction L with
  | nil => intro acc rest; simp [scanNumber, isDigit]
  | cons d L ih =>
    intro acc rest
    have hd := hL d (List.mem_cons_self _ _)
    simp only [List.map_cons, List.cons_append, scanNumber, isDigit_digit d hd, if_true,
      List.append_eq]
    rw [ih (fun x hx => hL x (List.mem_cons_of_mem _ hx))]
    simp

/-- The digits of a number other than 0: the first one is not 0. -/
theorem natLit_pos (n : Nat) (h : n ≠ 0) :
    ∃ (d : Nat) (L : List Nat), d ≠ 0 ∧ d < 10 ∧ (∀ x ∈ L, x < 10)
      ∧ natLit n = Char.ofNat (48 + d) :: L.map (fun d => Char.ofNat (48 + d)) := by
  have hne : (Nat.digits 10 n).reverse ≠ [] := by
    simpa using (Nat.digits_ne_nil_iff_ne_zero.mpr h)
  have hlast := Nat.getLast_digit_ne_zero 10 h
  have hlt : ∀ x ∈ (Nat.digits 10 n).reverse, x < 10 :=
    fun x hx => Nat.digits_lt_base (by decide) (List.mem_reverse.mp hx)
  cases hrev : (Nat.digits 10 n).reverse with
  | nil => exact absurd hrev hne
  | cons d L =>
    refine ⟨d, L, ?_, ?_, ?_, ?_⟩
    · have : (Nat.digits 10 n).getLast (Nat.digits_ne_nil_iff_ne_zero.mpr h) = d := by
        have h2 : Nat.digits 10 n = (d :: L).reverse := by
          rw [← hrev, List.reverse_reverse]
        simp [h2]
      rw [this] at hlast
      exact hlast
    · exact hlt d (by rw [hrev]; exact List.mem_cons_self _ _)
    · intro x hx
      exact hlt x (by rw [hrev]; exact List.mem_cons_of_mem _ hx)
    · simp [natLit, h, hrev]

theorem value_natLit (k depth : Nat) (n : Nat) (rest : List Char) :
    value (k + 1) depth (natLit n ++ ',' :: rest)
      = .ok (.num (String.mk (natLit n))) (',' :: rest) := by
  by_cases h : n = 0
  · subst h
    simp [natLit, value, scanNumber, Scan.map]
  · obtain ⟨d, L, hd0, hd, hL, hlit⟩ := natLit_pos n h
    have hc := fun c hc => digit_ne d hd c hc
    have hz : Char.ofNat (48 + d) ≠ '0' := by
      intro heq
      have := toNat_digit d hd
      rw [heq] at this
      exact hd0 this.symm
    rw [hlit]
    simp only [List.cons_append, value, hc (Char.ofNat 123) (by decide), hc '[' (by decide),
      hc '"' (by decide), hc '-' (by decide), hz, isDigit_digit d hd, if_true, if_false,
      List.append_eq, scanNumber_digits L hL, Scan.map]
    simp

theorem value_intLit (k depth : Nat) (i : Int) (rest : List Char) :
    value (k + 1) depth (intLit i ++ ',' :: rest)
      = .ok (.num (String.mk (intLit i))) (',' :: rest) := by
  cases i with
  | ofNat n => exact value_natLit k depth n rest
  | negSucc n =>
    obtain ⟨d, L, hd0, hd, hL, hlit⟩ := natLit_pos (n + 1) (Nat.succ_ne_zero n)
    have hz : Char.ofNat (48 + d) ≠ '0' := by
      intro heq
      have := toNat_digit d hd
      rw [heq] at this
      exact hd0 this.symm
    simp only [intLit, hlit, List.cons_append, value, scanNumber, hz, isDigit_digit d hd,
      if_true, if_false, List.append_eq, scanNumber_digits L hL, Scan.map]
    simp

theorem natLit_cons (n : Nat) : ∃ c cs, natLit n = c :: cs ∧ isDigit c = true := by
  by_cases h : n = 0
  · subst h
    exact ⟨'0', [], by simp [natLit], by decide⟩
  · obtain ⟨d, L, _, hd, _, hlit⟩ := natLit_pos n h
    exact ⟨_, _, hlit, isDigit_digit d hd⟩

theorem ParseInt_intLit (i : Int) (hlo : -2 ^ 63 ≤ i) (hhi : i < 2 ^ 63) :
    ParseInt (String.mk (intLit i)) = some i := by
  cases i with
  | ofNat n =>
    have hn : n < 2 ^ 63 := by
      have : (n : Int) < 2 ^ 63 := hhi
      exact_mod_cast this
    have hp := parseDigits_natLit n
    obtain ⟨c, cs, hlit, hc⟩ := natLit_cons n
    rw [hlit] at hp
    unfold ParseInt
    simp only [intLit, hlit]
    split
    · next heq => cases heq
    · next ds heq =>
      have : c = '-' := (List.cons.inj heq).1
      subst this
      cases hc
    · next ds heq =>
      have : c = '+' := (List.cons.inj heq).1
      subst this
      cases hc
    · have hn2 : n < 9223372036854775808 := by omega
      simp [hp, hn2]
  | negSucc n =>
    have hn : n + 1 ≤ 2 ^ 63 := by
      have : -2 ^ 63 ≤ Int.negSucc n := hlo
      rw [Int.negSucc_eq] at this
      have h2 : ((n : Int) + 1) ≤ 2 ^ 63 := by omega
      exact_mod_cast h2
    have hp := parseDigits_natLit (n + 1)
    obtain ⟨c, cs, hlit, hc⟩ := natLit_cons (n + 1)
    have hn2 : n + 1 ≤ 9223372036854775808 := by omega
    rw [hlit] at hp
    unfold ParseInt
    simp only [intLit, hlit, List.isEmpty_cons, hp]
    simp [hn2, Int.negSucc_eq]

theorem skipSpace_cons (c : Char) (cs : List Char) (h : isSpace c = false) :
    skipSpace (c :: cs) = c :: cs := by
  simp [skipSpace, h]

theorem skipSpace_quote (s : String) (rest : List Char) :
    skipSpace (quote s ++ rest) = quote s ++ rest :=
  skipSpace_cons _ _ (by decide)

theorem skipSpace_member (key : String) (v rest : List Char) :
    skipSpace (member key v ++ rest) = member key v ++ rest :=
  skipSpace_cons _ _ (by decide)

theorem skipSpace_intLit (i : Int) (rest : List Char) :
    skipSpace (intLit i ++ rest) = intLit i ++ rest := by
  cases i with
  | ofNat n =>
    obtain ⟨c, cs, hlit, hc⟩ := natLit_cons n
    have hsp : isSpace c = false := by
      cases hs : isSpace c with
      | false => rfl
      | true =>
        simp only [isSpace, Bool.or_eq_true, decide_eq_true_eq] at hs
        rcases hs with ((h | h) | h) | h <;> subst h <;> cases hc
    simp only [intLit, hlit, List.cons_append]
    exact skipSpace_cons _ _ hsp
  | negSucc n => exact skipSpace_cons _ _ (by decide)

theorem skipSpace_boolLit (b : Bool) (rest : List Char) :
    skipSpace (boolLit b ++ rest) = boolLit b ++ rest := by
  cases b <;> exact skipSpace_cons _ _ (by decide)

theorem value_quote (k depth : Nat) (s : String) (rest : List Char) :
    value (k + 1) depth (quote s ++ rest) = .ok (.str s) rest := by
  have h1 : ('"' : Char) ≠ Char.ofNat 123 := by decide
  simp [quote, value, h1, scanString_quote, Scan.map]

theorem value_boolLit (k depth : Nat) (b : Bool) (rest : List Char) :
    value (k + 1) depth (boolLit b ++ rest) = .ok (.bool b) rest := by
  have h1 : ('t' : Char) ≠ Char.ofNat 123 := by decide
  have h2 : ('f' : Char) ≠ Char.ofNat 123 := by decide
  cases b <;> simp [boolLit, value, h1, h2, scanWord, Scan.map, isDigit]

/-- One member of an object followed by a comma. -/
theorem members_more (n depth : Nat) (key : String) (v : JSON) (V X : List Char)
    (hV : skipSpace (V ++ ',' :: X) = V ++ ',' :: X)
    (hval : value n depth (V ++ ',' :: X) = .ok v (',' :: X))
    (hX : skipSpace X = X) :
    members (n + 1) depth (member key V ++ ',' :: X)
      = (members n depth X).map ((key, v) :: ·) := by
  have h1 : (',' : Char) ≠ Char.ofNat 125 := by decide
  have hform : member key V ++ ',' :: X
      = '"' :: (escapeAll key.data ++ '"' :: ':' :: (V ++ ',' :: X)) := by
    simp [member, quote]
  rw [hform]
  simp only [members, if_true, scanString_quote, skipSpace_cons ':' _ (by decide), hV, hval,
    skipSpace_cons ',' _ (by decide), h1, if_false, hX]

/-- The last member of an object. -/
theorem members_last (n depth : Nat) (key : String) (v : JSON) (V : List Char)
    (hV : skipSpace (V ++ [Char.ofNat 125]) = V ++ [Char.ofNat 125])
    (hval : value n depth (V ++ [Char.ofNat 125]) = .ok v [Char.ofNat 125]) :
    members (n + 1) depth (member key V ++ [Char.ofNat 125]) = .ok [(key, v)] [] := by
  have hform : member key V ++ [Char.ofNat 125]
      = '"' :: (escapeAll key.data ++ '"' :: ':' :: (V ++ [Char.ofNat 125])) := by
    simp [member, quote]
  rw [hform]
  simp only [members, if_true, scanString_quote, skipSpace_cons ':' _ (by decide), hV, hval,
    skipSpace_cons (Char.ofNat 125) _ (by decide)]

/-- An object whose first member starts right after the brace. -/
theorem value_object (n depth : Nat) (key : String) (V X : List Char)
    (hd : depth < maxNestingDepth) :
    value (n + 1) depth (Char.ofNat 123 :: (member key V ++ X))
      = (members n (depth + 1) (member key V ++ X)).map .obj := by
  have hform : member key V ++ X = '"' :: (escapeAll key.data ++ '"' :: ':' :: (V ++ X)) := by
    simp [member, quote]
  have h1 : ('"' : Char) ≠ Char.ofNat 125 := by decide
  rw [hform]
  simp only [value, if_true, Nat.not_le.mpr hd, if_false, skipSpace_cons '"' _ (by decide), h1]

/-- The decoder reads the text of a success record back as its members. -/
theorem readValue_encode (r : IAPResponse) :
    readValue r.encode
      = .ok (.obj (r.members (String.mk (intLit r.PurchaseDate))
          (String.mk (intLit r.CancelDate)))) := by
  have hlen : ∃ k, 2 * r.encode.data.length + 1 = k + 8 :=
    ⟨2 * r.encode.data.length - 7, by simp [IAPResponse.encode, member, quote]; omega⟩
  obtain ⟨k, hk⟩ := hlen
  have hsp : skipSpace r.encode.data = r.encode.data :=
    skipSpace_cons _ _ (by decide)
  have hfirst : firstValue r.encode
      = .ok (.obj (r.members (String.mk (intLit r.PurchaseDate))
          (String.mk (intLit r.CancelDate)))) [] := by
    unfold firstValue
    rw [hk, hsp]
    simp only [IAPResponse.encode]
    rw [value_object _ _ _ _ _ (by decide),
      members_more _ _ _ _ _ _ (skipSpace_quote _ _) (value_quote _ _ _ _)
        (skipSpace_member _ _ _),
      members_more _ _ _ _ _ _ (skipSpace_quote _ _) (value_quote _ _ _ _)
        (skipSpace_member _ _ _),
      members_more _ _ _ _ _ _ (skipSpace_quote _ _) (value_quote _ _ _ _)
        (skipSpace_member _ _ _),
      members_more _ _ _ _ _ _ (skipSpace_intLit _ _) (value_intLit _ _ _ _)
        (skipSpace_member _ _ _),
      members_more _ _ _ _ _ _ (skipSpace_intLit _ _) (value_intLit _ _ _ _)
        (skipSpace_member _ _ _),
      members_last _ _ _ _ _ (skipSpace_boolLit _ _) (value_boolLit _ _ _ _)]
    rfl
  unfold readValue
  rw [hfirst, hsp]
  rfl

/-- The decoder reads the text of an error record back as its members. -/
theorem readValue_encodeError (e : IAPResponseError) :
    readValue e.encode = .ok (.obj e.members) := by
  have hlen : ∃ k, 2 * e.encode.data.length + 1 = k + 4 :=
    ⟨2 * e.encode.data.length - 3, by simp [IAPResponseError.encode, member, quote]; omega⟩
  obtain ⟨k, hk⟩ := hlen
  have hsp : skipSpace e.encode.data = e.encode.data :=
    skipSpace_cons _ _ (by decide)
  have hfirst : firstValue e.encode = .ok (.obj e.members) [] := by
    unfold firstValue
    rw [hk, hsp]
    simp only [IAPResponseError.encode]
    rw [value_object _ _ _ _ _ (by decide),
      members_more _ _ _ _ _ _ (skipSpace_quote _ _) (value_quote _ _ _ _)
        (skipSpace_member _ _ _),
      members_last _ _ _ _ _ (skipSpace_boolLit _ _) (value_boolLit _ _ _ _)]
    rfl
  unfold readValue
  rw [hfirst, hsp]
  rfl

/-! ## The scanner and the grammar: strings -/

theorem hexVal_of_HexDigit {n : Nat} {c : Char} (h : HexDigit n c) : hexVal c = some n := by
  rcases h with ⟨hn, rfl⟩ | ⟨h1, h2, rfl | rfl⟩
  · interval_cases n <;> decide
  · interval_cases n <;> decide
  · interval_cases n <;> decide

theorem HexDigit_of_hexVal {n : Nat} {c : Char} (h : hexVal c = some n) : HexDigit n c := by
  unfold hexVal at h
  split_ifs at h with h1 h2 h3
  · simp only [Bool.and_eq_true, decide_eq_true_eq] at h1
    simp only [Option.some.injEq] at h
    left
    refine ⟨by omega, ?_⟩
    rw [← h, show 48 + (c.toNat - 48) = c.toNat by omega, Char.ofNat_toNat]
  · simp only [Bool.and_eq_true, decide_eq_true_eq] at h2
    simp only [Option.some.injEq] at h
    right
    refine ⟨by omega, by omega, Or.inl ?_⟩
    rw [← h, show 87 + (c.toNat - 97 + 10) = c.toNat by omega, Char.ofNat_toNat]
  · simp only [Bool.and_eq_true, decide_eq_true_eq] at h3
    simp only [Option.some.injEq] at h
    right
    refine ⟨by omega, by omega, Or.inr ?_⟩
    rw [← h, show 55 + (c.toNat - 65 + 10) = c.toNat by omega, Char.ofNat_toNat]

theorem HexDigit_lt {n : Nat} {c : Char} (h : HexDigit n c) : n < 16 := by
  rcases h with ⟨hn, _⟩ | ⟨_, h2, _⟩ <;> omega

theorem Escape_lt {v : Nat} {t : List Char} (h : Escape v t) : v < 0x10000 := by
  obtain ⟨x, y, z, w, a, b, c, d, hx, hy, hz, hw, hv, _⟩ := h
  have := HexDigit_lt hx
  have := HexDigit_lt hy
  have := HexDigit_lt hz
  have := HexDigit_lt hw
  omega

theorem getu4_Escape {v : Nat} {t : List Char} (h : Escape v t) (cs : List Char) :
    getu4 (t ++ cs) = some v := by
  obtain ⟨x, y, z, w, a, b, c, d, hx, hy, hz, hw, hv, rfl⟩ := h
  simp [getu4, hexVal_of_HexDigit hx, hexVal_of_HexDigit hy, hexVal_of_HexDigit hz,
    hexVal_of_HexDigit hw, hv]

theorem Escape_of_getu4 {v : Nat} {cs : List Char} (h : getu4 cs = some v) :
    ∃ t cs1, Escape v t ∧ cs = t ++ cs1 := by
  unfold getu4 at h
  split at h
  · next a b c d cs1 =>
    split at h
    · next x y z w hx hy hz hw =>
      simp only [Option.some.injEq] at h
      exact ⟨['\\', 'u', a, b, c, d], cs1,
        ⟨x, y, z, w, a, b, c, d, HexDigit_of_hexVal hx, HexDigit_of_hexVal hy,
          HexDigit_of_hexVal hz, HexDigit_of_hexVal hw, h.symm, rfl⟩, rfl⟩
    · cases h
  · cases h

/-- What the scanner does with a whole `\uXXXX` at the start of the input. -/
theorem scanString_Escape {v : Nat} {t : List Char} (h : Escape v t) (acc cs : List Char) :
    scanString .inString acc (t ++ cs)
      = if isSurrogate v then
          match getu4 cs with
          | some rr1 =>
            if decodeRune v rr1 = replacementChar then
              scanString .inString (replacementChar :: acc) cs
            else scanString (.low 5) (decodeRune v rr1 :: acc) cs
          | none => scanString .inString (replacementChar :: acc) cs
        else scanString .inString (Char.ofNat v :: acc) cs := by
  obtain ⟨x, y, z, w, a, b, c, d, hx, hy, hz, hw, hv, rfl⟩ := h
  simp [scanString, hexVal_of_HexDigit hx, hexVal_of_HexDigit hy, hexVal_of_HexDigit hz,
    hexVal_of_HexDigit hw, hv]

theorem scanString_low {v : Nat} {t : List Char} (h : Escape v t) (acc cs : List Char) :
    scanString (.low 5) acc (t ++ cs) = scanString .inString acc cs := by
  obtain ⟨x, y, z, w, a, b, c, d, hx, hy, hz, hw, hv, rfl⟩ := h
  simp [scanString]

theorem char_valid (c : Char) :
    c.toNat < 0xd800 ∨ (0xdfff < c.toNat ∧ c.toNat < 0x110000) := c.valid

theorem toNat_ofNat_valid (n : Nat) (h : n < 0xd800 ∨ (0xdfff < n ∧ n < 0x110000)) :
    (Char.ofNat n).toNat = n := by
  have h2 : n.isValidChar := h
  simp [Char.ofNat, h2, Char.ofNatAux, Char.toNat, UInt32.toNat]

theorem isSurrogate_toNat (c : Char) : isSurrogate c.toNat = false := by
  have := char_valid c
  simp only [isSurrogate, Bool.and_eq_false_imp, decide_eq_true_eq, decide_eq_false_iff_not]
  omega

theorem toNat_replacementChar : replacementChar.toNat = 0xFFFD := by decide

/-- A high and a low surrogate make the character beyond the basic plane that
they write. -/
theorem decodeRune_pair (hi lo : Nat) (h1 : 0xD800 ≤ hi) (h2 : hi < 0xDC00)
    (h3 : 0xDC00 ≤ lo) (h4 : lo < 0xE000) :
    (decodeRune hi lo).toNat = (hi - 0xD800) * 1024 + (lo - 0xDC00) + 0x10000
      ∧ decodeRune hi lo ≠ replacementChar := by
  have hd : decodeRune hi lo
      = Char.ofNat ((hi - 0xD800) * 1024 + (lo - 0xDC00) + 0x10000) := by
    simp [decodeRune, h1, h2, h3, h4]
  have hn : (decodeRune hi lo).toNat = (hi - 0xD800) * 1024 + (lo - 0xDC00) + 0x10000 := by
    rw [hd, toNat_ofNat_valid]
    omega
  refine ⟨hn, ?_⟩
  intro heq
  rw [heq, toNat_replacementChar] at hn
  omega

/-- Two code units that are not a high surrogate followed by a low one decode
to U+FFFD. -/
theorem decodeRune_not_pair (hi lo : Nat)
    (h : ¬ (0xD800 ≤ hi ∧ hi < 0xDC00 ∧ 0xDC00 ≤ lo ∧ lo < 0xE000)) :
    decodeRune hi lo = replacementChar := by
  unfold decodeRune
  split
  · next hc =>
    simp only [Bool.and_eq_true, decide_eq_true_eq] at hc
    omega
  · rfl

theorem decodeRune_ne {hi lo : Nat} (h : decodeRune hi lo ≠ replacementChar) :
    0xD800 ≤ hi ∧ hi < 0xDC00 ∧ 0xDC00 ≤ lo ∧ lo < 0xE000 := by
  by_contra hc
  exact h (decodeRune_not_pair hi lo hc)

/-- The scanner reads each text of a character as that character. -/
theorem scanString_CharText {c : Char} {t : List Char} (h : CharText c t)
    (acc cs : List Char) :
    scanString .inString acc (t ++ cs) = scanString .inString (c :: acc) cs := by
  cases h with
  | plain c h1 h2 h3 =>
    have h4 : ¬ c.toNat < 32 := by omega
    simp [scanString, h2, h3, h4]
  | quote => simp [scanString]
  | backslash => simp [scanString]
  | slash => simp [scanString]
  | backspace => simp [scanString]
  | formfeed => simp [scanString]
  | newline => simp [scanString]
  | ret => simp [scanString]
  | tab => simp [scanString]
  | unit c t he =>
    rw [scanString_Escape he, isSurrogate_toNat]
    simp
  | pair c t1 t2 hc h1 h2 =>
    have hv := char_valid c
    have hp := decodeRune_pair (0xD800 + (c.toNat - 0x10000) / 1024)
      (0xDC00 + (c.toNat - 0x10000) % 1024) (by omega) (by omega) (by omega) (by omega)
    have hs : isSurrogate (0xD800 + (c.toNat - 0x10000) / 1024) = true := by
      simp only [isSurrogate, Bool.and_eq_true, decide_eq_true_eq]
      omega
    have hdec : decodeRune (0xD800 + (c.toNat - 0x10000) / 1024)
        (0xDC00 + (c.toNat - 0x10000) % 1024) = c := by
      have hn := hp.1
      have : (decodeRune (0xD800 + (c.toNat - 0x10000) / 1024)
          (0xDC00 + (c.toNat - 0x10000) % 1024)).toNat = c.toNat := by
        rw [hn]; omega
      rw [← Char.ofNat_toNat (decodeRune _ _), this, Char.ofNat_toNat]
    rw [List.append_assoc, scanString_Escape h1, hs, getu4_Escape h2]
    simp only [if_true, if_neg hp.2]
    rw [scanString_low h2, hdec]

theorem not_HexDigit_quote (n : Nat) : ¬ HexDigit n '"' := by
  intro h
  have h1 := hexVal_of_HexDigit h
  have h2 : hexVal '"' = none := by decide
  rw [h2] at h1
  cases h1

/-- An escape that starts a text followed by a quote lies within the text. -/
theorem Escape_start {v : Nat} {t ts rest cs1 : List Char} (he : Escape v t)
    (h : ts ++ '"' :: rest = t ++ cs1) : ∃ ts1, ts = t ++ ts1 := by
  obtain ⟨x, y, z, w, a, b, c, d, hx, hy, hz, hw, hv, rfl⟩ := he
  rcases ts with _ | ⟨x0, _ | ⟨x1, _ | ⟨x2, _ | ⟨x3, _ | ⟨x4, _ | ⟨x5, ts1⟩⟩⟩⟩⟩⟩
  · simp at h
  · simp at h
  · simp at h
    exact absurd (h.2.2.1 ▸ hx) (not_HexDigit_quote _)
  · simp at h
    exact absurd (h.2.2.2.1 ▸ hy) (not_HexDigit_quote _)
  · simp at h
    exact absurd (h.2.2.2.2.1 ▸ hz) (not_HexDigit_quote _)
  · simp at h
    exact absurd (h.2.2.2.2.2.1 ▸ hw) (not_HexDigit_quote _)
  · simp at h
    obtain ⟨h0, h1, h2, h3, h4, h5, _⟩ := h
    subst h0 h1 h2 h3 h4 h5
    exact ⟨ts1, rfl⟩

/-- Completeness of the scanner on strings: it reads every text of a string,
up to the closing quote, as that string. -/
theorem scanString_StrText {s ts : List Char} (h : StrText s ts) :
    ∀ (acc rest : List Char),
      scanString .inString acc (ts ++ '"' :: rest) = .ok (String.mk (acc.reverse ++ s)) rest := by
  induction h with
  | nil => intro acc rest; simp [scanString]
  | cons c t s ts hc _ ih =>
    intro acc rest
    rw [List.append_assoc, scanString_CharText hc, ih]
    simp
  | lone v t s ts h1 h2 he _ hnl ih =>
    intro acc rest
    have hs : isSurrogate v = true := by
      simp only [isSurrogate, Bool.and_eq_true, decide_eq_true_eq]
      omega
    have hfin : scanString .inString (replacementChar :: acc) (ts ++ '"' :: rest)
        = .ok (String.mk (acc.reverse ++ Char.ofNat 0xFFFD :: s)) rest := by
      rw [ih]
      simp [replacementChar]
    rw [List.append_assoc, scanString_Escape he, hs]
    simp only [if_true]
    cases hg : getu4 (ts ++ '"' :: rest) with
    | none => exact hfin
    | some rr1 =>
      simp only
      by_cases hd : decodeRune v rr1 = replacementChar
      · rw [if_pos hd]
        exact hfin
      · exfalso
        obtain ⟨_, hlt, hlo1, hlo2⟩ := decodeRune_ne hd
        obtain ⟨t2, cs1, he2, hcs⟩ := Escape_of_getu4 hg
        obtain ⟨ts1, hts⟩ := Escape_start he2 hcs
        exact hnl ⟨hlt, rr1, t2, ts1, hlo1, hlo2, he2, hts⟩

/-- A backslash followed by `u` that the scanner reads without error starts a
whole escape. -/
theorem Escape_of_scanString {acc cs : List Char} {s : String} {rest : List Char}
    (h : scanString .inString acc ('\\' :: 'u' :: cs) = .ok s rest) :
    ∃ v t cs1, Escape v t ∧ '\\' :: 'u' :: cs = t ++ cs1 := by
  rcases cs with _ | ⟨a, _ | ⟨b, _ | ⟨c, _ | ⟨d, cs1⟩⟩⟩⟩
  · simp [scanString] at h
  · cases ha : hexVal a <;> simp [scanString, ha] at h
  · cases ha : hexVal a <;> cases hb : hexVal b <;> simp [scanString, ha, hb] at h
  · cases ha : hexVal a <;> cases hb : hexVal b <;> cases hc : hexVal c <;>
      simp [scanString, ha, hb, hc] at h
  · cases ha : hexVal a with
    | none => simp [scanString, ha] at h
    | some x =>
      cases hb : hexVal b with
      | none => simp [scanString, ha, hb] at h
      | some y =>
        cases hc : hexVal c with
        | none => simp [scanString, ha, hb, hc] at h
        | some z =>
          cases hd : hexVal d with
          | none => simp [scanString, ha, hb, hc, hd] at h
          | some w =>
            exact ⟨_, ['\\', 'u', a, b, c, d], cs1,
              ⟨x, y, z, w, a, b, c, d, HexDigit_of_hexVal ha, HexDigit_of_hexVal hb,
                HexDigit_of_hexVal hc, HexDigit_of_hexVal hd, rfl, rfl⟩, rfl⟩

theorem Escape_length {v : Nat} {t : List Char} (h : Escape v t) : t.length = 6 := by
  obtain ⟨x, y, z, w, a, b, c, d, _, _, _, _, _, rfl⟩ := h
  rfl

/-- Soundness of the scanner on strings: what it reads up to a closing quote
is a text of the string it returns. -/
theorem StrText_of_scanString (n : Nat) : ∀ (cs : List Char), cs.length ≤ n →
    ∀ (acc : List Char) (s : String) (rest : List Char),
      scanString .inString acc cs = .ok s rest →
      ∃ dec ts, StrText dec ts ∧ cs = ts ++ '"' :: rest
        ∧ s = String.mk (acc.reverse ++ dec) := by
  induction n with
  | zero =>
    intro cs hlen acc s rest h
    have : cs = [] := List.length_eq_zero.mp (Nat.le_zero.mp hlen)
    subst this
    simp [scanString] at h
  | succ n ih =>
    intro cs hlen acc s rest h
    -- one more character written, then the rest by induction
    have step : ∀ (c : Char) (t cs1 : List Char), CharText c t → cs = t ++ cs1 → t ≠ [] →
        scanString .inString (c :: acc) cs1 = .ok s rest →
        ∃ dec ts, StrText dec ts ∧ cs = ts ++ '"' :: rest
          ∧ s = String.mk (acc.reverse ++ dec) := by
      intro c t cs1 hc hcs hne h1
      have hl : cs1.length ≤ n := by
        have : 0 < t.length := List.length_pos.mpr hne
        rw [hcs, List.length_append] at hlen
        omega
      obtain ⟨dec, ts, hst, hcs1, hs⟩ := ih cs1 hl (c :: acc) s rest h1
      refine ⟨c :: dec, t ++ ts, StrText.cons c t dec ts hc hst, ?_, ?_⟩
      · rw [hcs, hcs1, List.append_assoc]
      · rw [hs]; simp
    rcases cs with _ | ⟨c, cs1⟩
    · simp [scanString] at h
    · by_cases hq : c = '"'
      · subst hq
        simp only [scanString, if_true, Scan.ok.injEq] at h
        exact ⟨[], [], StrText.nil, by simp [h.2], by simp [h.1]⟩
      · by_cases hb : c = '\\'
        · subst hb
          rcases cs1 with _ | ⟨e, cs2⟩
          · simp [scanString] at h
          · by_cases hu : e = 'u'
            · subst hu
              obtain ⟨v, t, cs3, he, hcs⟩ := Escape_of_scanString h
              have hlen3 : cs3.length ≤ n := by
                have := Escape_length he
                have h2 := congrArg List.length hcs
                simp only [List.length_cons, List.length_append] at h2 hlen
                omega
              rw [hcs, scanString_Escape he] at h
              by_cases hs : isSurrogate v = true
              · have hv : 0xD800 ≤ v ∧ v < 0xE000 := by
                  simpa [isSurrogate] using hs
                -- the escape stands alone and is read as U+FFFD
                have lone : scanString .inString (replacementChar :: acc) cs3 = .ok s rest →
                    (∀ lo, getu4 cs3 = some lo → decodeRune v lo = replacementChar) →
                    ∃ dec ts, StrText dec ts ∧ '\\' :: 'u' :: cs2 = ts ++ '"' :: rest
                      ∧ s = String.mk (acc.reverse ++ dec) := by
                  intro h1 hno
                  obtain ⟨dec, ts, hst, hcs1, hs1⟩ := ih cs3 hlen3 _ s rest h1
                  refine ⟨Char.ofNat 0xFFFD :: dec, t ++ ts,
                    StrText.lone v t dec ts hv.1 hv.2 he hst ?_, ?_, ?_⟩
                  · rintro ⟨hlt, lo, tl, ts1, hlo1, hlo2, hel, hts⟩
                    have hg : getu4 cs3 = some lo := by
                      rw [hcs1, hts, List.append_assoc]
                      exact getu4_Escape hel _
                    exact (decodeRune_pair v lo hv.1 hlt hlo1 hlo2).2 (hno lo hg)
                  · rw [hcs, hcs1, List.append_assoc]
                  · rw [hs1]; simp [replacementChar]
                rw [if_pos hs] at h
                cases hg : getu4 cs3 with
                | none =>
                  rw [hg] at h
                  exact lone h (fun lo hlo => by rw [hg] at hlo; cases hlo)
                | some rr1 =>
                  rw [hg] at h
                  simp only at h
                  by_cases hd : decodeRune v rr1 = replacementChar
                  · rw [if_pos hd] at h
                    refine lone h (fun lo hlo => ?_)
                    rw [hg] at hlo
                    cases hlo
                    exact hd
                  · rw [if_neg hd] at h
                    obtain ⟨_, hlt, hlo1, hlo2⟩ := decodeRune_ne hd
                    obtain ⟨t2, cs4, he2, hcs4⟩ := Escape_of_getu4 hg
                    rw [hcs4, scanString_low he2] at h
                    have hp := decodeRune_pair v rr1 hv.1 hlt hlo1 hlo2
                    have hlen4 : cs4.length ≤ n := by
                      have h2 := congrArg List.length hcs4
                      simp only [List.length_append] at h2
                      omega
                    obtain ⟨dec, ts, hst, hcs1, hs1⟩ := ih cs4 hlen4 _ s rest h
                    have e1 : 0xD800 + ((decodeRune v rr1).toNat - 0x10000) / 1024 = v := by
                      rw [hp.1]; omega
                    have e2 : 0xDC00 + ((decodeRune v rr1).toNat - 0x10000) % 1024 = rr1 := by
                      rw [hp.1]; omega
                    refine ⟨decodeRune v rr1 :: dec, (t ++ t2) ++ ts,
                      StrText.cons _ _ dec ts
                        (CharText.pair _ t t2 (by rw [hp.1]; omega) (by rw [e1]; exact he)
                          (by rw [e2]; exact he2)) hst, ?_, ?_⟩
                    · rw [hcs, hcs4, hcs1]; simp
                    · rw [hs1]; simp
              · rw [if_neg hs] at h
                have hvl := Escape_lt he
                have hval : v < 0xd800 ∨ (0xdfff < v ∧ v < 0x110000) := by
                  simp only [isSurrogate, Bool.and_eq_true, decide_eq_true_eq] at hs
                  omega
                obtain ⟨dec, ts, hst, hcs1, hs1⟩ := ih cs3 hlen3 _ s rest h
                refine ⟨Char.ofNat v :: dec, t ++ ts,
                  StrText.cons _ t dec ts
                    (CharText.unit _ t (by rw [toNat_ofNat_valid v hval]; exact he)) hst, ?_, ?_⟩
                · rw [hcs, hcs1, List.append_assoc]
                · rw [hs1]; simp
            · simp only [scanString, if_neg hu, List.cons.injEq, true_and] at h
              have hne : ∀ x : Char, ['\\', x] ≠ [] := fun x => by simp
              split_ifs at h with h1 h2 h3 h4 h5 h6
              · rcases h1 with rfl | rfl | rfl
                · exact step _ _ cs2 CharText.quote rfl (hne _) h
                · exact step _ _ cs2 CharText.backslash rfl (hne _) h
                · exact step _ _ cs2 CharText.slash rfl (hne _) h
              · subst h2; exact step _ _ cs2 CharText.backspace rfl (hne _) h
              · subst h3; exact step _ _ cs2 CharText.formfeed rfl (hne _) h
              · subst h4; exact step _ _ cs2 CharText.newline rfl (hne _) h
              · subst h5; exact step _ _ cs2 CharText.ret rfl (hne _) h
              · subst h6; exact step _ _ cs2 CharText.tab rfl (hne _) h
        · simp only [scanString, if_neg hq, if_neg hb] at h
          split_ifs at h with hctl
          exact step c [c] cs1 (CharText.plain c (by omega) hq hb) rfl (by simp) h

/-! ## The scanner and the grammar: numbers -/

theorem isDigit_iff (c : Char) : isDigit c = true ↔ 48 ≤ c.toNat ∧ c.toNat ≤ 57 := by
  simp [isDigit]

theorem Digits.head {d : Char} {ds : List Char} (h : Digits (d :: ds)) : isDigit d = true :=
  (isDigit_iff d).mpr (h d (List.mem_cons_self _ _))

theorem Digits.tail {d : Char} {ds : List Char} (h : Digits (d :: ds)) : Digits ds :=
  fun c hc => h c (List.mem_cons_of_mem _ hc)

theorem Digits.cons {d : Char} {ds : List Char} (hd : isDigit d = true) (h : Digits ds) :
    Digits (d :: ds) := by
  intro c hc
  rcases List.mem_cons.mp hc with rfl | hc
  · exact (isDigit_iff _).mp hd
  · exact h c hc

theorem Digits.nil : Digits [] := fun _ h => by cases h

theorem isDigit_ne {c d : Char} (hc : isDigit c = true) (hd : isDigit d = false) : c ≠ d := by
  rintro rfl
  rw [hc] at hd
  cases hd

/-- In a state where a number may end, the scanner ends it before a character
that no number takes. -/
theorem scanNumber_ends (st : NumState) (hst : st.final = true) (acc rest : List Char)
    (hrest : NumberEnds rest) :
    scanNumber st acc rest = .ok (String.mk acc.reverse) rest := by
  rcases rest with _ | ⟨c, cs⟩
  · simp [scanNumber, hst]
  · obtain ⟨h1, h2, h3, h4⟩ := hrest c cs rfl
    have hd : isDigit c = false := by
      cases h : isDigit c with
      | false => rfl
      | true => exact absurd ((isDigit_iff c).mp h) h1
    cases st <;> simp [NumState.final] at hst <;> simp [scanNumber, hd, h2, h3, h4]

/-- The scanner takes a run of digits in each of the three states that loop
on digits. -/
theorem scanNumber_Digits (st : NumState) (hst : st = .int ∨ st = .dot0 ∨ st = .e0)
    {ds : List Char} (h : Digits ds) : ∀ (acc cs : List Char),
      scanNumber st acc (ds ++ cs) = scanNumber st (ds.reverse ++ acc) cs := by
  induction ds with
  | nil => intro acc cs; rfl
  | cons d ds ih =>
    intro acc cs
    have hd := h.head
    rcases hst with rfl | rfl | rfl <;>
      simp only [List.cons_append, scanNumber, hd, if_true, List.append_eq] <;>
      rw [ih h.tail] <;> simp

theorem scanNumber_ExpPart (st : NumState) (hst : st = .zero ∨ st = .int ∨ st = .dot0)
    {e : List Char} (he : ExpPart e) (acc rest : List Char) (hrest : NumberEnds rest) :
    scanNumber st acc (e ++ rest) = .ok (String.mk (acc.reverse ++ e)) rest := by
  rcases he with rfl | ⟨x, sg, d, ds, hx, hsg, hds, rfl⟩
  · have hf : st.final = true := by rcases hst with rfl | rfl | rfl <;> rfl
    simpa using scanNumber_ends st hf acc rest hrest
  · have hxd : isDigit x = false := by rcases hx with rfl | rfl <;> decide
    have hxdot : x ≠ '.' := by rcases hx with rfl | rfl <;> decide
    have hd := hds.head
    have h1 : scanNumber st acc (x :: (sg ++ d :: ds) ++ rest)
        = scanNumber .e (x :: acc) (sg ++ d :: (ds ++ rest)) := by
      rcases hst with rfl | rfl | rfl <;>
        simp [scanNumber, hxd, hxdot, hx]
    have h2 : scanNumber .e (x :: acc) (sg ++ d :: (ds ++ rest))
        = scanNumber .e0 (d :: (sg.reverse ++ x :: acc)) (ds ++ rest) := by
      have hdp : d ≠ '+' := isDigit_ne hd (by decide)
      have hdm : d ≠ '-' := isDigit_ne hd (by decide)
      rcases hsg with rfl | rfl | rfl <;> simp [scanNumber, hd, hdp, hdm]
    rw [h1, h2, scanNumber_Digits .e0 (Or.inr (Or.inr rfl)) hds.tail,
      scanNumber_ends .e0 rfl _ rest hrest]
    simp

theorem scanNumber_FracPart (st : NumState) (hst : st = .zero ∨ st = .int)
    {f e : List Char} (hf : FracPart f) (he : ExpPart e) (acc rest : List Char)
    (hrest : NumberEnds rest) :
    scanNumber st acc (f ++ (e ++ rest)) = .ok (String.mk (acc.reverse ++ (f ++ e))) rest := by
  rcases hf with rfl | ⟨d, ds, hds, rfl⟩
  · have := scanNumber_ExpPart st (by rcases hst with rfl | rfl <;> simp) he acc rest hrest
    simpa using this
  · have hd := hds.head
    have hdd : isDigit '.' = false := by decide
    have h1 : scanNumber st acc (('.' :: d :: ds) ++ (e ++ rest))
        = scanNumber .dot0 (d :: '.' :: acc) (ds ++ (e ++ rest)) := by
      rcases hst with rfl | rfl <;> simp [scanNumber, hd, hdd]
    rw [h1, scanNumber_Digits .dot0 (Or.inr (Or.inl rfl)) hds.tail,
      scanNumber_ExpPart .dot0 (Or.inr (Or.inr rfl)) he _ rest hrest]
    simp

theorem scanNumber_IntPart {i f e : List Char} (hi : IntPart i) (hf : FracPart f)
    (he : ExpPart e) (acc rest : List Char) (hrest : NumberEnds rest) :
    scanNumber .neg acc (i ++ (f ++ (e ++ rest)))
      = .ok (String.mk (acc.reverse ++ (i ++ (f ++ e)))) rest := by
  rcases hi with rfl | ⟨d, ds, rfl, h1, h2, hds⟩
  · simp only [List.cons_append, List.nil_append, scanNumber, if_true, List.append_eq]
    rw [scanNumber_FracPart .zero (Or.inl rfl) hf he _ rest hrest]
    simp
  · have hd : isDigit d = true := (isDigit_iff d).mpr ⟨by omega, h2⟩
    have hz : d ≠ '0' := by
      rintro rfl
      exact absurd h1 (by decide)
    simp only [List.cons_append, scanNumber, if_neg hz, hd, if_true, List.append_eq]
    rw [scanNumber_Digits .int (Or.inl rfl) hds,
      scanNumber_FracPart .int (Or.inr rfl) hf he _ rest hrest]
    simp

/-- Completeness of the scanner on numbers. -/
theorem value_IsNumber {t : List Char} (h : IsNumber t) (n depth : Nat) (rest : List Char)
    (hrest : NumberEnds rest) :
    value (n + 1) depth (t ++ rest) = .ok (.num (String.mk t)) rest := by
  obtain ⟨sg, i, f, e, hsg, hi, hf, he, rfl⟩ := h
  rcases hsg with rfl | rfl
  · rcases hi with rfl | ⟨d, ds, rfl, h1, h2, hds⟩
    · have h0 : ('0' : Char) ≠ Char.ofNat 123 := by decide
      simp only [List.nil_append, List.cons_append, List.append_assoc, value, if_neg h0]
      simp only [show ('0' : Char) ≠ '[' by decide, show ('0' : Char) ≠ '"' by decide,
        show ('0' : Char) ≠ '-' by decide, if_false, if_true, List.append_eq]
      rw [scanNumber_FracPart .zero (Or.inl rfl) hf he _ rest hrest]
      simp [Scan.map]
    · have hd : isDigit d = true := (isDigit_iff d).mpr ⟨by omega, h2⟩
      have c1 : d ≠ Char.ofNat 123 := isDigit_ne hd (by decide)
      have c2 : d ≠ '[' := isDigit_ne hd (by decide)
      have c3 : d ≠ '"' := isDigit_ne hd (by decide)
      have c4 : d ≠ '-' := isDigit_ne hd (by decide)
      have c5 : d ≠ '0' := by
        rintro rfl
        exact absurd h1 (by decide)
      simp only [List.nil_append, List.cons_append, List.append_assoc, value, if_neg c1,
        if_neg c2, if_neg c3, if_neg c4, if_neg c5, hd, if_true, List.append_eq]
      rw [scanNumber_Digits .int (Or.inl rfl) hds,
        scanNumber_FracPart .int (Or.inr rfl) hf he _ rest hrest]
      simp [Scan.map]
  · have h0 : ('-' : Char) ≠ Char.ofNat 123 := by decide
    simp only [List.cons_append, List.nil_append, List.append_assoc, value, if_neg h0]
    simp only [show ('-' : Char) ≠ '[' by decide, show ('-' : Char) ≠ '"' by decide,
      if_false, if_true, List.append_eq]
    rw [scanNumber_IntPart hi hf he _ rest hrest]
    simp [Scan.map]

theorem sound_e0 (cs : List Char) : ∀ (acc : List Char) (lit : String) (rest : List Char),
    scanNumber .e0 acc cs = .ok lit rest →
    ∃ ds, Digits ds ∧ cs = ds ++ rest ∧ lit = String.mk (acc.reverse ++ ds) := by
  induction cs with
  | nil =>
    intro acc lit rest h
    simp only [scanNumber, NumState.final, if_true, Scan.ok.injEq] at h
    exact ⟨[], Digits.nil, by simp [h.2], by simp [h.1]⟩
  | cons c cs ih =>
    intro acc lit rest h
    simp only [scanNumber] at h
    split_ifs at h with hd
    · obtain ⟨ds, hds, hcs, hlit⟩ := ih _ _ _ h
      exact ⟨c :: ds, Digits.cons hd hds, by simp [hcs], by simp [hlit]⟩
    · simp only [Scan.ok.injEq] at h
      exact ⟨[], Digits.nil, by simp [h.2], by simp [h.1]⟩

theorem sound_eSign (cs acc : List Char) (lit : String) (rest : List Char)
    (h : scanNumber .eSign acc cs = .ok lit rest) :
    ∃ d ds, Digits (d :: ds) ∧ cs = d :: (ds ++ rest)
      ∧ lit = String.mk (acc.reverse ++ d :: ds) := by
  rcases cs with _ | ⟨c, cs⟩
  · simp [scanNumber, NumState.final] at h
  · simp only [scanNumber] at h
    split_ifs at h with hd
    obtain ⟨ds, hds, hcs, hlit⟩ := sound_e0 cs _ _ _ h
    exact ⟨c, ds, Digits.cons hd hds, by simp [hcs], by simp [hlit]⟩

theorem sound_e (cs acc : List Char) (lit : String) (rest : List Char)
    (h : scanNumber .e acc cs = .ok lit rest) :
    ∃ sg d ds, (sg = [] ∨ sg = ['+'] ∨ sg = ['-']) ∧ Digits (d :: ds)
      ∧ cs = sg ++ d :: (ds ++ rest) ∧ lit = String.mk (acc.reverse ++ (sg ++ d :: ds)) := by
  rcases cs with _ | ⟨c, cs⟩
  · simp [scanNumber, NumState.final] at h
  · simp only [scanNumber] at h
    split_ifs at h with hs hd
    · obtain ⟨d, ds, hds, hcs, hlit⟩ := sound_eSign cs _ _ _ h
      refine ⟨[c], d, ds, ?_, hds, by simp [hcs], by simp [hlit]⟩
      rcases hs with rfl | rfl <;> simp
    · obtain ⟨ds, hds, hcs, hlit⟩ := sound_e0 cs _ _ _ h
      exact ⟨[], c, ds, Or.inl rfl, Digits.cons hd hds, by simp [hcs], by simp [hlit]⟩

/-- After `e` or `E` in a state that takes an exponent. -/
theorem sound_exp {c : Char} (hc : c = 'e' ∨ c = 'E') (cs acc : List Char) (lit : String)
    (rest : List Char) (h : scanNumber .e (c :: acc) cs = .ok lit rest) :
    ∃ e, ExpPart e ∧ c :: cs = e ++ rest ∧ lit = String.mk (acc.reverse ++ e) := by
  obtain ⟨sg, d, ds, hsg, hds, hcs, hlit⟩ := sound_e cs _ _ _ h
  exact ⟨c :: (sg ++ d :: ds), Or.inr ⟨c, sg, d, ds, hc, hsg, hds, rfl⟩, by simp [hcs],
    by simp [hlit]⟩

theorem sound_dot0 (cs : List Char) : ∀ (acc : List Char) (lit : String) (rest : List Char),
    scanNumber .dot0 acc cs = .ok lit rest →
    ∃ ds e, Digits ds ∧ ExpPart e ∧ cs = ds ++ (e ++ rest)
      ∧ lit = String.mk (acc.reverse ++ (ds ++ e)) := by
  induction cs with
  | nil =>
    intro acc lit rest h
    simp only [scanNumber, NumState.final, if_true, Scan.ok.injEq] at h
    exact ⟨[], [], Digits.nil, Or.inl rfl, by simp [h.2], by simp [h.1]⟩
  | cons c cs ih =>
    intro acc lit rest h
    simp only [scanNumber] at h
    split_ifs at h with hd he
    · obtain ⟨ds, e, hds, hee, hcs, hlit⟩ := ih _ _ _ h
      exact ⟨c :: ds, e, Digits.cons hd hds, hee, by simp [hcs], by simp [hlit]⟩
    · obtain ⟨e, hee, hcs, hlit⟩ := sound_exp he cs acc lit rest h
      exact ⟨[], e, Digits.nil, hee, by simp [hcs], by simp [hlit]⟩
    · simp only [Scan.ok.injEq] at h
      exact ⟨[], [], Digits.nil, Or.inl rfl, by simp [h.2], by simp [h.1]⟩

/-- After the decimal point. -/
theorem sound_dot (cs acc : List Char) (lit : String) (rest : List Char)
    (h : scanNumber .dot ('.' :: acc) cs = .ok lit rest) :
    ∃ f e, FracPart f ∧ ExpPart e ∧ '.' :: cs = f ++ (e ++ rest)
      ∧ lit = String.mk (acc.reverse ++ (f ++ e)) := by
  rcases cs with _ | ⟨c, cs⟩
  · simp [scanNumber, NumState.final] at h
  · simp only [scanNumber] at h
    split_ifs at h with hd
    obtain ⟨ds, e, hds, hee, hcs, hlit⟩ := sound_dot0 cs _ _ _ h
    exact ⟨'.' :: c :: ds, e, Or.inr ⟨c, ds, Digits.cons hd hds, rfl⟩, hee, by simp [hcs],
      by simp [hlit]⟩

theorem sound_zero (cs acc : List Char) (lit : String) (rest : List Char)
    (h : scanNumber .zero acc cs = .ok lit rest) :
    ∃ f e, FracPart f ∧ ExpPart e ∧ cs = f ++ (e ++ rest)
      ∧ lit = String.mk (acc.reverse ++ (f ++ e)) := by
  rcases cs with _ | ⟨c, cs⟩
  · simp only [scanNumber, NumState.final, if_true, Scan.ok.injEq] at h
    exact ⟨[], [], Or.inl rfl, Or.inl rfl, by simp [h.2], by simp [h.1]⟩
  · simp only [scanNumber] at h
    split_ifs at h with hd he
    · subst hd
      exact sound_dot cs acc lit rest h
    · obtain ⟨e, hee, hcs, hlit⟩ := sound_exp he cs acc lit rest h
      exact ⟨[], e, Or.inl rfl, hee, by simp [hcs], by simp [hlit]⟩
    · simp only [Scan.ok.injEq] at h
      exact ⟨[], [], Or.inl rfl, Or.inl rfl, by simp [h.2], by simp [h.1]⟩

theorem sound_int (cs : List Char) : ∀ (acc : List Char) (lit : String) (rest : List Char),
    scanNumber .int acc cs = .ok lit rest →
    ∃ ds f e, Digits ds ∧ FracPart f ∧ ExpPart e ∧ cs = ds ++ (f ++ (e ++ rest))
      ∧ lit = String.mk (acc.reverse ++ (ds ++ (f ++ e))) := by
  induction cs with
  | nil =>
    intro acc lit rest h
    simp only [scanNumber, NumState.final, if_true, Scan.ok.injEq] at h
    exact ⟨[], [], [], Digits.nil, Or.inl rfl, Or.inl rfl, by simp [h.2], by simp [h.1]⟩
  | cons c cs ih =>
    intro acc lit rest h
    simp only [scanNumber] at h
    split_ifs at h with hd hdot he
    · obtain ⟨ds, f, e, hds, hf, hee, hcs, hlit⟩ := ih _ _ _ h
      exact ⟨c :: ds, f, e, Digits.cons hd hds, hf, hee, by simp [hcs], by simp [hlit]⟩
    · subst hdot
      obtain ⟨f, e, hf, hee, hcs, hlit⟩ := sound_dot cs acc lit rest h
      exact ⟨[], f, e, Digits.nil, hf, hee, by simp [hcs], by simp [hlit]⟩
    · obtain ⟨e, hee, hcs, hlit⟩ := sound_exp he cs acc lit rest h
      exact ⟨[], [], e, Digits.nil, Or.inl rfl, hee, by simp [hcs], by simp [hlit]⟩
    · simp only [Scan.ok.injEq] at h
      exact ⟨[], [], [], Digits.nil, Or.inl rfl, Or.inl rfl, by simp [h.2], by simp [h.1]⟩

/-- Soundness after a first digit other than `0`. -/
theorem sound_first (d : Char) (hd : isDigit d = true) (hz : d ≠ '0') (cs acc : List Char)
    (lit : String) (rest : List Char) (h : scanNumber .int (d :: acc) cs = .ok lit rest) :
    ∃ i f e, IntPart i ∧ FracPart f ∧ ExpPart e ∧ d :: cs = i ++ (f ++ (e ++ rest))
      ∧ lit = String.mk (acc.reverse ++ (i ++ (f ++ e))) := by
  obtain ⟨ds, f, e, hds, hf, hee, hcs, hlit⟩ := sound_int cs _ _ _ h
  have h1 := (isDigit_iff d).mp hd
  have h2 : d.toNat ≠ 48 := by
    intro h48
    apply hz
    rw [← Char.ofNat_toNat d, h48]
  exact ⟨d :: ds, f, e, Or.inr ⟨d, ds, rfl, by omega, h1.2, hds⟩, hf, hee, by simp [hcs],
    by simp [hlit]⟩

theorem sound_neg (cs acc : List Char) (lit : String) (rest : List Char)
    (h : scanNumber .neg acc cs = .ok lit rest) :
    ∃ i f e, IntPart i ∧ FracPart f ∧ ExpPart e ∧ cs = i ++ (f ++ (e ++ rest))
      ∧ lit = String.mk (acc.reverse ++ (i ++ (f ++ e))) := by
  rcases cs with _ | ⟨c, cs⟩
  · simp [scanNumber, NumState.final] at h
  · simp only [scanNumber] at h
    split_ifs at h with hz hd
    · subst hz
      obtain ⟨f, e, hf, hee, hcs, hlit⟩ := sound_zero cs _ _ _ h
      exact ⟨['0'], f, e, Or.inl rfl, hf, hee, by simp [hcs], by simp [hlit]⟩
    · exact sound_first c hd hz cs acc lit rest h

/-! ## The scanner and the grammar: blanks, words, arrays and objects -/

theorem isSpace_iff (c : Char) :
    isSpace c = true ↔ (c = ' ' ∨ c = '\t' ∨ c = '\n' ∨ c = '\r') := by
  simp only [isSpace, Bool.or_eq_true, decide_eq_true_eq]
  constructor
  · rintro (((h | h) | h) | h) <;> simp [h]
  · rintro (h | h | h | h) <;> simp [h]

theorem Blank.empty : Blank [] := fun _ h => nomatch h

theorem skipSpace_Blank {w : List Char} (hw : Blank w) {rest : List Char}
    (hrest : NoBlankHead rest) : skipSpace (w ++ rest) = rest := by
  induction w with
  | nil =>
    rcases rest with _ | ⟨c, cs⟩
    · rfl
    · simp [skipSpace, hrest c cs rfl]
  | cons c w ih =>
    have hc : isSpace c = true := (isSpace_iff c).mpr (hw c (List.mem_cons_self _ _))
    simp only [List.cons_append, skipSpace, hc, if_true]
    exact ih (fun x hx => hw x (List.mem_cons_of_mem _ hx))

theorem skipSpace_sound (cs : List Char) :
    ∃ w, Blank w ∧ cs = w ++ skipSpace cs ∧ NoBlankHead (skipSpace cs) := by
  induction cs with
  | nil => exact ⟨[], Blank.empty, rfl, fun _ _ h => nomatch h⟩
  | cons c cs ih =>
    by_cases hc : isSpace c = true
    · obtain ⟨w, hw, hcs, hh⟩ := ih
      refine ⟨c :: w, ?_, ?_, ?_⟩
      · intro x hx
        rcases List.mem_cons.mp hx with rfl | hx
        · exact (isSpace_iff _).mp hc
        · exact hw x hx
      · simp only [skipSpace, hc, if_true, List.cons_append]
        rw [← hcs]
      · simp only [skipSpace, hc, if_true]
        exact hh
    · have hc2 : isSpace c = false := by simpa using hc
      refine ⟨[], Blank.empty, ?_, ?_⟩
      · simp [skipSpace, hc2]
      · simp only [skipSpace, hc2]
        intro x xs hx
        simp only [Bool.false_eq_true, if_false, List.cons.injEq] at hx
        rw [← hx.1]
        exact hc2

theorem NoBlankHead_cons {c : Char} (h : isSpace c = false) (cs : List Char) :
    NoBlankHead (c :: cs) := by
  intro x xs hx
  rw [← (List.cons.inj hx).1]
  exact h

theorem scanWord_sound (w : List Char) : ∀ (cs rest : List Char),
    scanWord w cs = .ok () rest → cs = w ++ rest := by
  induction w with
  | nil =>
    intro cs rest h
    simp only [scanWord, Scan.ok.injEq, true_and] at h
    simp [h]
  | cons a w ih =>
    intro cs rest h
    rcases cs with _ | ⟨c, cs⟩
    · simp [scanWord] at h
    · simp only [scanWord] at h
      split_ifs at h with hc
      rw [hc, ih cs rest h]
      rfl

theorem ValueHead_of_isDigit {d : Char} (hd : isDigit d = true) (t : List Char) :
    ValueHead (d :: t) :=
  have hs : isSpace d = false := by
    cases h : isSpace d with
    | false => rfl
    | true => rcases (isSpace_iff d).mp h with rfl | rfl | rfl | rfl <;> cases hd
  ⟨d, t, rfl, hs, isDigit_ne hd (by decide), isDigit_ne hd (by decide),
    isDigit_ne hd (by decide), isDigit_ne hd (by decide)⟩

theorem ValueHead_IsNumber {t : List Char} (h : IsNumber t) : ValueHead t := by
  obtain ⟨sg, i, f, e, hsg, hi, _, _, rfl⟩ := h
  have hint : ValueHead (i ++ (f ++ e)) := by
    rcases hi with rfl | ⟨d, ds, rfl, h1, h2, _⟩
    · exact ValueHead_of_isDigit (by decide) _
    · exact ValueHead_of_isDigit ((isDigit_iff d).mpr ⟨by omega, h2⟩) _
  rcases hsg with rfl | rfl
  · exact hint
  · exact ⟨'-', _, rfl, by decide, by decide, by decide, by decide, by decide⟩

theorem Text.first {k : Nat} {node : Node} {t : List Char} (h : Text k node t) :
    match node with
    | .val _ => ValueHead t
    | .elems _ => ValueHead t
    | .members _ => ∃ t1, t = '"' :: t1 := by
  induction h with
  | litNull k => exact ⟨_, _, rfl, by decide, by decide, by decide, by decide, by decide⟩
  | litTrue k => exact ⟨_, _, rfl, by decide, by decide, by decide, by decide, by decide⟩
  | litFalse k => exact ⟨_, _, rfl, by decide, by decide, by decide, by decide, by decide⟩
  | num k t hn => exact ValueHead_IsNumber hn
  | str k s t _ => exact ⟨_, _, rfl, by decide, by decide, by decide, by decide, by decide⟩
  | arrNil k w _ => exact ⟨_, _, rfl, by decide, by decide, by decide, by decide, by decide⟩
  | arr k w es t _ _ _ =>
    exact ⟨_, _, rfl, by decide, by decide, by decide, by decide, by decide⟩
  | objNil k w _ => exact ⟨_, _, rfl, by decide, by decide, by decide, by decide, by decide⟩
  | obj k w ms t _ _ _ =>
    exact ⟨_, _, rfl, by decide, by decide, by decide, by decide, by decide⟩
  | elemsLast k v t w _ _ ih =>
    obtain ⟨c, t1, rfl, h1, h2, h3, h4, h5⟩ := ih
    exact ⟨c, _, rfl, h1, h2, h3, h4, h5⟩
  | elemsMore k v t w1 w2 vs ts _ _ _ _ ih _ =>
    obtain ⟨c, t1, rfl, h1, h2, h3, h4, h5⟩ := ih
    exact ⟨c, _, rfl, h1, h2, h3, h4, h5⟩
  | membersLast k key kt w1 w2 v t w3 _ _ _ _ _ _ => exact ⟨_, rfl⟩
  | membersMore k key kt w1 w2 v t w3 w4 ms ts _ _ _ _ _ _ _ _ _ => exact ⟨_, rfl⟩

theorem Text.deeper {k : Nat} {node : Node} {t : List Char} (h : Text k node t) :
    ∀ k1, k ≤ k1 → Text k1 node t := by
  induction h with
  | litNull k => intro k1 _; exact .litNull k1
  | litTrue k => intro k1 _; exact .litTrue k1
  | litFalse k => intro k1 _; exact .litFalse k1
  | num k t hn => intro k1 _; exact .num k1 t hn
  | str k s t hs => intro k1 _; exact .str k1 s t hs
  | arrNil k w hw =>
    intro k1 hk
    obtain ⟨k2, rfl⟩ : ∃ k2, k1 = k2 + 1 := ⟨k1 - 1, by omega⟩
    exact .arrNil k2 w hw
  | arr k w es t hw _ ih =>
    intro k1 hk
    obtain ⟨k2, rfl⟩ : ∃ k2, k1 = k2 + 1 := ⟨k1 - 1, by omega⟩
    exact .arr k2 w es t hw (ih k2 (by omega))
  | objNil k w hw =>
    intro k1 hk
    obtain ⟨k2, rfl⟩ : ∃ k2, k1 = k2 + 1 := ⟨k1 - 1, by omega⟩
    exact .objNil k2 w hw
  | obj k w ms t hw _ ih =>
    intro k1 hk
    obtain ⟨k2, rfl⟩ : ∃ k2, k1 = k2 + 1 := ⟨k1 - 1, by omega⟩
    exact .obj k2 w ms t hw (ih k2 (by omega))
  | elemsLast k v t w _ hw ih => intro k1 hk; exact .elemsLast k1 v t w (ih k1 hk) hw
  | elemsMore k v t w1 w2 vs ts _ h1 h2 _ ih1 ih2 =>
    intro k1 hk
    exact .elemsMore k1 v t w1 w2 vs ts (ih1 k1 hk) h1 h2 (ih2 k1 hk)
  | membersLast k key kt w1 w2 v t w3 hs h1 h2 _ h3 ih =>
    intro k1 hk
    exact .membersLast k1 key kt w1 w2 v t w3 hs h1 h2 (ih k1 hk) h3
  | membersMore k key kt w1 w2 v t w3 w4 ms ts hs h1 h2 _ h3 h4 _ ih1 ih2 =>
    intro k1 hk
    exact .membersMore k1 key kt w1 w2 v t w3 w4 ms ts hs h1 h2 (ih1 k1 hk) h3 h4 (ih2 k1 hk)

/-! ### How the scanner goes through an array or an object -/

theorem value_arr {n depth : Nat} {cs cs1 : List Char} {c1 : Char}
    (hd : depth < maxNestingDepth) (hsk : skipSpace cs = c1 :: cs1) (hc : c1 ≠ ']') :
    value (n + 1) depth ('[' :: cs) = (elements n (depth + 1) (c1 :: cs1)).map .arr := by
  have h0 : ('[' : Char) ≠ Char.ofNat 123 := by decide
  simp only [value, if_neg h0, if_true, Nat.not_le.mpr hd, if_false, hsk, if_neg hc]

theorem value_arrNil {n depth : Nat} {cs cs1 : List Char}
    (hd : depth < maxNestingDepth) (hsk : skipSpace cs = ']' :: cs1) :
    value (n + 1) depth ('[' :: cs) = .ok (.arr []) cs1 := by
  have h0 : ('[' : Char) ≠ Char.ofNat 123 := by decide
  simp only [value, if_neg h0, if_true, Nat.not_le.mpr hd, if_false, hsk]

theorem value_obj {n depth : Nat} {cs cs1 : List Char} {c1 : Char}
    (hd : depth < maxNestingDepth) (hsk : skipSpace cs = c1 :: cs1)
    (hc : c1 ≠ Char.ofNat 125) :
    value (n + 1) depth (Char.ofNat 123 :: cs)
      = (members n (depth + 1) (c1 :: cs1)).map .obj := by
  simp only [value, if_true, Nat.not_le.mpr hd, if_false, hsk, if_neg hc]

theorem value_objNil {n depth : Nat} {cs cs1 : List Char}
    (hd : depth < maxNestingDepth) (hsk : skipSpace cs = Char.ofNat 125 :: cs1) :
    value (n + 1) depth (Char.ofNat 123 :: cs) = .ok (.obj []) cs1 := by
  simp only [value, if_true, Nat.not_le.mpr hd, if_false, hsk]

theorem value_str {n depth : Nat} (cs : List Char) :
    value (n + 1) depth ('"' :: cs) = (scanString .inString [] cs).map .str := by
  have h0 : ('"' : Char) ≠ Char.ofNat 123 := by decide
  have h1 : ('"' : Char) ≠ '[' := by decide
  simp only [value, if_neg h0, if_neg h1, if_true]

theorem elements_last {n depth : Nat} {cs rest0 cs1 : List Char} {v : JSON}
    (hv : value n depth cs = .ok v rest0) (hsk : skipSpace rest0 = ']' :: cs1) :
    elements (n + 1) depth cs = .ok [v] cs1 := by
  simp only [elements, hv, hsk, if_true]

theorem elements_more {n depth : Nat} {cs rest0 cs1 : List Char} {v : JSON}
    (hv : value n depth cs = .ok v rest0) (hsk : skipSpace rest0 = ',' :: cs1) :
    elements (n + 1) depth cs = (elements n depth (skipSpace cs1)).map (v :: ·) := by
  have h0 : (',' : Char) ≠ ']' := by decide
  simp only [elements, hv, hsk, if_neg h0, if_true]

theorem members_end {n depth : Nat} {cs rest0 cs1 rest1 cs2 : List Char} {key : String}
    {v : JSON} (hk : scanString .inString [] cs = .ok key rest0)
    (hsk : skipSpace rest0 = ':' :: cs1) (hv : value n depth (skipSpace cs1) = .ok v rest1)
    (hsk2 : skipSpace rest1 = Char.ofNat 125 :: cs2) :
    members (n + 1) depth ('"' :: cs) = .ok [(key, v)] cs2 := by
  simp only [members, if_true, hk, hsk, hv, hsk2]

theorem members_next {n depth : Nat} {cs rest0 cs1 rest1 cs2 : List Char} {key : String}
    {v : JSON} (hk : scanString .inString [] cs = .ok key rest0)
    (hsk : skipSpace rest0 = ':' :: cs1) (hv : value n depth (skipSpace cs1) = .ok v rest1)
    (hsk2 : skipSpace rest1 = ',' :: cs2) :
    members (n + 1) depth ('"' :: cs)
      = (members n depth (skipSpace cs2)).map ((key, v) :: ·) := by
  have h0 : (',' : Char) ≠ Char.ofNat 125 := by decide
  simp only [members, if_true, hk, hsk, hv, hsk2, if_neg h0]

theorem NumberEnds_of_not_digit {c : Char} (cs : List Char) (h1 : isDigit c = false)
    (h2 : c ≠ '.') (h3 : c ≠ 'e') (h4 : c ≠ 'E') : NumberEnds (c :: cs) := by
  intro x xs hx
  obtain ⟨rfl, _⟩ := List.cons.inj hx
  refine ⟨fun hd => ?_, h2, h3, h4⟩
  rw [(isDigit_iff _).mpr hd] at h1
  cases h1

/-- After a value come blanks and a comma, a bracket or a brace: a number ends there. -/
theorem NumberEnds_Blank {w : List Char} (hw : Blank w) {c : Char} (cs : List Char)
    (h1 : isDigit c = false) (h2 : c ≠ '.') (h3 : c ≠ 'e') (h4 : c ≠ 'E') :
    NumberEnds (w ++ c :: cs) := by
  rcases w with _ | ⟨x, w⟩
  · exact NumberEnds_of_not_digit cs h1 h2 h3 h4
  · have hx := hw x (List.mem_cons_self _ _)
    refine NumberEnds_of_not_digit _ ?_ ?_ ?_ ?_ <;>
      rcases hx with rfl | rfl | rfl | rfl <;> decide

theorem NoBlankHead_ValueHead {t : List Char} (h : ValueHead t) (rest : List Char) :
    NoBlankHead (t ++ rest) := by
  obtain ⟨c, t1, rfl, hs, _⟩ := h
  exact NoBlankHead_cons hs _

/-- Completeness of the scanner: it reads every JSON text as what the text
writes. -/
theorem Text.complete {k : Nat} {node : Node} {t : List Char} (h : Text k node t) :
    Complete k node t := by
  induction h with
  | litNull k =>
    intro n depth rest _ _ hn
    obtain ⟨m, rfl⟩ : ∃ m, n = m + 1 := ⟨n - 1, by omega⟩
    have h0 : ('n' : Char) ≠ Char.ofNat 123 := by decide
    simp [value, h0, scanWord, Scan.map, isDigit]
  | litTrue k =>
    intro n depth rest _ _ hn
    obtain ⟨m, rfl⟩ : ∃ m, n = m + 1 := ⟨n - 1, by omega⟩
    have h0 : ('t' : Char) ≠ Char.ofNat 123 := by decide
    simp [value, h0, scanWord, Scan.map, isDigit]
  | litFalse k =>
    intro n depth rest _ _ hn
    obtain ⟨m, rfl⟩ : ∃ m, n = m + 1 := ⟨n - 1, by omega⟩
    have h0 : ('f' : Char) ≠ Char.ofNat 123 := by decide
    simp [value, h0, scanWord, Scan.map, isDigit]
  | num k t hnum =>
    intro n depth rest _ hends hn
    obtain ⟨m, rfl⟩ : ∃ m, n = m + 1 := ⟨n - 1, by omega⟩
    exact value_IsNumber hnum m depth rest (hends ⟨_, rfl⟩)
  | str k s t hs =>
    intro n depth rest _ _ hn
    obtain ⟨m, rfl⟩ : ∃ m, n = m + 1 := ⟨n - 1, by omega⟩
    have hform : ('"' :: (t ++ ['"'])) ++ rest = '"' :: (t ++ '"' :: rest) := by simp
    rw [hform, value_str, scanString_StrText hs]
    simp [Scan.map]
  | arrNil k w hw =>
    intro n depth rest hd _ hn
    obtain ⟨m, rfl⟩ : ∃ m, n = m + 1 := ⟨n - 1, by omega⟩
    have hform : ('[' :: (w ++ [']'])) ++ rest = '[' :: (w ++ ']' :: rest) := by simp
    rw [hform]
    exact value_arrNil (by omega) (skipSpace_Blank hw (NoBlankHead_cons (by decide) _))
  | arr k w es t hw ht ih =>
    intro n depth rest hd _ hn
    obtain ⟨m, rfl⟩ : ∃ m, n = m + 1 := ⟨n - 1, by omega⟩
    have hhead := ht.first
    obtain ⟨c1, t1, rfl, hs, hc, _⟩ := hhead
    have hform : ('[' :: (w ++ c1 :: t1)) ++ rest = '[' :: (w ++ c1 :: (t1 ++ rest)) := by simp
    rw [hform, value_arr (by omega) (skipSpace_Blank hw (NoBlankHead_cons hs _)) hc]
    have hlen : 2 * ((c1 :: t1) ++ rest).length + 1 < m := by
      simp only [List.length_cons, List.length_append] at hn ⊢
      omega
    have := ih m (depth + 1) rest (by omega) hlen
    rw [List.cons_append] at this
    rw [this]
    rfl
  | objNil k w hw =>
    intro n depth rest hd _ hn
    obtain ⟨m, rfl⟩ : ∃ m, n = m + 1 := ⟨n - 1, by omega⟩
    have hform : (Char.ofNat 123 :: (w ++ [Char.ofNat 125])) ++ rest
        = Char.ofNat 123 :: (w ++ Char.ofNat 125 :: rest) := by simp
    rw [hform]
    exact value_objNil (by omega) (skipSpace_Blank hw (NoBlankHead_cons (by decide) _))
  | obj k w ms t hw ht ih =>
    intro n depth rest hd _ hn
    obtain ⟨m, rfl⟩ : ∃ m, n = m + 1 := ⟨n - 1, by omega⟩
    obtain ⟨t1, rfl⟩ := ht.first
    have hform : (Char.ofNat 123 :: (w ++ '"' :: t1)) ++ rest
        = Char.ofNat 123 :: (w ++ '"' :: (t1 ++ rest)) := by simp
    rw [hform, value_obj (by omega) (skipSpace_Blank hw (NoBlankHead_cons (by decide) _))
      (by decide)]
    have hlen : 2 * (('"' :: t1) ++ rest).length + 1 < m := by
      simp only [List.length_cons, List.length_append] at hn ⊢
      omega
    have := ih m (depth + 1) rest (by omega) hlen
    rw [List.cons_append] at this
    rw [this]
    rfl
  | elemsLast k v t w ht hw ih =>
    intro n depth rest hd hn
    obtain ⟨m, rfl⟩ : ∃ m, n = m + 1 := ⟨n - 1, by omega⟩
    have hform : (t ++ (w ++ [']'])) ++ rest = t ++ (w ++ ']' :: rest) := by simp
    rw [hform]
    have hv := ih m depth (w ++ ']' :: rest) hd
      (fun _ => NumberEnds_Blank hw _ (by decide) (by decide) (by decide) (by decide))
      (by rw [hform] at hn; omega)
    exact elements_last hv (skipSpace_Blank hw (NoBlankHead_cons (by decide) _))
  | elemsMore k v t w1 w2 vs ts ht hw1 hw2 hts ih1 ih2 =>
    intro n depth rest hd hn
    obtain ⟨m, rfl⟩ : ∃ m, n = m + 1 := ⟨n - 1, by omega⟩
    have hform : (t ++ (w1 ++ ',' :: (w2 ++ ts))) ++ rest
        = t ++ (w1 ++ ',' :: (w2 ++ (ts ++ rest))) := by simp
    rw [hform] at hn ⊢
    have hv := ih1 m depth (w1 ++ ',' :: (w2 ++ (ts ++ rest))) hd
      (fun _ => NumberEnds_Blank hw1 _ (by decide) (by decide) (by decide) (by decide))
      (by omega)
    rw [elements_more hv (skipSpace_Blank hw1 (NoBlankHead_cons (by decide) _)),
      skipSpace_Blank hw2 (NoBlankHead_ValueHead hts.first rest)]
    have hlen : 2 * (ts ++ rest).length + 1 < m := by
      simp only [List.length_cons, List.length_append] at hn ⊢
      omega
    rw [ih2 m depth rest hd hlen]
    rfl
  | membersLast k key kt w1 w2 v t w3 hs hw1 hw2 ht hw3 ih =>
    intro n depth rest hd hn
    obtain ⟨m, rfl⟩ : ∃ m, n = m + 1 := ⟨n - 1, by omega⟩
    have hform : ('"' :: (kt ++ '"' :: (w1 ++ ':' :: (w2 ++ (t ++ (w3 ++ [Char.ofNat 125]))))))
          ++ rest
        = '"' :: (kt ++ '"' :: (w1 ++ ':' :: (w2 ++ (t ++ (w3 ++ Char.ofNat 125 :: rest))))) := by
      simp
    rw [hform] at hn ⊢
    have hsk2 := skipSpace_Blank hw2 (NoBlankHead_ValueHead ht.first (w3 ++ Char.ofNat 125 :: rest))
    have hv := ih m depth (w3 ++ Char.ofNat 125 :: rest) hd
      (fun _ => NumberEnds_Blank hw3 _ (by decide) (by decide) (by decide) (by decide))
      (by simp only [List.length_cons, List.length_append] at hn ⊢; omega)
    rw [← hsk2] at hv
    have hk := scanString_StrText hs []
      (w1 ++ ':' :: (w2 ++ (t ++ (w3 ++ Char.ofNat 125 :: rest))))
    exact members_end hk (skipSpace_Blank hw1 (NoBlankHead_cons (by decide) _)) hv
      (skipSpace_Blank hw3 (NoBlankHead_cons (by decide) _))
  | membersMore k key kt w1 w2 v t w3 w4 ms ts hs hw1 hw2 ht hw3 hw4 hts ih1 ih2 =>
    intro n depth rest hd hn
    obtain ⟨m, rfl⟩ : ∃ m, n = m + 1 := ⟨n - 1, by omega⟩
    have hform : ('"' :: (kt ++ '"' :: (w1 ++ ':' :: (w2 ++ (t ++ (w3 ++ ',' :: (w4 ++ ts)))))))
          ++ rest
        = '"' :: (kt ++ '"' :: (w1 ++ ':' :: (w2 ++ (t ++ (w3 ++ ',' :: (w4 ++ (ts ++ rest))))))) := by
      simp
    rw [hform] at hn ⊢
    have hsk2 := skipSpace_Blank hw2
      (NoBlankHead_ValueHead ht.first (w3 ++ ',' :: (w4 ++ (ts ++ rest))))
    have hv := ih1 m depth (w3 ++ ',' :: (w4 ++ (ts ++ rest))) hd
      (fun _ => NumberEnds_Blank hw3 _ (by decide) (by decide) (by decide) (by decide))
      (by simp only [List.length_cons, List.length_append] at hn ⊢; omega)
    rw [← hsk2] at hv
    have hk := scanString_StrText hs []
      (w1 ++ ':' :: (w2 ++ (t ++ (w3 ++ ',' :: (w4 ++ (ts ++ rest))))))
    obtain ⟨t1, hts1⟩ := hts.first
    rw [members_next hk (skipSpace_Blank hw1 (NoBlankHead_cons (by decide) _)) hv
      (skipSpace_Blank hw3 (NoBlankHead_cons (by decide) _)),
      skipSpace_Blank hw4 (by rw [hts1]; exact NoBlankHead_cons (by decide) _)]
    have hlen : 2 * (ts ++ rest).length + 1 < m := by
      simp only [List.length_cons, List.length_append] at hn ⊢
      omega
    rw [ih2 m depth rest hd hlen]
    rfl

theorem Scan.map_ok {α β : Type} {f : α → β} {s : Scan α} {b : β} {rest : List Char}
    (h : s.map f = .ok b rest) : ∃ a, s = .ok a rest ∧ b = f a := by
  cases s with
  | ok a r =>
    simp only [Scan.map, Scan.ok.injEq] at h
    exact ⟨a, by rw [h.2], h.1.symm⟩
  | error e => cases h
  | exhausted => cases h

/-- Soundness of the scanner: what it reads is a JSON text of what it returns,
nested no deeper than the limit allows. -/
theorem sound (n : Nat) : ∀ (depth : Nat) (cs : List Char),
    (∀ j rest, value n depth cs = .ok j rest →
        ∃ t, Text (maxNestingDepth - depth) (.val j) t ∧ cs = t ++ rest)
    ∧ (∀ es rest, elements n depth cs = .ok es rest →
        ∃ t, Text (maxNestingDepth - depth) (.elems es) t ∧ cs = t ++ rest)
    ∧ (∀ ms rest, members n depth cs = .ok ms rest →
        ∃ t, Text (maxNestingDepth - depth) (.members ms) t ∧ cs = t ++ rest) := by
  induction n with
  | zero =>
    intro depth cs
    refine ⟨?_, ?_, ?_⟩ <;> intro _ _ h <;> simp [value, elements, members] at h
  | succ n ih =>
    intro depth cs
    refine ⟨?_, ?_, ?_⟩
    · intro j rest h
      rcases cs with _ | ⟨c, cs⟩
      · simp [value] at h
      · simp only [value] at h
        split_ifs at h with h1 h2 h3 h4 h5 h6 h7 h8 h9 h10 h11
        · -- an object
          subst h1
          obtain ⟨w, hw, hcs, _⟩ := skipSpace_sound cs
          have hd : maxNestingDepth - (depth + 1) + 1 ≤ maxNestingDepth - depth := by omega
          split at h
          · cases h
          · rename_i c1 cs1 heq
            rw [heq] at hcs
            split_ifs at h with hc
            · simp only [Scan.ok.injEq] at h
              obtain ⟨rfl, rfl⟩ := h
              subst hc
              exact ⟨_, (Text.objNil _ w hw).deeper _ hd, by rw [hcs]; simp⟩
            · obtain ⟨ms, hm, rfl⟩ := Scan.map_ok h
              obtain ⟨t, ht, ht2⟩ := (ih (depth + 1) (c1 :: cs1)).2.2 ms rest hm
              exact ⟨_, (Text.obj _ w ms t hw ht).deeper _ hd, by rw [hcs, ht2]; simp⟩
        · -- an array
          subst h3
          obtain ⟨w, hw, hcs, _⟩ := skipSpace_sound cs
          have hd : maxNestingDepth - (depth + 1) + 1 ≤ maxNestingDepth - depth := by omega
          split at h
          · cases h
          · rename_i c1 cs1 heq
            rw [heq] at hcs
            split_ifs at h with hc
            · simp only [Scan.ok.injEq] at h
              obtain ⟨rfl, rfl⟩ := h
              subst hc
              exact ⟨_, (Text.arrNil _ w hw).deeper _ hd, by rw [hcs]; simp⟩
            · obtain ⟨es, hm, rfl⟩ := Scan.map_ok h
              obtain ⟨t, ht, ht2⟩ := (ih (depth + 1) (c1 :: cs1)).2.1 es rest hm
              exact ⟨_, (Text.arr _ w es t hw ht).deeper _ hd, by rw [hcs, ht2]; simp⟩
        · -- a string
          subst h5
          obtain ⟨s, hs, rfl⟩ := Scan.map_ok h
          obtain ⟨dec, ts, hst, hcs, hs2⟩ :=
            StrText_of_scanString cs.length cs (Nat.le_refl _) [] s rest hs
          have hs3 : s = String.mk dec := by simpa using hs2
          subst hs3
          exact ⟨_, Text.str _ dec ts hst, by rw [hcs]; simp⟩
        · -- a negative number
          subst h6
          obtain ⟨lit, hs, rfl⟩ := Scan.map_ok h
          obtain ⟨i, f, e, hi, hf, he, hcs, hlit⟩ := sound_neg cs _ lit rest hs
          have hl : lit = String.mk ('-' :: (i ++ (f ++ e))) := by simpa using hlit
          subst hl
          exact ⟨_, Text.num _ ('-' :: (i ++ (f ++ e)))
            ⟨['-'], i, f, e, Or.inr rfl, hi, hf, he, rfl⟩, by rw [hcs]; simp⟩
        · -- a number that starts with 0
          subst h7
          obtain ⟨lit, hs, rfl⟩ := Scan.map_ok h
          obtain ⟨f, e, hf, he, hcs, hlit⟩ := sound_zero cs _ lit rest hs
          have hl : lit = String.mk ('0' :: (f ++ e)) := by simpa using hlit
          subst hl
          exact ⟨_, Text.num _ ('0' :: (f ++ e))
            ⟨[], ['0'], f, e, Or.inl rfl, Or.inl rfl, hf, he, rfl⟩, by rw [hcs]; simp⟩
        · -- a number that starts with another digit
          obtain ⟨lit, hs, rfl⟩ := Scan.map_ok h
          obtain ⟨i, f, e, hi, hf, he, hcs, hlit⟩ := sound_first c h8 h7 cs [] lit rest hs
          have hl : lit = String.mk (i ++ (f ++ e)) := by simpa using hlit
          subst hl
          exact ⟨_, Text.num _ (i ++ (f ++ e))
            ⟨[], i, f, e, Or.inl rfl, hi, hf, he, rfl⟩, by rw [hcs]; simp⟩
        · subst h9
          obtain ⟨_, hs, rfl⟩ := Scan.map_ok h
          exact ⟨_, Text.litTrue _, by rw [scanWord_sound _ _ _ hs]; rfl⟩
        · subst h10
          obtain ⟨_, hs, rfl⟩ := Scan.map_ok h
          exact ⟨_, Text.litFalse _, by rw [scanWord_sound _ _ _ hs]; rfl⟩
        · subst h11
          obtain ⟨_, hs, rfl⟩ := Scan.map_ok h
          exact ⟨_, Text.litNull _, by rw [scanWord_sound _ _ _ hs]; rfl⟩
    · intro es rest h
      simp only [elements] at h
      split at h
      · cases h
      · cases h
      · rename_i v rest0 heq
        obtain ⟨t, ht, hcs⟩ := (ih depth cs).1 v rest0 heq
        obtain ⟨w, hw, hr0, _⟩ := skipSpace_sound rest0
        split at h
        · cases h
        · rename_i c cs1 heq1
          rw [heq1] at hr0
          split_ifs at h with hc1 hc2
          · simp only [Scan.ok.injEq] at h
            obtain ⟨rfl, rfl⟩ := h
            subst hc1
            exact ⟨_, Text.elemsLast _ v t w ht hw, by rw [hcs, hr0]; simp⟩
          · subst hc2
            obtain ⟨vs, hm, rfl⟩ := Scan.map_ok h
            obtain ⟨ts, hts, hcs2⟩ := (ih depth (skipSpace cs1)).2.1 vs rest hm
            obtain ⟨w2, hw2, hr1, _⟩ := skipSpace_sound cs1
            refine ⟨_, Text.elemsMore _ v t w w2 vs ts ht hw hw2 hts, ?_⟩
            rw [hcs, hr0, hr1, hcs2]
            simp
    · intro ms rest h
      rcases cs with _ | ⟨c, cs⟩
      · simp [members] at h
      · simp only [members] at h
        split_ifs at h with hq
        subst hq
        split at h
        · cases h
        · cases h
        · rename_i key rest0 heq
          obtain ⟨dec, kt, hst, hcs, hkey⟩ :=
            StrText_of_scanString cs.length cs (Nat.le_refl _) [] key rest0 heq
          obtain ⟨w1, hw1, hr0, _⟩ := skipSpace_sound rest0
          split at h
          · cases h
          · rename_i c1 cs1 heq1
            rw [heq1] at hr0
            split_ifs at h with hcolon
            subst hcolon
            obtain ⟨w2, hw2, hr1, _⟩ := skipSpace_sound cs1
            split at h
            · cases h
            · cases h
            · rename_i v rest1 heq2
              obtain ⟨t, ht, hcs1⟩ := (ih depth (skipSpace cs1)).1 v rest1 heq2
              obtain ⟨w3, hw3, hr2, _⟩ := skipSpace_sound rest1
              split at h
              · cases h
              · rename_i c2 cs2 heq3
                rw [heq3] at hr2
                have hkey2 : key = String.mk dec := by simpa using hkey
                subst hkey2
                split_ifs at h with hb hc
                · simp only [Scan.ok.injEq] at h
                  obtain ⟨rfl, rfl⟩ := h
                  subst hb
                  refine ⟨_, Text.membersLast _ dec kt w1 w2 v t w3 hst hw1 hw2 ht hw3, ?_⟩
                  rw [hcs, hr0, hr1, hcs1, hr2]
                  simp
                · subst hc
                  obtain ⟨ms1, hm, rfl⟩ := Scan.map_ok h
                  obtain ⟨ts, hts, hcs2⟩ := (ih depth (skipSpace cs2)).2.2 ms1 rest hm
                  obtain ⟨w4, hw4, hr3, _⟩ := skipSpace_sound cs2
                  refine ⟨_, Text.membersMore _ dec kt w1 w2 v t w3 w4
                    ms1 ts hst hw1 hw2 ht hw3 hw4 hts, ?_⟩
                  rw [hcs, hr0, hr1, hcs1, hr2, hr3, hcs2]
                  simp

/-! ## The decoder and the grammar: the first value of a body -/

/-- The decoder reads a body that starts with a JSON text as the value the
text writes, whatever follows the text. -/
theorem readValue_complete {body : String} {k : Nat} {j : JSON} {w t tail : List Char}
    (hk : k ≤ maxNestingDepth) (hw : Blank w) (hb : body.data = w ++ (t ++ tail))
    (ht : Text k (.val j) t) (hn : (∃ lit, j = .num lit) → NumberEnds tail) :
    readValue body = .ok j := by
  have hhead : ValueHead t := ht.first
  have hskip : skipSpace body.data = t ++ tail := by
    rw [hb]
    exact skipSpace_Blank hw (NoBlankHead_ValueHead hhead tail)
  have hlen : 2 * (t ++ tail).length < 2 * body.data.length + 1 := by
    rw [hb]
    simp only [List.length_append]
    omega
  have hval : firstValue body = .ok j tail := by
    unfold firstValue
    rw [hskip]
    exact ht.complete _ 0 tail (by omega) hn hlen
  obtain ⟨c, t1, rfl, _⟩ := hhead
  unfold readValue
  rw [hskip, hval]
  rfl

/-- What the decoder reads is written at the start of the body. -/
theorem readValue_sound {body : String} {j : JSON} (h : readValue body = .ok j) :
    ∃ w t tail, Blank w ∧ body.data = w ++ (t ++ tail)
      ∧ Text maxNestingDepth (.val j) t := by
  unfold readValue at h
  obtain ⟨w, hw, hcs, _⟩ := skipSpace_sound body.data
  cases hsp : skipSpace body.data with
  | nil => rw [hsp] at h; cases h
  | cons c cs =>
    rw [hsp] at h
    simp only at h
    cases hf : firstValue body with
    | ok v rest =>
      rw [hf] at h
      obtain rfl : v = j := by simpa using h
      unfold firstValue at hf
      obtain ⟨t, ht, hcs2⟩ := (sound _ 0 _).1 v rest hf
      exact ⟨w, t, rest, hw, by rw [← hcs2]; exact hcs, ht⟩
    | error e => rw [hf] at h; cases h
    | exhausted => rw [hf] at h; cases h

/-- A text of scalars only is nested no deeper than its object or array. -/
theorem Text_flat {k : Nat} {node : Node} {t : List Char} (h : Text k node t) :
    match node with
    | .val j => j.isScalar = true → Text 0 (.val j) t
    | .elems _ => True
    | .members ms => (∀ m ∈ ms, m.2.isScalar = true) → Text 0 (.members ms) t := by
  induction h with
  | litNull k => intro _; exact .litNull 0
  | litTrue k => intro _; exact .litTrue 0
  | litFalse k => intro _; exact .litFalse 0
  | num k t hn => intro _; exact .num 0 t hn
  | str k s t hs => intro _; exact .str 0 s t hs
  | arrNil k w hw => intro h; cases h
  | arr k w es t hw _ ih => intro h; cases h
  | objNil k w hw => intro h; cases h
  | obj k w ms t hw _ ih => intro h; cases h
  | elemsLast k v t w _ hw ih => trivial
  | elemsMore k v t w1 w2 vs ts _ h1 h2 _ ih1 ih2 => trivial
  | membersLast k key kt w1 w2 v t w3 hs h1 h2 _ h3 ih =>
    intro hm
    exact .membersLast 0 key kt w1 w2 v t w3 hs h1 h2
      (ih (hm _ (List.mem_singleton.mpr rfl))) h3
  | membersMore k key kt w1 w2 v t w3 w4 ms ts hs h1 h2 _ h3 h4 _ ih1 ih2 =>
    intro hm
    exact .membersMore 0 key kt w1 w2 v t w3 w4 ms ts hs h1 h2
      (ih1 (hm _ (List.mem_cons_self _ _))) h3 h4
      (ih2 (fun m hmem => hm m (List.mem_cons_of_mem _ hmem)))

/-- An object whose members are scalars is nested to depth 1. -/
theorem Text_record {k : Nat} {ms : List (String × JSON)} {t : List Char}
    (h : Text k (.val (.obj ms)) t) (hms : ∀ m ∈ ms, m.2.isScalar = true) :
    Text 1 (.val (.obj ms)) t := by
  cases h with
  | objNil k w hw => exact .objNil 0 w hw
  | obj k w ms t hw hm => exact .obj 0 w ms t hw (Text_flat hm hms)

/-- The number literals of a JSON text are numbers of the grammar. -/
theorem Text_numbers {k : Nat} {node : Node} {t : List Char} (h : Text k node t) :
    match node with
    | .val j => ∀ lit, j = .num lit → IsNumber lit.data
    | .elems _ => True
    | .members ms => ∀ m ∈ ms, ∀ lit, m.2 = .num lit → IsNumber lit.data := by
  induction h with
  | litNull k => intro _ h; cases h
  | litTrue k => intro _ h; cases h
  | litFalse k => intro _ h; cases h
  | num k t hn => intro lit h; cases h; exact hn
  | str k s t hs => intro _ h; cases h
  | arrNil k w hw => intro _ h; cases h
  | arr k w es t hw _ ih => intro _ h; cases h
  | objNil k w hw => intro _ h; cases h
  | obj k w ms t hw _ ih => intro _ h; cases h
  | elemsLast k v t w _ hw ih => trivial
  | elemsMore k v t w1 w2 vs ts _ h1 h2 _ ih1 ih2 => trivial
  | membersLast k key kt w1 w2 v t w3 hs h1 h2 _ h3 ih =>
    intro m hm lit hlit
    rw [List.mem_singleton.mp hm] at hlit
    exact ih lit hlit
  | membersMore k key kt w1 w2 v t w3 w4 ms ts hs h1 h2 _ h3 h4 _ ih1 ih2 =>
    intro m hm lit hlit
    rcases List.mem_cons.mp hm with rfl | hm
    · exact ih1 lit hlit
    · exact ih2 m hm lit hlit

/-- The members of an object text. -/
theorem Text_obj {k : Nat} {ms : List (String × JSON)} {t : List Char}
    (h : Text k (.val (.obj ms)) t) :
    ∀ m ∈ ms, ∀ lit, m.2 = .num lit → IsNumber lit.data := by
  cases h with
  | objNil k w hw => intro m hm; cases hm
  | obj k w ms t hw hm => exact Text_numbers hm

/-! ## The decoder and the shape of the records -/

theorem toNat_eq_iff (c : Char) (n : Nat) (h : n < 0xd800) :
    c = Char.ofNat n ↔ c.toNat = n := by
  constructor
  · intro hc
    rw [hc]
    exact toNat_ofNat_valid n (Or.inl h)
  · intro hc
    rw [← hc]
    exact (Char.ofNat_toNat c).symm

theorem foldRune_eq (c : Char) : foldRune c = upperChar c := by
  have e1 := toNat_eq_iff c 0x17F (by decide)
  have e2 := toNat_eq_iff c 0x212A (by decide)
  unfold foldRune upperChar Char.toUpper
  by_cases h1 : 97 ≤ c.toNat ∧ c.toNat ≤ 122
  · have h2 : c.toNat ≠ 0x17F := by omega
    have h3 : c.toNat ≠ 0x212A := by omega
    simp [e1, e2, h1, h2, h3]
  · by_cases h2 : c.toNat = 0x17F
    · simp [e1, h2]
    · by_cases h3 : c.toNat = 0x212A
      · simp [e1, e2, h3]
      · have h4 : (decide (97 ≤ c.toNat) && decide (c.toNat ≤ 122)) = false := by
          simpa using h1
        simp [e1, e2, h2, h3, h4, h1]

theorem foldName_eq_iff (a b : String) : foldName a = foldName b ↔ sameName a b = true := by
  have h : foldRune = upperChar := funext foldRune_eq
  simp [foldName, sameName, h]

theorem sameName_self (a : String) : sameName a a = true := by simp [sameName]

/-- Two names that the same key names are the same, letter case apart. -/
theorem sameName_of_key {a b key : String} (ha : sameName a key = true)
    (hb : sameName b key = true) : sameName a b = true := by
  simp only [sameName, beq_iff_eq] at *
  rw [ha, hb]

/-- The field a key selects, among fields whose names differ by more than
letter case. -/
theorem findField_some (names : List String) (key : String) (i : Nat) (hi : i < names.length)
    (hsel : sameName names[i] key = true) (hnd : names.Nodup)
    (hu : ∀ a ∈ names, ∀ b ∈ names, sameName a b = true → a = b) :
    findField names key = some i := by
  have huniq : ∀ j (hj : j < names.length), sameName names[j] key = true → j = i := by
    intro j hj hs
    have h := hu _ (List.getElem_mem hj) _ (List.getElem_mem hi) (sameName_of_key hs hsel)
    exact (hnd.getElem_inj_iff).mp h
  unfold findField
  cases hx : names.indexOf? key with
  | some j =>
    rw [List.indexOf?, List.findIdx?_eq_some_iff_getElem] at hx
    obtain ⟨hj, hp, _⟩ := hx
    have hkey : names[j] = key := by simpa using hp
    have hs : sameName names[j] key = true := by rw [hkey]; exact sameName_self key
    simp only [huniq j hj hs]
  | none =>
    have hidx : names.findIdx (fun name => decide (foldName name = foldName key)) = i := by
      rw [List.findIdx_eq hi]
      refine ⟨by simpa [foldName_eq_iff] using hsel, fun j hji => ?_⟩
      have hj : j < names.length := by omega
      cases hc : sameName names[j] key with
      | false => simpa [foldName_eq_iff] using hc
      | true =>
        have := huniq j hj hc
        omega
    simp only [hidx, hi, if_true]

/-- A key that names no field selects none. -/
theorem findField_none (names : List String) (key : String)
    (h : ∀ name ∈ names, sameName name key = false) : findField names key = none := by
  unfold findField
  have h1 : names.indexOf? key = none := by
    rw [List.indexOf?, List.findIdx?_eq_none_iff]
    intro x hx
    cases hc : x == key with
    | false => rfl
    | true =>
      have hxk : x = key := by simpa using hc
      have := h x hx
      rw [hxk, sameName_self] at this
      cases this
  have h2 : names.findIdx (fun name => decide (foldName name = foldName key)) = names.length :=
    List.findIdx_eq_length.mpr (fun x hx => by simpa [foldName_eq_iff] using h x hx)
  simp only [h1, h2, Nat.lt_irrefl, if_false]

/-- The field of `IAPResponse` a key selects: the one it names, letter case
apart. -/
theorem IAPResponse.findField_eq (key : String) :
    findField IAPResponse.names key =
      if sameName "receiptId" key = true then some 0
      else if sameName "productType" key = true then some 1
      else if sameName "productId" key = true then some 2
      else if sameName "purchaseDate" key = true then some 3
      else if sameName "cancelDate" key = true then some 4
      else if sameName "testTransaction" key = true then some 5
      else none := by
  have hnd : IAPResponse.names.Nodup := by decide
  have hu : ∀ a ∈ IAPResponse.names, ∀ b ∈ IAPResponse.names, sameName a b = true → a = b := by
    decide
  by_cases h0 : sameName "receiptId" key = true
  · rw [if_pos h0]
    exact findField_some _ key 0 (by decide) h0 hnd hu
  by_cases h1 : sameName "productType" key = true
  · rw [if_neg h0, if_pos h1]
    exact findField_some _ key 1 (by decide) h1 hnd hu
  by_cases h2 : sameName "productId" key = true
  · rw [if_neg h0, if_neg h1, if_pos h2]
    exact findField_some _ key 2 (by decide) h2 hnd hu
  by_cases h3 : sameName "purchaseDate" key = true
  · rw [if_neg h0, if_neg h1, if_neg h2, if_pos h3]
    exact findField_some _ key 3 (by decide) h3 hnd hu
  by_cases h4 : sameName "cancelDate" key = true
  · rw [if_neg h0, if_neg h1, if_neg h2, if_neg h3, if_pos h4]
    exact findField_some _ key 4 (by decide) h4 hnd hu
  by_cases h5 : sameName "testTransaction" key = true
  · rw [if_neg h0, if_neg h1, if_neg h2, if_neg h3, if_neg h4, if_pos h5]
    exact findField_some _ key 5 (by decide) h5 hnd hu
  rw [if_neg h0, if_neg h1, if_neg h2, if_neg h3, if_neg h4, if_neg h5]
  apply findField_none
  intro name hname
  simp only [IAPResponse.names, List.mem_cons, List.mem_singleton, List.not_mem_nil,
    or_false] at hname
  simp only [Bool.not_eq_true] at h0 h1 h2 h3 h4 h5
  rcases hname with rfl | rfl | rfl | rfl | rfl | rfl <;> assumption

/-! ## The decoder and the types of the fields -/

theorem parseDigits_Digits : ∀ (cs : List Char) (acc m : Nat),
    parseDigits acc cs = some m → Digits cs := by
  intro cs
  induction cs with
  | nil => intro _ _ _; exact Digits.nil
  | cons c cs ih =>
    intro acc m h
    simp only [parseDigits] at h
    by_cases hc : isDigit c = true
    · rw [if_pos hc] at h
      exact Digits.cons hc (ih _ _ h)
    · rw [if_neg hc] at h
      cases h

theorem ofDigits_foldl (L : List Nat) :
    L.foldl (fun a d => a * 10 + d) 0 = Nat.ofDigits 10 L.reverse := by
  rw [Nat.ofDigits_eq_foldr, List.foldr_reverse]
  congr 1
  funext x y
  simp [Nat.mul_comm, Nat.add_comm]

theorem digit_toNat (c : Char) (hc : isDigit c = true) :
    Char.ofNat (48 + (c.toNat - 48)) = c := by
  have h := (isDigit_iff c).mp hc
  have : 48 + (c.toNat - 48) = c.toNat := by omega
  rw [this]
  exact Char.ofNat_toNat c

theorem map_digit_toNat : ∀ (cs : List Char), Digits cs →
    (cs.map (fun c => c.toNat - 48)).map (fun d => Char.ofNat (48 + d)) = cs := by
  intro cs
  induction cs with
  | nil => intro _; rfl
  | cons c cs ih =>
    intro h
    simp only [List.map_cons, digit_toNat c h.head, ih h.tail]

theorem parseDigits_ofDigits (cs : List Char) (hD : Digits cs) (L : List Nat)
    (hL : L = cs.map (fun c => c.toNat - 48)) :
    (∀ x ∈ L, x < 10) ∧ parseDigits 0 cs = some (Nat.ofDigits 10 L.reverse) := by
  have h10 : ∀ x ∈ L, x < 10 := by
    intro x hx
    rw [hL] at hx
    obtain ⟨c, hc, rfl⟩ := List.mem_map.mp hx
    have := hD c hc
    omega
  refine ⟨h10, ?_⟩
  have hp := parseDigits_digits L h10 0
  rw [ofDigits_foldl] at hp
  rw [← hp, hL, map_digit_toNat _ hD]

/-- An integer part is the decimal text of its value. -/
theorem natLit_of_parseDigits {ip : List Char} (hip : IntPart ip) {m : Nat}
    (h : parseDigits 0 ip = some m) : ip = natLit m := by
  rcases hip with rfl | ⟨d, ds, rfl, hd1, hd2, hds⟩
  · have : m = 0 := by
      have h2 : parseDigits 0 ['0'] = some 0 := by decide
      rw [h2] at h
      exact (Option.some.inj h).symm
    subst this
    decide
  · have hdig : isDigit d = true := (isDigit_iff d).mpr ⟨by omega, hd2⟩
    have hD : Digits (d :: ds) := Digits.cons hdig hds
    obtain ⟨L, hL⟩ : ∃ L, L = (d :: ds).map (fun c => c.toNat - 48) := ⟨_, rfl⟩
    obtain ⟨h10, hp⟩ := parseDigits_ofDigits (d :: ds) hD L hL
    rw [h] at hp
    have hm : m = Nat.ofDigits 10 L.reverse := Option.some.inj hp
    have hLne : L ≠ [] := by rw [hL]; simp
    have hhead : L.head hLne ≠ 0 := by
      have : L.head hLne = d.toNat - 48 := by
        subst hL
        rfl
      rw [this]
      omega
    have hdigits : Nat.digits 10 m = L.reverse := by
      rw [hm]
      apply Nat.digits_ofDigits 10 (by decide)
      · intro l hl
        exact h10 l (List.mem_reverse.mp hl)
      · intro hne
        rw [List.getLast_reverse]
        exact hhead
    have hm0 : m ≠ 0 := by
      intro h0
      rw [h0, Nat.digits_zero] at hdigits
      exact hLne (List.reverse_eq_nil_iff.mp hdigits.symm)
    unfold natLit
    rw [if_neg hm0, hdigits, List.reverse_reverse, hL, map_digit_toNat _ hD]

theorem Digits_append {a b : List Char} (h : Digits (a ++ b)) : Digits a ∧ Digits b :=
  ⟨fun c hc => h c (List.mem_append_left _ hc), fun c hc => h c (List.mem_append_right _ hc)⟩

/-- A number of the grammar that is all digits has no fraction and no exponent. -/
theorem IntPart_of_Digits {ip f e : List Char} (hf : FracPart f) (he : ExpPart e)
    (h : Digits (ip ++ (f ++ e))) : f = [] ∧ e = [] := by
  have h2 := (Digits_append h).2
  have hf2 := (Digits_append h2).1
  have he2 := (Digits_append h2).2
  constructor
  · rcases hf with rfl | ⟨d, ds, _, rfl⟩
    · rfl
    · exact absurd (hf2 '.' (List.mem_cons_self _ _)) (by decide)
  · rcases he with rfl | ⟨x, sg, d, ds, hx, _, _, rfl⟩
    · rfl
    · have := he2 x (List.mem_cons_self _ _)
      rcases hx with rfl | rfl
      · exact absurd this (by decide)
      · exact absurd this (by decide)

theorem ParseInt_of_IntLit {i : Int} {lit : String} (h : IntLit i lit)
    (hlo : -2 ^ 63 ≤ i) (hhi : i < 2 ^ 63) : ParseInt lit = some i := by
  rcases h with h | ⟨rfl, h⟩
  · have : lit = String.mk (intLit i) := by
      cases lit
      simp only at h
      rw [h]
    rw [this]
    exact ParseInt_intLit i hlo hhi
  · unfold ParseInt
    rw [h]
    decide

/-- The integers `strconv.ParseInt` reads from a JSON number are those the
number writes in plain decimal. -/
theorem IntLit_of_ParseInt {i : Int} {lit : String} (hnum : IsNumber lit.data)
    (h : ParseInt lit = some i) : IntLit i lit ∧ -2 ^ 63 ≤ i ∧ i < 2 ^ 63 := by
  obtain ⟨sg, ip, f, e, hsg, hip, hf, he, hdata⟩ := hnum
  have hhead : ∃ d ds, ip = d :: ds ∧ isDigit d = true := by
    rcases hip with rfl | ⟨d, ds, rfl, hd1, hd2, _⟩
    · exact ⟨'0', [], rfl, by decide⟩
    · exact ⟨d, ds, rfl, (isDigit_iff d).mpr ⟨by omega, hd2⟩⟩
  obtain ⟨d, ds, hipd, hd⟩ := hhead
  unfold ParseInt at h
  rcases hsg with rfl | rfl
  · have hdata2 : lit.data = d :: (ds ++ (f ++ e)) := by rw [hdata, hipd]; rfl
    have hm : d ≠ '-' := isDigit_ne hd (by decide)
    have hp : d ≠ '+' := isDigit_ne hd (by decide)
    rw [hdata2] at h
    split at h
    · next heq => cases heq
    · next _ heq => exact absurd (List.cons.inj heq).1 hm
    · next _ heq => exact absurd (List.cons.inj heq).1 hp
    · cases hpd : parseDigits 0 (d :: (ds ++ (f ++ e))) with
      | none => rw [hpd] at h; cases h
      | some m =>
        rw [hpd] at h
        simp only at h
        by_cases hm2 : m < 2 ^ 63
        · rw [if_pos hm2] at h
          have hi : i = (m : Int) := (Option.some.inj h).symm
          have hD : Digits (ip ++ (f ++ e)) := by
            rw [hipd]
            exact parseDigits_Digits _ _ _ hpd
          obtain ⟨rfl, rfl⟩ := IntPart_of_Digits hf he hD
          have hip2 : parseDigits 0 ip = some m := by
            rw [hipd]
            simpa using hpd
          have hnat := natLit_of_parseDigits hip hip2
          refine ⟨Or.inl ?_, ?_, ?_⟩
          · rw [hdata, hi]
            simpa [intLit] using hnat
          · rw [hi]
            have : (0 : Int) ≤ (m : Int) := Int.ofNat_nonneg m
            omega
          · rw [hi]
            exact_mod_cast hm2
        · rw [if_neg hm2] at h
          cases h
  · have hdata2 : lit.data = '-' :: d :: (ds ++ (f ++ e)) := by rw [hdata, hipd]; rfl
    rw [hdata2] at h
    simp only [List.isEmpty_cons] at h
    cases hpd : parseDigits 0 (d :: (ds ++ (f ++ e))) with
    | none => rw [hpd] at h; simp at h
    | some m =>
      rw [hpd] at h
      simp only [Bool.false_eq_true, if_false] at h
      by_cases hm2 : m ≤ 2 ^ 63
      · rw [if_pos hm2] at h
        have hi : i = -(m : Int) := (Option.some.inj h).symm
        have hD : Digits (ip ++ (f ++ e)) := by
          rw [hipd]
          exact parseDigits_Digits _ _ _ hpd
        obtain ⟨rfl, rfl⟩ := IntPart_of_Digits hf he hD
        have hip2 : parseDigits 0 ip = some m := by
          rw [hipd]
          simpa using hpd
        have hnat := natLit_of_parseDigits hip hip2
        have hdata3 : lit.data = '-' :: natLit m := by
          rw [hdata, ← hnat]
          simp
        refine ⟨?_, ?_, ?_⟩
        · rcases Nat.eq_zero_or_pos m with hm0 | hm0
          · right
            subst hm0
            exact ⟨by simpa using hi, by rw [hdata3]; decide⟩
          · left
            obtain ⟨n, rfl⟩ : ∃ n, m = n + 1 := ⟨m - 1, by omega⟩
            have hi2 : i = Int.negSucc n := by rw [hi, Int.negSucc_eq]; push_cast; ring
            rw [hdata3, hi2]
            rfl
        · rw [hi]
          have : ((m : Nat) : Int) ≤ 2 ^ 63 := by exact_mod_cast hm2
          omega
        · rw [hi]
          have : (0 : Int) ≤ (m : Int) := Int.ofNat_nonneg m
          omega
      · rw [if_neg hm2] at h
        cases h

/-! ## The decoder and the values of the fields -/

theorem storeString_error (cur : String) (j : JSON) :
    (storeString cur j).2 = none ↔ ¬ (j ≠ .null ∧ ∀ s, ¬ ReadsString j s) := by
  cases j <;> simp [storeString, ReadsString]

theorem storeBool_error (cur : Bool) (j : JSON) :
    (storeBool cur j).2 = none ↔ ¬ (j ≠ .null ∧ ∀ b, ¬ ReadsBool j b) := by
  cases j <;> simp [storeBool, ReadsBool]

theorem storeInt64_error (cur : Int) (j : JSON)
    (hnum : ∀ lit, j = .num lit → IsNumber lit.data) :
    (storeInt64 cur j).2 = none ↔ ¬ (j ≠ .null ∧ ∀ i, ¬ ReadsInt64 j i) := by
  cases j with
  | num lit =>
    cases hp : ParseInt lit with
    | none =>
      have hno : ∀ i, ¬ ReadsInt64 (.num lit) i := by
        rintro i ⟨lit1, h1, hl, hlo, hhi⟩
        cases h1
        rw [ParseInt_of_IntLit hl hlo hhi] at hp
        cases hp
      simp only [storeInt64, hp]
      constructor
      · intro h; cases h
      · intro h; exact absurd ⟨by simp, hno⟩ h
    | some n =>
      have hyes : ReadsInt64 (.num lit) n := ⟨lit, rfl, IntLit_of_ParseInt (hnum lit rfl) hp⟩
      simp only [storeInt64, hp, true_iff]
      rintro ⟨_, h⟩
      exact h n hyes
  | _ => simp [storeInt64, ReadsInt64]

/-- A key names one field of `IAPResponse` at most. -/
theorem IAPResponse.names_cases (key : String) :
    (sameName "receiptId" key = true
        ∧ sameName "productType" key = false
        ∧ sameName "productId" key = false
        ∧ sameName "purchaseDate" key = false
        ∧ sameName "cancelDate" key = false
        ∧ sameName "testTransaction" key = false)
      ∨ (sameName "receiptId" key = false
        ∧ sameName "productType" key = true
        ∧ sameName "productId" key = false
        ∧ sameName "purchaseDate" key = false
        ∧ sameName "cancelDate" key = false
        ∧ sameName "testTransaction" key = false)
      ∨ (sameName "receiptId" key = false
        ∧ sameName "productType" key = false
        ∧ sameName "productId" key = true
        ∧ sameName "purchaseDate" key = false
        ∧ sameName "cancelDate" key = false
        ∧ sameName "testTransaction" key = false)
      ∨ (sameName "receiptId" key = false
        ∧ sameName "productType" key = false
        ∧ sameName "productId" key = false
        ∧ sameName "purchaseDate" key = true
        ∧ sameName "cancelDate" key = false
        ∧ sameName "testTransaction" key = false)
      ∨ (sameName "receiptId" key = false
        ∧ sameName "productType" key = false
        ∧ sameName "productId" key = false
        ∧ sameName "purchaseDate" key = false
        ∧ sameName "cancelDate" key = true
        ∧ sameName "testTransaction" key = false)
      ∨ (sameName "receiptId" key = false
        ∧ sameName "productType" key = false
        ∧ sameName "productId" key = false
        ∧ sameName "purchaseDate" key = false
        ∧ sameName "cancelDate" key = false
        ∧ sameName "testTransaction" key = true)
      ∨ (sameName "receiptId" key = false
        ∧ sameName "productType" key = false
        ∧ sameName "productId" key = false
        ∧ sameName "purchaseDate" key = false
        ∧ sameName "cancelDate" key = false
        ∧ sameName "testTransaction" key = false) := by
  have ex : ∀ a b : String, sameName a b = false → sameName a key = true →
      sameName b key = false := by
    intro a b hab ha
    cases hb : sameName b key with
    | false => rfl
    | true =>
      rw [sameName_of_key ha hb] at hab
      cases hab
  by_cases h0 : sameName "receiptId" key = true
  · exact Or.inl ⟨h0,
      ex "receiptId" "productType" (by decide) h0,
      ex "receiptId" "productId" (by decide) h0,
      ex "receiptId" "purchaseDate" (by decide) h0,
      ex "receiptId" "cancelDate" (by decide) h0,
      ex "receiptId" "testTransaction" (by decide) h0⟩
  by_cases h1 : sameName "productType" key = true
  · exact Or.inr (Or.inl ⟨ex "productType" "receiptId" (by decide) h1,
      h1,
      ex "productType" "productId" (by decide) h1,
      ex "productType" "purchaseDate" (by decide) h1,
      ex "productType" "cancelDate" (by decide) h1,
      ex "productType" "testTransaction" (by decide) h1⟩)
  by_cases h2 : sameName "productId" key = true
  · exact Or.inr (Or.inr (Or.inl ⟨ex "productId" "receiptId" (by decide) h2,
      ex "productId" "productType" (by decide) h2,
      h2,
      ex "productId" "purchaseDate" (by decide) h2,
      ex "productId" "cancelDate" (by decide) h2,
      ex "productId" "testTransaction" (by decide) h2⟩))
  by_cases h3 : sameName "purchaseDate" key = true
  · exact Or.inr (Or.inr (Or.inr (Or.inl ⟨ex "purchaseDate" "receiptId" (by decide) h3,
      ex "purchaseDate" "productType" (by decide) h3,
      ex "purchaseDate" "productId" (by decide) h3,
      h3,
      ex "purchaseDate" "cancelDate" (by decide) h3,
      ex "purchaseDate" "testTransaction" (by decide) h3⟩)))
  by_cases h4 : sameName "cancelDate" key = true
  · exact Or.inr (Or.inr (Or.inr (Or.inr (Or.inl ⟨ex "cancelDate" "receiptId" (by decide) h4,
      ex "cancelDate" "productType" (by decide) h4,
      ex "cancelDate" "productId" (by decide) h4,
      ex "cancelDate" "purchaseDate" (by decide) h4,
      h4,
      ex "cancelDate" "testTransaction" (by decide) h4⟩))))
  by_cases h5 : sameName "testTransaction" key = true
  · exact Or.inr (Or.inr (Or.inr (Or.inr (Or.inr (Or.inl ⟨ex "testTransaction" "receiptId" (by decide) h5,
      ex "testTransaction" "productType" (by decide) h5,
      ex "testTransaction" "productId" (by decide) h5,
      ex "testTransaction" "purchaseDate" (by decide) h5,
      ex "testTransaction" "cancelDate" (by decide) h5,
      h5⟩)))))
  simp only [Bool.not_eq_true] at h0 h1 h2 h3 h4 h5
  exact Or.inr (Or.inr (Or.inr (Or.inr (Or.inr (Or.inr ⟨h0, h1, h2, h3, h4, h5⟩)))))

/-- What storing one member does, by the field the key names. -/
theorem IAPResponse.setMember_eq (d : decodeState IAPResponse) (m : String × JSON) :
    IAPResponse.setMember d m =
      if sameName "receiptId" m.1 = true then
        ⟨{ d.v with ReceiptID := (storeString d.v.ReceiptID m.2).1 },
          saveError d.savedError (storeString d.v.ReceiptID m.2).2⟩
      else if sameName "productType" m.1 = true then
        ⟨{ d.v with ProductType := (storeString d.v.ProductType m.2).1 },
          saveError d.savedError (storeString d.v.ProductType m.2).2⟩
      else if sameName "productId" m.1 = true then
        ⟨{ d.v with ProductID := (storeString d.v.ProductID m.2).1 },
          saveError d.savedError (storeString d.v.ProductID m.2).2⟩
      else if sameName "purchaseDate" m.1 = true then
        ⟨{ d.v with PurchaseDate := (storeInt64 d.v.PurchaseDate m.2).1 },
          saveError d.savedError (storeInt64 d.v.PurchaseDate m.2).2⟩
      else if sameName "cancelDate" m.1 = true then
        ⟨{ d.v with CancelDate := (storeInt64 d.v.CancelDate m.2).1 },
          saveError d.savedError (storeInt64 d.v.CancelDate m.2).2⟩
      else if sameName "testTransaction" m.1 = true then
        ⟨{ d.v with TestTransaction := (storeBool d.v.TestTransaction m.2).1 },
          saveError d.savedError (storeBool d.v.TestTransaction m.2).2⟩
      else d := by
  unfold IAPResponse.setMember
  rw [IAPResponse.findField_eq]
  split_ifs <;> rfl

theorem saveError_eq_none (s e : Option JsonError) :
    saveError s e = none ↔ s = none ∧ e = none := by
  cases s <;> simp [saveError]

/-- Storing a member saves no error exactly when none was saved before and
the member does not misfit. -/
theorem IAPResponse.setMember_error (d : decodeState IAPResponse) (m : String × JSON)
    (hnum : ∀ lit, m.2 = .num lit → IsNumber lit.data) :
    (IAPResponse.setMember d m).savedError = none
      ↔ d.savedError = none ∧ ¬ IAPResponse.Misfit m := by
  have e1 := storeString_error d.v.ReceiptID m.2
  have e2 := storeString_error d.v.ProductType m.2
  have e3 := storeString_error d.v.ProductID m.2
  have e4 := storeInt64_error d.v.PurchaseDate m.2 hnum
  have e5 := storeInt64_error d.v.CancelDate m.2 hnum
  have e6 := storeBool_error d.v.TestTransaction m.2
  rw [IAPResponse.setMember_eq]
  rcases IAPResponse.names_cases m.1 with ⟨h0, h1, h2, h3, h4, h5⟩ | ⟨h0, h1, h2, h3, h4, h5⟩
    | ⟨h0, h1, h2, h3, h4, h5⟩ | ⟨h0, h1, h2, h3, h4, h5⟩ | ⟨h0, h1, h2, h3, h4, h5⟩
    | ⟨h0, h1, h2, h3, h4, h5⟩ | ⟨h0, h1, h2, h3, h4, h5⟩ <;>
    simp only [h0, h1, h2, h3, h4, h5, IAPResponse.Misfit, Mismatch, if_true, if_false,
      Bool.false_eq_true, false_and, or_false, false_or, true_and, saveError_eq_none,
      e1, e2, e3, e4, e5, e6, not_false_eq_true, and_true]

theorem IAPResponse.foldl_error (ms : List (String × JSON))
    (hnum : ∀ m ∈ ms, ∀ lit, m.2 = .num lit → IsNumber lit.data)
    (d : decodeState IAPResponse) :
    (ms.foldl IAPResponse.setMember d).savedError = none
      ↔ d.savedError = none ∧ ∀ m ∈ ms, ¬ IAPResponse.Misfit m := by
  induction ms generalizing d with
  | nil => simp
  | cons m ms ih =>
    rw [List.foldl_cons, ih (fun x hx => hnum x (List.mem_cons_of_mem _ hx)),
      IAPResponse.setMember_error d m (hnum m (List.mem_cons_self _ _))]
    simp [and_assoc]

/-- Members none of whose keys names a field leave the decode as it is. -/
theorem IAPResponse.foldl_unnamed (ms : List (String × JSON))
    (h : ∀ m ∈ ms, ∀ name ∈ IAPResponse.names, sameName name m.1 = false)
    (d : decodeState IAPResponse) : ms.foldl IAPResponse.setMember d = d :=
  IAPResponse.foldl_unknown ms (fun m hm => findField_none _ _ (h m hm)) d

/-! ## Building texts -/

/-- Characters that stand for themselves in a JSON string. -/
theorem StrText_plain (p : List Char)
    (hp : ∀ c ∈ p, 0x20 ≤ c.toNat ∧ c ≠ '"' ∧ c ≠ '\\') {s ts : List Char}
    (h : StrText s ts) : StrText (p ++ s) (p ++ ts) := by
  induction p with
  | nil => exact h
  | cons c p ih =>
    have hc := hp c (List.mem_cons_self _ _)
    exact StrText.cons c [c] (p ++ s) (p ++ ts) (CharText.plain c hc.1 hc.2.1 hc.2.2)
      (ih (fun x hx => hp x (List.mem_cons_of_mem _ hx)))

theorem IsNumber_first {c : Char} {t : List Char} (h : IsNumber (c :: t)) :
    c = '-' ∨ isDigit c = true := by
  obtain ⟨sg, i, f, e, hsg, hi, _, _, heq⟩ := h
  rcases hsg with rfl | rfl
  · rcases hi with rfl | ⟨d, ds, rfl, h1, h2, _⟩
    · right
      rw [(List.cons.inj heq).1]
      decide
    · right
      rw [(List.cons.inj heq).1]
      exact (isDigit_iff d).mpr ⟨by omega, h2⟩
  · left
    exact (List.cons.inj heq).1

/-- A body on which the decoder fails, and which does not start with a
number, does not start with a JSON text. -/
theorem no_text_of_error {body : String} {e : JsonError} (h : readValue body = .error e)
    (hhead : (skipSpace body.data).head?.all (fun c => c != '-' && !isDigit c) = true) :
    ∀ k j w t tail, k ≤ maxNestingDepth → Blank w → body.data = w ++ (t ++ tail) →
      ¬ Text k (.val j) t := by
  intro k j w t tail hk hw hb ht
  have hv : ValueHead t := ht.first
  have hskip : skipSpace body.data = t ++ tail := by
    rw [hb]
    exact skipSpace_Blank hw (NoBlankHead_ValueHead hv tail)
  have hn : (∃ lit, j = .num lit) → NumberEnds tail := by
    rintro ⟨lit, rfl⟩
    exfalso
    obtain ⟨c, t1, rfl, _⟩ := hv
    rw [hskip] at hhead
    simp only [List.cons_append, List.head?_cons, Option.all_some, Bool.and_eq_true,
      bne_iff_ne, ne_eq, Bool.not_eq_true'] at hhead
    cases ht with
    | num _ _ hnum =>
      rcases IsNumber_first hnum with h1 | h1
      · exact hhead.1 h1
      · rw [hhead.2] at h1
        cases h1
  rw [readValue_complete hk hw hb ht hn] at h
  cases h

/-- A string without quote, backslash and control characters is its own text. -/
theorem StrText_self (p : List Char)
    (hp : ∀ c ∈ p, 0x20 ≤ c.toNat ∧ c ≠ '"' ∧ c ≠ '\\') : StrText p p := by
  have h := StrText_plain p hp StrText.nil
  simpa using h

/-- The text `\uXXXX` with the four digits given. -/
theorem Escape_digits (x y z w : Nat) (a b c d : Char) (ha : HexDigit x a)
    (hb : HexDigit y b) (hc : HexDigit z c) (hd : HexDigit w d) :
    Escape (((x * 16 + y) * 16 + z) * 16 + w) ['\\', 'u', a, b, c, d] :=
  ⟨x, y, z, w, a, b, c, d, ha, hb, hc, hd, rfl, rfl⟩

theorem IsNumber_digits (d : Char) (ds : List Char) (hd : 49 ≤ d.toNat ∧ d.toNat ≤ 57)
    (hds : Digits ds) : IsNumber (d :: ds) :=
  ⟨[], d :: ds, [], [], Or.inl rfl, Or.inr ⟨d, ds, rfl, hd.1, hd.2, hds⟩, Or.inl rfl,
    Or.inl rfl, by simp⟩

/-! ## What `Verify` makes of an encoded record -/

/-- The decoder reads an encoding of a success record as the object of its
members. -/
theorem IAPResponse.readValue_Encoded {r : IAPResponse} {body : String}
    (h : r.Encoded body) :
    ∃ ms pd cd, readValue body = .ok (.obj ms) ∧ ms.Perm (r.members pd cd)
      ∧ IntLit r.PurchaseDate pd ∧ IntLit r.CancelDate cd := by
  obtain ⟨k, w, t, w1, ms, pd, cd, hw, _, hb, ht, hms, hpd, hcd⟩ := h
  have hsc : ∀ m ∈ ms, m.2.isScalar = true := by
    intro m hm
    have := hms.subset hm
    simp only [IAPResponse.members, List.mem_cons, List.mem_singleton, List.not_mem_nil,
      or_false] at this
    rcases this with rfl | rfl | rfl | rfl | rfl | rfl <;> rfl
  exact ⟨ms, pd, cd,
    readValue_complete (show 1 ≤ maxNestingDepth by decide) hw hb (Text_record ht hsc)
      (by rintro ⟨_, h⟩; cases h),
    hms, hpd, hcd⟩

/-- The decoder reads an encoding of an error record as the object of its
members. -/
theorem IAPResponseError.readValue_EncodedError {e : IAPResponseError} {body : String}
    (h : e.Encoded body) :
    ∃ ms, readValue body = .ok (.obj ms) ∧ ms.Perm e.members := by
  obtain ⟨k, w, t, w1, ms, hw, _, hb, ht, hms⟩ := h
  have hsc : ∀ m ∈ ms, m.2.isScalar = true := by
    intro m hm
    have := hms.subset hm
    simp only [IAPResponseError.members, List.mem_cons, List.mem_singleton,
      List.not_mem_nil, or_false] at this
    rcases this with rfl | rfl <;> rfl
  exact ⟨ms,
    readValue_complete (show 1 ≤ maxNestingDepth by decide) hw hb (Text_record ht hsc)
      (by rintro ⟨_, h⟩; cases h),
    hms⟩

/-- What `Verify` makes of a response with a status in `[200, 300)` whose body
the decoder reads as the value `j`. -/
theorem interpret_ok {s : Int} {body : String} {j : JSON} (hlo : 200 ≤ s) (hhi : s < 300)
    (hbody : readValue body = .ok j) :
    interpret ⟨s, body, none⟩
      = ((unmarshal IAPResponse.setMember j IAPResponse.zero).1,
          (unmarshal IAPResponse.setMember j IAPResponse.zero).2.map GoError.json) := by
  have hs : ¬ (s < 200 ∨ s ≥ 300) := by omega
  simp [interpret, hs, Decode, hbody]

/-- What `Verify` makes of a response with a status in `[200, 300)` whose body
starts with a number, well-formed or not: an error, and the zero-valued
result. -/
theorem interpret_number {s : Int} {body : String} {w rest : List Char} {d : Char}
    (hlo : 200 ≤ s) (hhi : s < 300) (hw : Blank w) (hb : body.data = w ++ d :: rest)
    (hd : d = '-' ∨ (48 ≤ d.toNat ∧ d.toNat ≤ 57)) :
    ∃ e, interpret ⟨s, body, none⟩ = (IAPResponse.zero, some (.json e)) := by
  have hs : ¬ (s < 200 ∨ s ≥ 300) := by omega
  rcases hread : readValue body with e | j
  · exact ⟨e, by simp [interpret, hs, Decode, hread]⟩
  · obtain ⟨w1, t, tail, hw1, hdata, ht⟩ := readValue_sound hread
    have hds : isSpace d = false := by
      cases h : isSpace d with
      | false => rfl
      | true =>
        exfalso
        rcases (isSpace_iff d).mp h with rfl | rfl | rfl | rfl <;> revert hd <;> decide
    have h1 : skipSpace body.data = d :: rest := by
      rw [hb]
      exact skipSpace_Blank hw (NoBlankHead_cons hds rest)
    have h2 : skipSpace body.data = t ++ tail := by
      rw [hdata]
      exact skipSpace_Blank hw1 (NoBlankHead_ValueHead ht.first tail)
    have h3 : t ++ tail = d :: rest := h2.symm.trans h1
    have key : ∀ c0 : Char, ¬ (c0 = '-' ∨ (48 ≤ c0.toNat ∧ c0.toNat ≤ 57)) →
        ∀ t1, c0 :: t1 = d :: rest → False := by
      intro c0 hc0 t1 heq
      rw [(List.cons.inj heq).1] at hc0
      exact hc0 hd
    have hj : ∃ lit, j = .num lit := by
      cases ht with
      | num _ _ _ => exact ⟨_, rfl⟩
      | litNull _ => exact (key 'n' (by decide) _ h3).elim
      | litTrue _ => exact (key 't' (by decide) _ h3).elim
      | litFalse _ => exact (key 'f' (by decide) _ h3).elim
      | str _ _ _ _ => exact (key '"' (by decide) _ h3).elim
      | arrNil _ _ _ => exact (key '[' (by decide) _ h3).elim
      | arr _ _ _ _ _ _ => exact (key '[' (by decide) _ h3).elim
      | objNil _ _ _ => exact (key (Char.ofNat 123) (by decide) _ h3).elim
      | obj _ _ _ _ _ _ => exact (key (Char.ofNat 123) (by decide) _ h3).elim
    obtain ⟨lit, rfl⟩ := hj
    exact ⟨.UnmarshalTypeError "number", by simp [interpret, hs, Decode, hread, unmarshal]⟩

/-! ## The claims -/

set_option maxRecDepth 100000

/-- C1: when the request gets a response with a status `s`, `200 ≤ s < 300`,
and the body is a JSON encoding of a success record `r` with 64-bit dates,
`Verify` returns `r`, each field equal to the JSON field, and no error.  The
encodings are those of the grammar of JSON (`IAPResponse.Encoded`): one object
with the six members `receiptId`, `productType`, `productId`, `purchaseDate`,
`cancelDate`, `testTransaction` in any order, with blanks between the tokens
and around the object, each string and each key written with any of the
escapes of JSON, the dates as integers in plain decimal.  The text `r.encode`
is one of them. -/
theorem Verify_success (gorequest : Transport) (c : Client) (userID receiptID : String)
    (s : Int) (body : String) (r : IAPResponse)
    (hreq : gorequest (requestURL c userID receiptID) c.TimeOut = ⟨s, body, none⟩)
    (hlo : 200 ≤ s) (hhi : s < 300)
    (hp1 : -2 ^ 63 ≤ r.PurchaseDate) (hp2 : r.PurchaseDate < 2 ^ 63)
    (hc1 : -2 ^ 63 ≤ r.CancelDate) (hc2 : r.CancelDate < 2 ^ 63) :
    (r.Encoded body → Verify gorequest c userID receiptID = (r, none))
      ∧ (body = r.encode → Verify gorequest c userID receiptID = (r, none)) := by
  have main : ∀ ms pd cd, readValue body = .ok (.obj ms) →
      ms.Perm (r.members pd cd) → ParseInt pd = some r.PurchaseDate →
      ParseInt cd = some r.CancelDate →
      Verify gorequest c userID receiptID = (r, none) := by
    intro ms pd cd hbody hms hpd hcd
    have hfold := List.Perm.foldl_eq' hms.symm
      (IAPResponse.setMember_comm r pd cd hpd hcd) ⟨IAPResponse.zero, none⟩
    rw [IAPResponse.foldl_members r pd cd hpd hcd] at hfold
    rw [Verify, hreq, interpret_ok hlo hhi hbody]
    simp [unmarshal, ← hfold]
  constructor
  · intro henc
    obtain ⟨ms, pd, cd, hbody, hms, hpd, hcd⟩ := IAPResponse.readValue_Encoded henc
    exact main ms pd cd hbody hms (ParseInt_of_IntLit hpd hp1 hp2)
      (ParseInt_of_IntLit hcd hc1 hc2)
  · intro hb
    subst hb
    exact main _ _ _ (readValue_encode r) (List.Perm.refl _)
      (ParseInt_intLit _ hp1 hp2) (ParseInt_intLit _ hc1 hc2)

/-- Witness of C1: a response `200` whose body lists the members in another
order than the struct, with blanks around the object and between the tokens,
the escapes `\u002d` and `\n`, a surrogate pair, and `-0` for a date. -/
theorem Verify_success_witness :
    Verify
        (fun _ _ => ⟨200,
          " \x7b\"productId\" : \"sku\\u002d1\\n\",\"receiptId\":\"r-\\ud83d\\ude00\",\n \"productType\":\"ENTITLED\",\"purchaseDate\":1402008634018,\"cancelDate\":-0,\"testTransaction\":true\x7d \n",
          none⟩)
        ⟨SandboxURL, "secret", 5 * Second⟩ "user" "receipt"
      = (⟨String.mk ['r', '-', Char.ofNat 0x1F600], "ENTITLED", "sku-1\n", 1402008634018, 0,
          true⟩, none) :=
  (Verify_success _ _ _ _ 200
    " \x7b\"productId\" : \"sku\\u002d1\\n\",\"receiptId\":\"r-\\ud83d\\ude00\",\n \"productType\":\"ENTITLED\",\"purchaseDate\":1402008634018,\"cancelDate\":-0,\"testTransaction\":true\x7d \n"
    ⟨String.mk ['r', '-', Char.ofNat 0x1F600], "ENTITLED", "sku-1\n", 1402008634018, 0, true⟩
    rfl (by decide) (by decide) (by decide) (by decide) (by decide) (by decide)).1
    ⟨1, [' '],
      "\x7b\"productId\" : \"sku\\u002d1\\n\",\"receiptId\":\"r-\\ud83d\\ude00\",\n \"productType\":\"ENTITLED\",\"purchaseDate\":1402008634018,\"cancelDate\":-0,\"testTransaction\":true\x7d".data,
      [' ', '\n'],
      [("productId", .str "sku-1\n"),
        ("receiptId", .str (String.mk ['r', '-', Char.ofNat 0x1F600])),
        ("productType", .str "ENTITLED"), ("purchaseDate", .num "1402008634018"),
        ("cancelDate", .num "-0"), ("testTransaction", .bool true)],
      "1402008634018", "-0",
      by unfold Blank; decide, by unfold Blank; decide, rfl,
      Text.obj 0 [] _ _ Blank.empty
        (Text.membersMore 0 "productId".data "productId".data [' '] [' '] (.str "sku-1\n")
          "\"sku\\u002d1\\n\"".data [] [] _ _
          (StrText_self _ (by decide)) (by unfold Blank; decide) (by unfold Blank; decide)
          (Text.str 0 "sku-1\n".data "sku\\u002d1\\n".data
            (StrText_plain "sku".data (by decide)
              (StrText.cons '-' "\\u002d".data "1\n".data "1\\n".data
                (CharText.unit '-' _
                  (Escape_digits 0 0 2 13 '0' '0' '2' 'd' (Or.inl ⟨by decide, rfl⟩)
                    (Or.inl ⟨by decide, rfl⟩) (Or.inl ⟨by decide, rfl⟩)
                    (Or.inr ⟨by decide, by decide, Or.inl rfl⟩)))
                (StrText_plain "1".data (by decide)
                  (StrText.cons '\n' ['\\', 'n'] [] [] CharText.newline StrText.nil)))))
          Blank.empty Blank.empty
          (Text.membersMore 0 "receiptId".data "receiptId".data [] []
            (.str (String.mk ['r', '-', Char.ofNat 0x1F600]))
            "\"r-\\ud83d\\ude00\"".data [] ['\n', ' '] _ _
            (StrText_self _ (by decide)) Blank.empty Blank.empty
            (Text.str 0 ['r', '-', Char.ofNat 0x1F600] "r-\\ud83d\\ude00".data
              (StrText_plain "r-".data (by decide)
                (StrText.cons (Char.ofNat 0x1F600) ("\\ud83d".data ++ "\\ude00".data) [] []
                  (CharText.pair (Char.ofNat 0x1F600) "\\ud83d".data "\\ude00".data
                    (by decide)
                    (Escape_digits 13 8 3 13 'd' '8' '3' 'd'
                      (Or.inr ⟨by decide, by decide, Or.inl rfl⟩) (Or.inl ⟨by decide, rfl⟩)
                      (Or.inl ⟨by decide, rfl⟩) (Or.inr ⟨by decide, by decide, Or.inl rfl⟩))
                    (Escape_digits 13 14 0 0 'd' 'e' '0' '0'
                      (Or.inr ⟨by decide, by decide, Or.inl rfl⟩)
                      (Or.inr ⟨by decide, by decide, Or.inl rfl⟩) (Or.inl ⟨by decide, rfl⟩)
                      (Or.inl ⟨by decide, rfl⟩)))
                  StrText.nil)))
            Blank.empty (by unfold Blank; decide)
            (Text.membersMore 0 "productType".data "productType".data [] []
              (.str "ENTITLED") "\"ENTITLED\"".data [] [] _ _
              (StrText_self _ (by decide)) Blank.empty Blank.empty
              (Text.str 0 "ENTITLED".data "ENTITLED".data (StrText_self _ (by decide)))
              Blank.empty Blank.empty
              (Text.membersMore 0 "purchaseDate".data "purchaseDate".data [] []
                (.num "1402008634018") "1402008634018".data [] [] _ _
                (StrText_self _ (by decide)) Blank.empty Blank.empty
                (Text.num 0 "1402008634018".data
                  (IsNumber_digits '1' "402008634018".data (by decide)
                    (by unfold Digits; decide)))
                Blank.empty Blank.empty
                (Text.membersMore 0 "cancelDate".data "cancelDate".data [] []
                  (.num "-0") "-0".data [] [] _ _
                  (StrText_self _ (by decide)) Blank.empty Blank.empty
                  (Text.num 0 "-0".data
                    ⟨['-'], ['0'], [], [], Or.inr rfl, Or.inl rfl, Or.inl rfl, Or.inl rfl, rfl⟩)
                  Blank.empty Blank.empty
                  (Text.membersLast 0 "testTransaction".data "testTransaction".data [] []
                    (.bool true) "true".data []
                    (StrText_self _ (by decide)) Blank.empty Blank.empty (Text.litTrue 0)
                    Blank.empty)))))),
      (List.Perm.swap _ _ _).trans (List.Perm.cons _ (List.Perm.swap _ _ _)),
      Or.inl (natLit_of_parseDigits (Or.inr ⟨'1', "402008634018".data, rfl, by decide,
        by decide, by unfold Digits; decide⟩) (by decide)),
      Or.inr ⟨rfl, rfl⟩⟩

/-- C2: when the request gets a response with a status outside `[200, 300)` and
the body is a JSON encoding of the error record with message `m` and status
`b`, `Verify` returns the error whose message is `m`, and the zero-valued
result.  The encodings are those of the grammar of JSON
(`IAPResponseError.Encoded`): one object with the members `message` and
`status` in either order, with blanks between the tokens and around the
object, the message and the keys written with any of the escapes of JSON.  The
text `IAPResponseError.encode` of the record is one of them. -/
theorem Verify_rejection_message (gorequest : Transport) (c : Client)
    (userID receiptID : String) (s : Int) (body : String) (m : String) (b : Bool)
    (hreq : gorequest (requestURL c userID receiptID) c.TimeOut = ⟨s, body, none⟩)
    (hs : s < 200 ∨ s ≥ 300) :
    (IAPResponseError.Encoded ⟨m, b⟩ body →
        Verify gorequest c userID receiptID = (IAPResponse.zero, some (.errorString m)))
      ∧ (body = IAPResponseError.encode ⟨m, b⟩ →
        Verify gorequest c userID receiptID = (IAPResponse.zero, some (.errorString m))) := by
  have main : ∀ ms, readValue body = .ok (.obj ms) →
      ms.Perm (IAPResponseError.members ⟨m, b⟩) →
      Verify gorequest c userID receiptID = (IAPResponse.zero, some (.errorString m)) := by
    intro ms hbody hms
    have hfold := List.Perm.foldl_eq' hms.symm (IAPResponseError.setErrorMember_comm ⟨m, b⟩)
      ⟨IAPResponseError.zero, none⟩
    rw [IAPResponseError.foldl_errorMembers] at hfold
    simp [Verify, interpret, hreq, hs, Decode, hbody, unmarshal, ← hfold]
  constructor
  · intro henc
    obtain ⟨ms, hbody, hms⟩ := IAPResponseError.readValue_EncodedError henc
    exact main ms hbody hms
  · intro hb
    subst hb
    exact main _ (readValue_encodeError _) (List.Perm.refl _)

/-- Witness of C2: status `400` and the error record of the specification,
written with blanks around the tokens and after the object, and with an escape
for the space in the message. -/
theorem Verify_rejection_message_witness :
    Verify
        (fun _ _ => ⟨400,
          "\x7b \"message\" : \"invalid\\u0020receipt\", \"status\":false \x7d\n", none⟩)
        ⟨SandboxURL, "secret", 5 * Second⟩ "user" "receipt"
      = (IAPResponse.zero, some (.errorString "invalid receipt")) :=
  (Verify_rejection_message _ _ _ _ 400
    "\x7b \"message\" : \"invalid\\u0020receipt\", \"status\":false \x7d\n"
    "invalid receipt" false rfl (by decide)).1
    ⟨1, [], "\x7b \"message\" : \"invalid\\u0020receipt\", \"status\":false \x7d".data, ['\n'],
      [("message", .str "invalid receipt"), ("status", .bool false)],
      Blank.empty, by unfold Blank; decide, rfl,
      Text.obj 0 [' '] _ _ (by unfold Blank; decide)
        (Text.membersMore 0 "message".data "message".data [' '] [' ']
          (.str "invalid receipt") "\"invalid\\u0020receipt\"".data [] [' '] _ _
          (StrText_self _ (by decide)) (by unfold Blank; decide) (by unfold Blank; decide)
          (Text.str 0 "invalid receipt".data "invalid\\u0020receipt".data
            (StrText_plain "invalid".data (by decide)
              (StrText.cons ' ' "\\u0020".data "receipt".data "receipt".data
                (CharText.unit ' ' _
                  (Escape_digits 0 0 2 0 '0' '0' '2' '0' (Or.inl ⟨by decide, rfl⟩)
                    (Or.inl ⟨by decide, rfl⟩) (Or.inl ⟨by decide, rfl⟩)
                    (Or.inl ⟨by decide, rfl⟩)))
                (StrText_self _ (by decide)))))
          Blank.empty (by unfold Blank; decide)
          (Text.membersLast 0 "status".data "status".data [] [] (.bool false) "false".data
            [' '] (StrText_self _ (by decide)) Blank.empty Blank.empty (Text.litFalse 0)
            (by unfold Blank; decide))),
      List.Perm.refl _⟩

/-- C3: when the request gets a response with a status outside `[200, 300)`,
whatever the body, `Verify` returns a non-nil error (and the zero-valued result):
it never reports success. -/
theorem Verify_rejection_never_success (gorequest : Transport) (c : Client)
    (userID receiptID : String) (s : Int) (body : String)
    (hreq : gorequest (requestURL c userID receiptID) c.TimeOut = ⟨s, body, none⟩)
    (hs : s < 200 ∨ s ≥ 300) :
    (Verify gorequest c userID receiptID).2 ≠ none
      ∧ (Verify gorequest c userID receiptID).1 = IAPResponse.zero := by
  simp [Verify, interpret, hreq, hs]

/-- Witness of C3: status `500` with a body that is a well-formed success
record. -/
theorem Verify_rejection_never_success_witness :
    (Verify (fun _ _ => ⟨500, "\x7b\"receiptId\":\"r-1\"\x7d", none⟩)
        ⟨SandboxURL, "secret", 5 * Second⟩ "user" "receipt").2 ≠ none
      ∧ (Verify (fun _ _ => ⟨500, "\x7b\"receiptId\":\"r-1\"\x7d", none⟩)
        ⟨SandboxURL, "secret", 5 * Second⟩ "user" "receipt").1 = IAPResponse.zero :=
  Verify_rejection_never_success _ _ _ _ 500 _ rfl (by decide)

/-- Counterexample to C4 as stated: the body `{}x` is not a valid JSON text,
and with status `200` `Verify` returns no error: the decoder reads the first
value of the stream and leaves the rest unread. -/
theorem Verify_trailing_text_accepted :
    Valid "\x7b\x7dx" = false
      ∧ Verify (fun _ _ => ⟨200, "\x7b\x7dx", none⟩)
          ⟨SandboxURL, "secret", 5 * Second⟩ "user" "receipt" = (IAPResponse.zero, none) := by
  decide

/-- C4, amended: with a status `s`, `200 ≤ s < 300`, a body that does not
start, after blanks, with a JSON text nested within the decoder's limit makes
`Verify` return the zero-valued result and the error of the decoder.  A body
that starts with a JSON text (a number ending where the text ends) gives what
the text alone gives, whatever follows the text.  A body that starts with a
number, well-formed or not, is rejected. -/
theorem Verify_malformed_first_value (gorequest : Transport) (c : Client)
    (userID receiptID : String) (s : Int) (body : String)
    (hreq : gorequest (requestURL c userID receiptID) c.TimeOut = ⟨s, body, none⟩)
    (hlo : 200 ≤ s) (hhi : s < 300) :
    ((∀ k j w t tail, k ≤ maxNestingDepth → Blank w → body.data = w ++ (t ++ tail) →
          ¬ Text k (.val j) t) →
        ∃ e, readValue body = .error e
          ∧ Verify gorequest c userID receiptID = (IAPResponse.zero, some (.json e)))
      ∧ (∀ k j w t tail, k ≤ maxNestingDepth → Blank w → body.data = w ++ (t ++ tail) →
          Text k (.val j) t → ((∃ lit, j = .num lit) → NumberEnds tail) →
          Verify gorequest c userID receiptID
            = Verify (fun _ _ => ⟨s, String.mk t, none⟩) c userID receiptID)
      ∧ (∀ w d rest, Blank w → body.data = w ++ d :: rest →
          (d = '-' ∨ (48 ≤ d.toNat ∧ d.toNat ≤ 57)) →
          ∃ e, Verify gorequest c userID receiptID = (IAPResponse.zero, some (.json e))) := by
  have hs : ¬ (s < 200 ∨ s ≥ 300) := by omega
  refine ⟨?_, ?_, ?_⟩
  · intro hno
    rcases hb : readValue body with e | j
    · exact ⟨e, rfl, by simp [Verify, interpret, hreq, hs, Decode, hb]⟩
    · obtain ⟨w, t, tail, hw, hdata, ht⟩ := readValue_sound hb
      exact absurd ht (hno _ j w t tail (Nat.le_refl _) hw hdata)
  · intro k j w t tail hk hw hdata ht hn
    have h1 := readValue_complete hk hw hdata ht hn
    have h2 : readValue (String.mk t) = .ok j :=
      @readValue_complete (String.mk t) k j [] t [] hk Blank.empty (by simp) ht
        (fun _ _ _ h => nomatch h)
    rw [Verify, hreq, interpret_ok hlo hhi h1, Verify, interpret_ok hlo hhi h2]
  · intro w d rest hw hdata hd
    rw [Verify, hreq]
    exact interpret_number hlo hhi hw hdata hd

/-- Witness of C4, amended: an object that is not closed is rejected with the
error of the decoder; the body `{}x` gives what `{}` gives; the body `01` is
rejected. -/
theorem Verify_malformed_first_value_witness :
    (∃ e, readValue "\x7b\"receiptId\":\"r-1\"," = .error e
        ∧ Verify (fun _ _ => ⟨200, "\x7b\"receiptId\":\"r-1\",", none⟩)
            ⟨SandboxURL, "secret", 5 * Second⟩ "user" "receipt"
          = (IAPResponse.zero, some (.json e)))
      ∧ Verify (fun _ _ => ⟨200, "\x7b\x7dx", none⟩)
            ⟨SandboxURL, "secret", 5 * Second⟩ "user" "receipt"
          = Verify (fun _ _ => ⟨200, "\x7b\x7d", none⟩)
            ⟨SandboxURL, "secret", 5 * Second⟩ "user" "receipt"
      ∧ ∃ e, Verify (fun _ _ => ⟨200, "01", none⟩)
            ⟨SandboxURL, "secret", 5 * Second⟩ "user" "receipt"
          = (IAPResponse.zero, some (.json e)) :=
  ⟨(Verify_malformed_first_value _ _ _ _ 200 "\x7b\"receiptId\":\"r-1\","
      rfl (by decide) (by decide)).1
      (@no_text_of_error "\x7b\"receiptId\":\"r-1\"," .ErrUnexpectedEOF rfl rfl),
    (Verify_malformed_first_value (fun _ _ => ⟨200, "\x7b\x7dx", none⟩)
      ⟨SandboxURL, "secret", 5 * Second⟩ "user" "receipt" 200 "\x7b\x7dx"
      rfl (by decide) (by decide)).2.1 1 (.obj []) [] "\x7b\x7d".data ['x'] (by decide)
      Blank.empty rfl (Text.objNil 0 [] Blank.empty) (fun ⟨_, h⟩ => nomatch h),
    (Verify_malformed_first_value (fun _ _ => ⟨200, "01", none⟩)
      ⟨SandboxURL, "secret", 5 * Second⟩ "user" "receipt" 200 "01"
      rfl (by decide) (by decide)).2.2 [] '0' ['1'] Blank.empty rfl (Or.inr (by decide))⟩

/-- Counterexample to C6 as stated: the bodies `{}` and
`{"message":"invalid receipt","status":false}` are valid JSON and carry none of
the six success fields; with status `200` `Verify` returns the zero-valued
result and no error for each. -/
theorem Verify_empty_object_success :
    Valid "\x7b\x7d" = true
      ∧ Verify (fun _ _ => ⟨200, "\x7b\x7d", none⟩)
          ⟨SandboxURL, "secret", 5 * Second⟩ "user" "receipt" = (IAPResponse.zero, none)
      ∧ Valid "\x7b\"message\":\"invalid receipt\",\"status\":false\x7d" = true
      ∧ Verify
          (fun _ _ => ⟨200, "\x7b\"message\":\"invalid receipt\",\"status\":false\x7d", none⟩)
          ⟨SandboxURL, "secret", 5 * Second⟩ "user" "receipt" = (IAPResponse.zero, none) := by
  decide

/-- C6, amended: with a status `s`, `200 ≤ s < 300`, and a body that starts
with the JSON text of a value `j`, nested within the decoder's limit, `Verify`
fails with a decode error exactly when `j` is not of the shape of a success
record: `j` is a string, a number, a boolean or an array, or an object with a
member whose key is the name of one of the six fields, letter case apart, and
whose value is neither `null` nor of the type of that field.  The result is
zero-valued when `j` is not an object.  For `null`, and for an object none of
whose keys is the name of a field, `Verify` returns the zero-valued result and
no error. -/
theorem Verify_shape (gorequest : Transport) (c : Client)
    (userID receiptID : String) (s : Int) (body : String) (k : Nat) (j : JSON)
    (w t tail : List Char)
    (hreq : gorequest (requestURL c userID receiptID) c.TimeOut = ⟨s, body, none⟩)
    (hlo : 200 ≤ s) (hhi : s < 300)
    (hk : k ≤ maxNestingDepth) (hw : Blank w) (hbody : body.data = w ++ (t ++ tail))
    (ht : Text k (.val j) t) :
    ((Verify gorequest c userID receiptID).2 ≠ none ↔ ¬ IAPResponse.Shape j)
      ∧ ((∀ ms, j ≠ .obj ms) → (Verify gorequest c userID receiptID).1 = IAPResponse.zero)
      ∧ ((j = .null ∨ ∃ ms, j = .obj ms
            ∧ ∀ m ∈ ms, ∀ name ∈ IAPResponse.names, sameName name m.1 = false) →
          Verify gorequest c userID receiptID = (IAPResponse.zero, none)) := by
  by_cases hnum : ∃ lit, j = .num lit
  · obtain ⟨lit, rfl⟩ := hnum
    have hnumber : IsNumber t := by
      cases ht with
      | num _ _ h => exact h
    obtain ⟨d, t1, rfl, _⟩ := ValueHead_IsNumber hnumber
    have hd : d = '-' ∨ (48 ≤ d.toNat ∧ d.toNat ≤ 57) :=
      (IsNumber_first hnumber).imp id (isDigit_iff d).mp
    obtain ⟨e, he⟩ := interpret_number hlo hhi hw hbody hd
    rw [Verify, hreq, he]
    refine ⟨by simp [IAPResponse.Shape], fun _ => rfl, ?_⟩
    rintro (h | ⟨ms, h, _⟩) <;> cases h
  · have hread := readValue_complete hk hw hbody ht (fun h => absurd h hnum)
    rw [Verify, hreq, interpret_ok hlo hhi hread]
    refine ⟨?_, ?_, ?_⟩
    · cases j with
      | obj ms =>
        have h := IAPResponse.foldl_error ms (Text_obj ht) ⟨IAPResponse.zero, none⟩
        simp only [true_and] at h
        simp only [unmarshal, ne_eq, Option.map_eq_none', h, IAPResponse.Shape]
      | _ => simp [unmarshal, IAPResponse.Shape]
    · intro hj
      cases j with
      | obj ms => exact absurd rfl (hj ms)
      | _ => rfl
    · rintro (rfl | ⟨ms, rfl, hms⟩)
      · rfl
      · simp [unmarshal, IAPResponse.foldl_unnamed ms hms]

/-- Witness of C6, amended: an object whose key `RECEIPTID` names the field
`receiptId`, letter case apart, with a number for the string: `Verify` fails. -/
theorem Verify_shape_witness :
    (Verify (fun _ _ => ⟨200, "\x7b\"RECEIPTID\": 5\x7d", none⟩)
        ⟨SandboxURL, "secret", 5 * Second⟩ "user" "receipt").2 ≠ none :=
  (Verify_shape (fun _ _ => ⟨200, "\x7b\"RECEIPTID\": 5\x7d", none⟩)
    ⟨SandboxURL, "secret", 5 * Second⟩ "user" "receipt" 200 "\x7b\"RECEIPTID\": 5\x7d" 1
    (.obj [("RECEIPTID", .num "5")]) [] "\x7b\"RECEIPTID\": 5\x7d".data []
    rfl (by decide) (by decide) (by decide) Blank.empty rfl
    (Text.obj 0 [] _ _ Blank.empty
      (Text.membersLast 0 "RECEIPTID".data "RECEIPTID".data [] [' '] (.num "5") ['5'] []
        (StrText_self _ (by decide)) Blank.empty (by unfold Blank; decide)
        (Text.num 0 ['5'] (IsNumber_digits '5' [] (by decide) Digits.nil)) Blank.empty))).1.mpr
    (fun hsh => hsh ("RECEIPTID", .num "5") (List.mem_singleton.mpr rfl)
      (Or.inl ⟨by decide, (by intro h; cases h), (by intro y h; cases h)⟩))

/-- C7: the URL `Verify` requests is the base URL of the client, followed by
`/version/1.0/verifyReceiptId/developer/`, the secret, `/user/`, the user ID,
`/receiptId/` and the receipt ID, each as it is given: the result of `Verify`
is what it makes of the outcome of the request of that URL with the timeout of
the client. -/
theorem Verify_requestURL (gorequest : Transport) (c : Client) (userID receiptID : String) :
    requestURL c userID receiptID
        = c.URL ++ "/version/1.0/verifyReceiptId/developer/" ++ c.Secret ++ "/user/"
            ++ userID ++ "/receiptId/" ++ receiptID
      ∧ Verify gorequest c userID receiptID
        = interpret (gorequest
            (c.URL ++ "/version/1.0/verifyReceiptId/developer/" ++ c.Secret ++ "/user/"
              ++ userID ++ "/receiptId/" ++ receiptID) c.TimeOut) := by
  have h : requestURL c userID receiptID
      = c.URL ++ "/version/1.0/verifyReceiptId/developer/" ++ c.Secret ++ "/user/"
          ++ userID ++ "/receiptId/" ++ receiptID := by
    apply String.ext
    simp [requestURL, Sprintf, doPrintf, Operand.formatV]
  exact ⟨h, by rw [Verify, h]⟩

/-- C8: when the transport reports a failure (a non-nil list of errors),
whatever the status code and the body that come with it, `Verify` returns the
zero-valued result and the error whose message is the list printed with `%v`:
the messages between square brackets, separated by a space. -/
theorem Verify_transport_failure (gorequest : Transport) (c : Client)
    (userID receiptID : String) (errs : List String)
    (h : (gorequest (requestURL c userID receiptID) c.TimeOut).errs = some errs) :
    Verify gorequest c userID receiptID
      = (IAPResponse.zero, some (.errorString ("[" ++ " ".intercalate errs ++ "]"))) := by
  simp only [Verify, interpret, h, Errorf, Sprintf_errs]

/-- Witness of C8: a failure that comes with status `200` and a well-formed
success body. -/
theorem Verify_transport_failure_witness :
    Verify
        (fun _ _ => ⟨200, "\x7b\"receiptId\":\"r-1\"\x7d",
          some ["Get http://localhost:8080: dial tcp: connection refused", "timeout"]⟩)
        ⟨SandboxURL, "secret", 5 * Second⟩ "user" "receipt"
      = (IAPResponse.zero,
          some (.errorString ("[" ++ " ".intercalate
            ["Get http://localhost:8080: dial tcp: connection refused", "timeout"] ++ "]"))) :=
  Verify_transport_failure _ _ _ _ _ rfl

/-- C9: `New` selects the production URL when `IAP_ENVIRONMENT` is exactly
`production` and the sandbox URL for every other value, `NewWithConfig` selects
the production URL when `IsProduction` is set and the sandbox URL otherwise; the
secret of the client is the secret given; the two URLs differ. -/
theorem endpoint_selection (getenv : String → String) (secret : String) (config : Config) :
    (New getenv secret).URL
        = (if getenv "IAP_ENVIRONMENT" = "production" then ProductionURL else SandboxURL)
      ∧ (New getenv secret).Secret = secret
      ∧ (NewWithConfig config).URL
        = (if config.IsProduction = true then ProductionURL else SandboxURL)
      ∧ (NewWithConfig config).Secret = config.Secret
      ∧ ProductionURL ≠ SandboxURL := by
  refine ⟨?_, ?_, ?_, ?_, by decide⟩
  · unfold New; split <;> simp_all
  · unfold New; split <;> rfl
  · obtain ⟨p, s, t⟩ := config
    by_cases ht : t = 0 <;> cases p <;> simp [NewWithConfig, ht]
  · obtain ⟨p, s, t⟩ := config
    by_cases ht : t = 0 <;> cases p <;> simp [NewWithConfig, ht]

/-- C10: `NewWithConfig` with `TimeOut` 0 gives the same client as with
`TimeOut` 5 seconds, whose `TimeOut` is 5 seconds; a `TimeOut` other than 0 is
kept as it is. -/
theorem NewWithConfig_timeout (s : String) (p : Bool) (t : Duration) :
    NewWithConfig ⟨p, s, 0⟩ = NewWithConfig ⟨p, s, 5 * Second⟩
      ∧ (NewWithConfig ⟨p, s, 0⟩).TimeOut = 5 * Second
      ∧ (t ≠ 0 → (NewWithConfig ⟨p, s, t⟩).TimeOut = t) := by
  refine ⟨?_, ?_, ?_⟩
  · cases p <;> simp [NewWithConfig, Second]
  · cases p <;> simp [NewWithConfig, Second]
  · intro ht
    cases p <;> simp [NewWithConfig, ht]

/-- Witness of C10: a timeout of one nanosecond is kept. -/
theorem NewWithConfig_timeout_witness :
    (1 : Duration) ≠ 0 ∧ (NewWithConfig ⟨true, "secret", 1⟩).TimeOut = 1 :=
  ⟨by decide, (NewWithConfig_timeout "secret" true 1).2.2 (by decide)⟩

end amazon
